import Mathlib

/-!
Verification development for the parallel Super Scalar String Sample-Sort
(pS5) of `src/lce-test/util_ssss_par/bingmann-sample-sort/src/parallel/
bingmann-parallel_sample_sort.cpp`.

The sorter is embedded shallowly:

* A string is modelled as the list of its content bytes before the first
  NUL terminator (spec section 3, NUL-terminated semantics).  A
  well-formed string therefore has bytes in `[1, 256)`; input buffers
  with embedded NUL bytes are represented by their logical content,
  which is exactly what the sorter observes.
* The 64-bit big-endian keys fetched by `get_uint64` are modelled as
  natural numbers below `256^8` obtained by big-endian packing of eight
  bytes at a given depth (the `stringtools` implementation is not part
  of `src/`, so the key fetch is modelled from the spec).
* Machine arithmetic on sizes is modelled with `Nat`; all the involved
  quantities stay far below `2^64`, and bucket counters are below the
  `uint16`/`uint32`/`uint64` limits by construction, so no wrap-around
  occurs in the source either.
* Scheduling nondeterminism (job interleaving, `has_idle` work-sharing
  decisions) and the address-seeded `LCGRandom` sampling are modelled by
  oracle parameters; every theorem quantifies over all oracles.
-/

set_option maxHeartbeats 2000000

namespace PSS

/-! ### Bytes and strings -/

/-- A content byte is nonzero and below 256. -/
def byteOk (b : Nat) : Bool := decide (1 ≤ b ∧ b < 256)

/-- Well-formed string: all content bytes are in `[1, 256)`.
Modelled from the spec: a string is a NUL-terminated byte buffer, and the
sorter only observes the bytes before the first NUL. -/
def wfStr (s : List Nat) : Bool := s.all byteOk

/-- All strings of a set are well formed. -/
def wfSet (ss : List (List Nat)) : Bool := ss.all wfStr

/-- Byte of a string at position `i`; 0 (the NUL terminator) past the end.
This is the zero padding of `get_uint64` described in spec section 3. -/
def byteAtS (s : List Nat) (i : Nat) : Nat := s.getD i 0

theorem byteAtS_lt_256 {s : List Nat} (hs : wfStr s = true) (i : Nat) :
    byteAtS s i < 256 := by
  unfold byteAtS
  by_cases hi : i < s.length
  · rw [List.getD_eq_getElem s 0 hi]
    have hb : s[i] ∈ s := List.getElem_mem hi
    have := (List.all_eq_true.mp hs) _ hb
    simp only [byteOk, decide_eq_true_eq] at this
    exact this.2
  · rw [List.getD_eq_default s 0 (by omega)]
    norm_num

theorem byteAtS_pos_of_lt {s : List Nat} (hs : wfStr s = true) {i : Nat}
    (hi : i < s.length) : 1 ≤ byteAtS s i := by
  unfold byteAtS
  rw [List.getD_eq_getElem s 0 hi]
  have hb : s[i] ∈ s := List.getElem_mem hi
  have := (List.all_eq_true.mp hs) _ hb
  simp only [byteOk, decide_eq_true_eq] at this
  exact this.1

theorem byteAtS_eq_zero_of_le {s : List Nat} {i : Nat} (hi : s.length ≤ i) :
    byteAtS s i = 0 := by
  unfold byteAtS
  rw [List.getD_eq_default]
  exact hi

theorem byteAtS_zero_iff {s : List Nat} (hs : wfStr s = true) (i : Nat) :
    byteAtS s i = 0 ↔ s.length ≤ i := by
  constructor
  · intro h
    by_contra hlt
    push_neg at hlt
    have := byteAtS_pos_of_lt hs hlt
    omega
  · exact byteAtS_eq_zero_of_le

/-! ### Big-endian key packing

Modelled from the spec (section 3, String data model): `get_uint64(s, d)`
fetches up to 8 bytes starting at offset `d`, zero-padded past the end of
the string, packed big-endian so that numeric comparison of keys equals
lexicographic comparison of the fetched byte chunks. -/

/-- Big-endian base-256 value of a byte list. -/
def ofBE : List Nat → Nat
  | [] => 0
  | b :: L => b * 256 ^ L.length + ofBE L

/-- The 8-byte chunk of string `s` at depth `d` (zero-padded). -/
def chunk8 (s : List Nat) (d : Nat) : List Nat :=
  (List.range 8).map (fun j => byteAtS s (d + j))

/-- Modelled from the spec: the 64-bit big-endian key `get_uint64(s, d)`
of `stringtools` (the header is not under `src/`). -/
def keyAt (s : List Nat) (d : Nat) : Nat := ofBE (chunk8 s d)

/-- Byte `j` (big-endian position) of a key. -/
def keyByte (k j : Nat) : Nat := k / 256 ^ (7 - j) % 256

theorem chunk8_length (s : List Nat) (d : Nat) : (chunk8 s d).length = 8 := by
  simp [chunk8]

theorem chunk8_getD (s : List Nat) (d : Nat) {j : Nat} (hj : j < 8) :
    (chunk8 s d).getD j 0 = byteAtS s (d + j) := by
  unfold chunk8
  rw [List.getD_eq_getElem _ _ (by simpa [chunk8] using hj)]
  simp

theorem chunk8_lt {s : List Nat} (hs : wfStr s = true) (d : Nat) :
    ∀ b ∈ chunk8 s d, b < 256 := by
  intro b hb
  simp only [chunk8, List.mem_map] at hb
  obtain ⟨j, _, rfl⟩ := hb
  exact byteAtS_lt_256 hs _

theorem ofBE_lt_pow {L : List Nat} (h : ∀ b ∈ L, b < 256) :
    ofBE L < 256 ^ L.length := by
  induction L with
  | nil => simp [ofBE]
  | cons b L ih =>
      have hb : b < 256 := h b (by simp)
      have hL := ih (fun x hx => h x (by simp [hx]))
      have h1 : b * 256 ^ L.length + ofBE L < (b + 1) * 256 ^ L.length := by
        have := hL
        nlinarith [pow_pos (show (0:Nat) < 256 by norm_num) L.length]
      have h2 : (b + 1) * 256 ^ L.length ≤ 256 * 256 ^ L.length := by
        have : b + 1 ≤ 256 := hb
        exact Nat.mul_le_mul_right _ this
      calc ofBE (b :: L) = b * 256 ^ L.length + ofBE L := rfl
        _ < (b + 1) * 256 ^ L.length := h1
        _ ≤ 256 * 256 ^ L.length := h2
        _ = 256 ^ (b :: L).length := by rw [List.length_cons]; ring

theorem keyAt_lt (s : List Nat) (hs : wfStr s = true) (d : Nat) :
    keyAt s d < 256 ^ 8 := by
  have := ofBE_lt_pow (chunk8_lt hs d)
  rwa [chunk8_length] at this

theorem ofBE_append (A B : List Nat) :
    ofBE (A ++ B) = ofBE A * 256 ^ B.length + ofBE B := by
  induction A with
  | nil => simp [ofBE]
  | cons a A ih =>
      simp only [List.cons_append, ofBE, ih, List.append_eq, List.length_append, pow_add]
      ring

/-- Extracting byte `j` from a packed 8-byte list. -/
theorem keyByte_ofBE {L : List Nat} (hlen : L.length = 8)
    (hb : ∀ b ∈ L, b < 256) {j : Nat} (hj : j < 8) :
    keyByte (ofBE L) j = L.getD j 0 := by
  have hsplit : L = L.take (j + 1) ++ L.drop (j + 1) := (List.take_append_drop _ _).symm
  have hlen1 : (L.take (j + 1)).length = j + 1 := by
    rw [List.length_take]; omega
  have hlen2 : (L.drop (j + 1)).length = 7 - j := by
    rw [List.length_drop]; omega
  have hdlt : ofBE (L.drop (j + 1)) < 256 ^ (7 - j) := by
    have := ofBE_lt_pow (L := L.drop (j + 1))
      (fun b hb' => hb b (List.mem_of_mem_drop hb'))
    rwa [hlen2] at this
  have hsplit2 : L.take (j + 1) = L.take j ++ [L.getD j 0] := by
    have hjlt : j < L.length := by omega
    rw [List.getD_eq_getElem _ _ hjlt]
    rw [List.take_succ]
    congr 1
    rw [List.getElem?_eq_getElem hjlt]
    rfl
  have hpos : 0 < 256 ^ (7 - j) := pow_pos (by norm_num) _
  have hq : ofBE L / 256 ^ (7 - j) = ofBE (L.take (j + 1)) := by
    conv_lhs => rw [hsplit]
    rw [ofBE_append, hlen2, Nat.add_comm, Nat.add_mul_div_right _ _ hpos,
      Nat.div_eq_of_lt hdlt, Nat.zero_add]
  have hjval : L.getD j 0 < 256 := by
    have hjlt : j < L.length := by omega
    rw [List.getD_eq_getElem _ _ hjlt]
    exact hb _ (List.getElem_mem hjlt)
  have htk : ofBE (L.take (j + 1)) % 256 = L.getD j 0 := by
    rw [hsplit2, ofBE_append]
    have h1 : ofBE [L.getD j 0] = L.getD j 0 := by simp [ofBE]
    have h2 : ([L.getD j 0] : List Nat).length = 1 := rfl
    rw [h1, h2, pow_one, Nat.mul_comm, Nat.mul_add_mod]
    exact Nat.mod_eq_of_lt hjval
  unfold keyByte
  rw [hq, htk]

/-- Byte `j` of a key equals the string byte at `d + j`. -/
theorem keyByte_keyAt {s : List Nat} (hs : wfStr s = true) (d : Nat) {j : Nat}
    (hj : j < 8) : keyByte (keyAt s d) j = byteAtS s (d + j) := by
  rw [keyAt, keyByte_ofBE (chunk8_length s d) (chunk8_lt hs d) hj, chunk8_getD _ _ hj]

/-- Bounded big-endian values with equal lengths are injective. -/
theorem ofBE_inj {A B : List Nat} (hlen : A.length = B.length)
    (ha : ∀ b ∈ A, b < 256) (hb : ∀ b ∈ B, b < 256)
    (h : ofBE A = ofBE B) : A = B := by
  induction A generalizing B with
  | nil =>
      cases B with
      | nil => rfl
      | cons b B => simp at hlen
  | cons a A ih =>
      cases B with
      | nil => simp at hlen
      | cons b B =>
          simp only [List.length_cons, Nat.succ.injEq] at hlen
          simp only [ofBE, hlen] at h
          have hA : ofBE A < 256 ^ B.length := by
            have := ofBE_lt_pow (L := A) (fun x hx => ha x (by simp [hx]))
            rwa [hlen] at this
          have hB : ofBE B < 256 ^ B.length := ofBE_lt_pow (fun x hx => hb x (by simp [hx]))
          have hab : a = b := by
            rcases Nat.lt_trichotomy a b with hlt | heq | hgt
            · exfalso; nlinarith
            · exact heq
            · exfalso; nlinarith
          subst hab
          have : ofBE A = ofBE B := by omega
          rw [ih hlen (fun x hx => ha x (by simp [hx])) (fun x hx => hb x (by simp [hx])) this]

/-! ### Lexicographic byte order

The order the spec states for outputs (section 8, property 2): plain
lexicographic order on content byte lists; the empty suffix
(end-of-string, i.e. the NUL terminator) sorts before any continuation,
which makes NUL the smallest byte. -/

/-- Strict lexicographic order on byte lists. -/
def lexLt : List Nat → List Nat → Bool
  | [], [] => false
  | [], _ :: _ => true
  | _ :: _, [] => false
  | a :: s, b :: t => if a < b then true else if b < a then false else lexLt s t

/-- Reflexive lexicographic order on byte lists. -/
def lexLe : List Nat → List Nat → Bool
  | [], _ => true
  | _ :: _, [] => false
  | a :: s, b :: t => if a < b then true else if b < a then false else lexLe s t

theorem lexLe_eq_not_lexLt (s t : List Nat) : lexLe s t = !lexLt t s := by
  induction s generalizing t with
  | nil => cases t <;> simp [lexLe, lexLt]
  | cons a s ih =>
      cases t with
      | nil => simp [lexLe, lexLt]
      | cons b t =>
          simp only [lexLe, lexLt]
          rcases Nat.lt_trichotomy a b with h | h | h
          · simp [h, Nat.not_lt_of_lt h]
          · subst h
            simp [Nat.lt_irrefl, ih]
          · simp [h, Nat.not_lt_of_lt h]

theorem lexLt_irrefl (s : List Nat) : lexLt s s = false := by
  induction s with
  | nil => rfl
  | cons a s ih => simp [lexLt, ih]

theorem lexLe_refl (s : List Nat) : lexLe s s = true := by
  rw [lexLe_eq_not_lexLt, lexLt_irrefl]
  rfl

theorem lexLe_total (s t : List Nat) : lexLe s t = true ∨ lexLe t s = true := by
  induction s generalizing t with
  | nil => left; rfl
  | cons a s ih =>
      cases t with
      | nil => right; rfl
      | cons b t =>
          simp only [lexLe]
          rcases Nat.lt_trichotomy a b with h | h | h
          · left; simp [h]
          · subst h
            simpa [Nat.lt_irrefl] using ih t
          · right; simp [h]

theorem lexLe_trans {s t u : List Nat} (h1 : lexLe s t = true)
    (h2 : lexLe t u = true) : lexLe s u = true := by
  induction s generalizing t u with
  | nil => rfl
  | cons a s ih =>
      cases t with
      | nil => simp [lexLe] at h1
      | cons b t =>
          cases u with
          | nil => simp [lexLe] at h2
          | cons c u =>
              simp only [lexLe] at h1 h2 ⊢
              rcases Nat.lt_trichotomy a b with hab | hab | hab
              · rcases Nat.lt_trichotomy b c with hbc | hbc | hbc
                · simp [show a < c by omega]
                · subst hbc; simp [hab]
                · simp [hbc, Nat.not_lt_of_lt hbc] at h2
              · subst hab
                rcases Nat.lt_trichotomy a c with hac | hac | hac
                · simp [hac]
                · subst hac
                  simp only [Nat.lt_irrefl, if_false] at h1 h2 ⊢
                  exact ih h1 h2
                · simp [hac, Nat.not_lt_of_lt hac] at h2
              · simp [hab, Nat.not_lt_of_lt hab] at h1

theorem lexLe_antisymm {s t : List Nat} (h1 : lexLe s t = true)
    (h2 : lexLe t s = true) : s = t := by
  induction s generalizing t with
  | nil =>
      cases t with
      | nil => rfl
      | cons b t => simp [lexLe] at h2
  | cons a s ih =>
      cases t with
      | nil => simp [lexLe] at h1
      | cons b t =>
          simp only [lexLe] at h1 h2
          rcases Nat.lt_trichotomy a b with hab | hab | hab
          · simp [hab, Nat.not_lt_of_lt hab] at h2
          · subst hab
            simp only [Nat.lt_irrefl, if_false] at h1 h2
            rw [ih h1 h2]
          · simp [hab, Nat.not_lt_of_lt hab] at h1

theorem lexLt_asymm {s t : List Nat} (h : lexLt s t = true) :
    lexLt t s = false := by
  by_contra hc
  have h2 : lexLt t s = true := by
    cases hval : lexLt t s
    · exact absurd hval hc
    · rfl
  have ha := lexLe_eq_not_lexLt t s
  rw [h] at ha
  have hb := lexLe_eq_not_lexLt s t
  rw [h2] at hb
  have h3 : lexLe t s = false := by rw [ha]; rfl
  have h4 : lexLe s t = false := by rw [hb]; rfl
  rcases lexLe_total s t with ht | ht
  · rw [h4] at ht; exact Bool.noConfusion ht
  · rw [h3] at ht; exact Bool.noConfusion ht

theorem lexLe_of_lexLt {s t : List Nat} (h : lexLt s t = true) :
    lexLe s t = true := by
  rw [lexLe_eq_not_lexLt, lexLt_asymm h]
  rfl

/-- The ordering relation used in all sortedness statements. -/
def sLe (s t : List Nat) : Prop := lexLe s t = true

instance : DecidableRel sLe := fun s t => decEq (lexLe s t) true

instance : IsTotal (List Nat) sLe := ⟨fun s t => lexLe_total s t⟩

instance : IsTrans (List Nat) sLe := ⟨fun _ _ _ => lexLe_trans⟩

instance : IsAntisymm (List Nat) sLe := ⟨fun _ _ => lexLe_antisymm⟩

instance : IsRefl (List Nat) sLe := ⟨fun s => lexLe_refl s⟩

/-! ### Keys versus lexicographic order -/

theorem ofBE_lt_of_lexLt {A B : List Nat} (hlen : A.length = B.length)
    (ha : ∀ b ∈ A, b < 256) (hb : ∀ b ∈ B, b < 256)
    (h : lexLt A B = true) : ofBE A < ofBE B := by
  induction A generalizing B with
  | nil =>
      cases B with
      | nil => simp [lexLt] at h
      | cons b B => simp at hlen
  | cons a A ih =>
      cases B with
      | nil => simp [lexLt] at h
      | cons b B =>
          simp only [List.length_cons, Nat.succ.injEq] at hlen
          simp only [lexLt] at h
          have hAlt : ofBE A < 256 ^ B.length := by
            have := ofBE_lt_pow (L := A) (fun x hx => ha x (by simp [hx]))
            rwa [hlen] at this
          have hBlt : ofBE B < 256 ^ B.length := ofBE_lt_pow (fun x hx => hb x (by simp [hx]))
          rcases Nat.lt_trichotomy a b with hab | hab | hab
          · show a * 256 ^ A.length + ofBE A < b * 256 ^ B.length + ofBE B
            rw [hlen]
            nlinarith
          · subst hab
            simp only [Nat.lt_irrefl, if_false] at h
            have := ih hlen (fun x hx => ha x (by simp [hx]))
              (fun x hx => hb x (by simp [hx])) h
            show a * 256 ^ A.length + ofBE A < a * 256 ^ B.length + ofBE B
            rw [hlen]
            omega
          · simp [hab, Nat.not_lt_of_lt hab] at h

theorem lexLt_trichotomy (A B : List Nat) :
    lexLt A B = true ∨ A = B ∨ lexLt B A = true := by
  induction A generalizing B with
  | nil =>
      cases B with
      | nil => right; left; rfl
      | cons b B => left; rfl
  | cons a A ih =>
      cases B with
      | nil => right; right; rfl
      | cons b B =>
          rcases Nat.lt_trichotomy a b with hab | hab | hab
          · left; simp [lexLt, hab]
          · subst hab
            rcases ih B with h | h | h
            · left; simpa [lexLt] using h
            · right; left; rw [h]
            · right; right; simpa [lexLt] using h
          · right; right; simp [lexLt, hab]

theorem lexLt_of_ofBE_lt {A B : List Nat} (hlen : A.length = B.length)
    (ha : ∀ b ∈ A, b < 256) (hb : ∀ b ∈ B, b < 256)
    (h : ofBE A < ofBE B) : lexLt A B = true := by
  rcases lexLt_trichotomy A B with hc | hc | hc
  · exact hc
  · subst hc; omega
  · have := ofBE_lt_of_lexLt hlen.symm hb ha hc
    omega

/-- Extract the first differing position from a strict lexicographic
comparison of equal-length lists. -/
theorem lexLt_firstdiff {A B : List Nat} (hlen : A.length = B.length)
    (h : lexLt A B = true) :
    ∃ j, j < A.length ∧ A.take j = B.take j ∧ A.getD j 0 < B.getD j 0 := by
  induction A generalizing B with
  | nil =>
      cases B with
      | nil => simp [lexLt] at h
      | cons b B => simp at hlen
  | cons a A ih =>
      cases B with
      | nil => simp [lexLt] at h
      | cons b B =>
          simp only [List.length_cons, Nat.succ.injEq] at hlen
          simp only [lexLt] at h
          rcases Nat.lt_trichotomy a b with hab | hab | hab
          · exact ⟨0, by simp, by simp, by simpa using hab⟩
          · subst hab
            simp only [Nat.lt_irrefl, if_false] at h
            obtain ⟨j, hj1, hj2, hj3⟩ := ih hlen h
            exact ⟨j + 1, by simpa using hj1, by simpa using hj2, by simpa using hj3⟩
          · simp [hab, Nat.not_lt_of_lt hab] at h

/-- If two strings agree on their first `m` bytes and the byte at `m`
(with NUL padding) is strictly smaller in `s`, then `s` is
lexicographically smaller. -/
theorem lexLt_of_take_byte_lt {m : Nat} {s t : List Nat}
    (htake : s.take m = t.take m) (hbyte : byteAtS s m < byteAtS t m) :
    lexLt s t = true := by
  induction m generalizing s t with
  | zero =>
      have ht : t ≠ [] := by
        intro hc
        subst hc
        simp [byteAtS] at hbyte
      cases t with
      | nil => exact absurd rfl ht
      | cons b t =>
          cases s with
          | nil => rfl
          | cons a s =>
              have : a < b := by simpa [byteAtS] using hbyte
              simp [lexLt, this]
  | succ m ih =>
      cases s with
      | nil =>
          cases t with
          | nil => simp [byteAtS] at hbyte
          | cons b t => rfl
      | cons a s =>
          cases t with
          | nil =>
              exfalso
              have h1 : byteAtS ([] : List Nat) (m + 1) = 0 := by simp [byteAtS]
              omega
          | cons b t =>
              simp only [List.take_succ_cons, List.cons.injEq] at htake
              obtain ⟨rfl, htake'⟩ := htake
              have hb' : byteAtS s m < byteAtS t m := by
                simpa [byteAtS] using hbyte
              simp only [lexLt, Nat.lt_irrefl, if_false]
              exact ih htake' hb'

theorem take_getElem_eq {s t : List Nat} {d : Nat} (htake : s.take d = t.take d)
    {i : Nat} (hi : i < d) (his : i < s.length) (hit : i < t.length) :
    s.getD i 0 = t.getD i 0 := by
  have h1 : (s.take d).getD i 0 = s.getD i 0 := by
    rw [List.getD_eq_getElem _ _ (by simp; omega), List.getD_eq_getElem _ _ his]
    simp
  have h2 : (t.take d).getD i 0 = t.getD i 0 := by
    rw [List.getD_eq_getElem _ _ (by simp; omega), List.getD_eq_getElem _ _ hit]
    simp
  rw [← h1, ← h2, htake]

/-- Either the two strings are equal, or both reach at least `d + j`,
provided they agree on the first `d` bytes and on key bytes below `j`. -/
theorem str_shape {s t : List Nat} (hws : wfStr s = true) (hwt : wfStr t = true)
    {d j : Nat} (htake : s.take d = t.take d)
    (hagree : ∀ i, d ≤ i → i < d + j → byteAtS s i = byteAtS t i) :
    s = t ∨ (d + j ≤ s.length ∧ d + j ≤ t.length) := by
  by_cases hbig : d + j ≤ s.length ∧ d + j ≤ t.length
  · right; exact hbig
  left
  have hsym : ∀ u v : List Nat, wfStr u = true → wfStr v = true →
      u.take d = v.take d →
      (∀ i, d ≤ i → i < d + j → byteAtS u i = byteAtS v i) →
      u.length ≤ v.length → u.length < d + j → u = v := by
    intro u v hwu hwv htk hag hle hlen
    have hvlen : v.length ≤ u.length := by
      by_cases hud : u.length < d
      · -- `take d` equality forces `v` to be short as well
        have h1 : (u.take d).length = u.length := by simp; omega
        have h2 : (v.take d).length = min d v.length := by simp
        rw [htk] at h1
        omega
      · push_neg at hud
        have hz : byteAtS u u.length = 0 := byteAtS_eq_zero_of_le le_rfl
        have : byteAtS v u.length = 0 := by
          rw [← hag u.length hud hlen]
          exact hz
        exact (byteAtS_zero_iff hwv _).mp this
    have hlen2 : u.length = v.length := le_antisymm hle hvlen
    apply List.ext_getElem hlen2
    intro i hi1 hi2
    have hgd : u.getD i 0 = v.getD i 0 := by
      by_cases hid : i < d
      · exact take_getElem_eq htk hid hi1 hi2
      · push_neg at hid
        exact hag i hid (by omega)
    rw [List.getD_eq_getElem _ _ hi1, List.getD_eq_getElem _ _ hi2] at hgd
    exact hgd
  push_neg at hbig
  rcases Nat.le_total s.length t.length with hle | hle
  · have : s.length < d + j := by
      rcases Nat.lt_or_ge s.length (d + j) with h | h
      · exact h
      · omega
    exact hsym s t hws hwt htake hagree hle this
  · have hlen : t.length < d + j := by
      rcases Nat.lt_or_ge t.length (d + j) with h | h
      · exact h
      · omega
    exact (hsym t s hwt hws htake.symm
      (fun i h1 h2 => (hagree i h1 h2).symm) hle hlen).symm

/-- Extend a shared front using pointwise byte agreement. -/
theorem take_eq_of_agree {s t : List Nat} {d m : Nat} (hdm : d ≤ m)
    (htake : s.take d = t.take d)
    (hagree : ∀ i, d ≤ i → i < m → byteAtS s i = byteAtS t i)
    (hls : m ≤ s.length) (hlt : m ≤ t.length) :
    s.take m = t.take m := by
  apply List.ext_getElem (by simp; omega)
  intro i hi1 hi2
  simp only [List.length_take] at hi1 hi2
  have hgd : s.getD i 0 = t.getD i 0 := by
    by_cases hid : i < d
    · exact take_getElem_eq htake hid (by omega) (by omega)
    · exact hagree i (by omega) (by omega)
  rw [List.getD_eq_getElem s 0 (by omega), List.getD_eq_getElem t 0 (by omega)] at hgd
  simpa using hgd

theorem chunk8_eq_of_keyAt_eq {s t : List Nat} (hws : wfStr s = true)
    (hwt : wfStr t = true) {d : Nat} (h : keyAt s d = keyAt t d) :
    chunk8 s d = chunk8 t d :=
  ofBE_inj (by rw [chunk8_length, chunk8_length]) (chunk8_lt hws d) (chunk8_lt hwt d) h

theorem byte_agree_of_chunk8_eq {s t : List Nat} {d : Nat}
    (h : chunk8 s d = chunk8 t d) :
    ∀ i, d ≤ i → i < d + 8 → byteAtS s i = byteAtS t i := by
  intro i h1 h2
  have hj : i - d < 8 := by omega
  have := congrArg (fun L => L.getD (i - d) 0) h
  simp only [chunk8_getD _ _ hj] at this
  have hid : d + (i - d) = i := by omega
  rwa [hid] at this

/-- Core comparison fact: under a shared `d`-byte front, a strictly
smaller key at depth `d` means strictly lexicographically smaller. -/
theorem lexLt_of_keyAt_lt {s t : List Nat} (hws : wfStr s = true)
    (hwt : wfStr t = true) {d : Nat} (htake : s.take d = t.take d)
    (hk : keyAt s d < keyAt t d) : lexLt s t = true := by
  have hchunk : lexLt (chunk8 s d) (chunk8 t d) = true :=
    lexLt_of_ofBE_lt (by rw [chunk8_length, chunk8_length])
      (chunk8_lt hws d) (chunk8_lt hwt d) hk
  obtain ⟨j, hj1, hj2, hj3⟩ := lexLt_firstdiff
    (by rw [chunk8_length, chunk8_length]) hchunk
  rw [chunk8_length] at hj1
  rw [chunk8_getD _ _ hj1, chunk8_getD _ _ hj1] at hj3
  have hagree : ∀ i, d ≤ i → i < d + j → byteAtS s i = byteAtS t i := by
    intro i h1 h2
    have hij : i - d < j := by omega
    have h3 : (chunk8 s d).getD (i - d) 0 = (chunk8 t d).getD (i - d) 0 :=
      take_getElem_eq hj2 hij (by rw [chunk8_length]; omega)
        (by rw [chunk8_length]; omega)
    rw [chunk8_getD _ _ (by omega), chunk8_getD _ _ (by omega)] at h3
    have hid : d + (i - d) = i := by omega
    rwa [hid] at h3
  rcases str_shape hws hwt htake hagree with heq | ⟨hl1, hl2⟩
  · exfalso
    subst heq
    omega
  · exact lexLt_of_take_byte_lt
      (take_eq_of_agree (by omega) htake hagree hl1 hl2) hj3

/-- Monotonicity: lexicographic order implies key order at any shared
depth. -/
theorem keyAt_le_of_lexLe {s t : List Nat} (hws : wfStr s = true)
    (hwt : wfStr t = true) {d : Nat} (htake : s.take d = t.take d)
    (h : lexLe s t = true) : keyAt s d ≤ keyAt t d := by
  by_contra hc
  push_neg at hc
  have := lexLt_of_keyAt_lt hwt hws htake.symm hc
  rw [lexLe_eq_not_lexLt, this] at h
  exact Bool.noConfusion h

/-- Equal keys whose last byte is nonzero extend the shared front by 8. -/
theorem take_extend_of_keyAt_eq {s t : List Nat} (hws : wfStr s = true)
    (hwt : wfStr t = true) {d : Nat} (htake : s.take d = t.take d)
    (hk : keyAt s d = keyAt t d) (hb : keyByte (keyAt s d) 7 ≠ 0) :
    s.take (d + 8) = t.take (d + 8) ∧ d + 8 ≤ s.length ∧ d + 8 ≤ t.length := by
  have hchunk := chunk8_eq_of_keyAt_eq hws hwt hk
  have hagree := byte_agree_of_chunk8_eq hchunk
  have hbs : byteAtS s (d + 7) ≠ 0 := by
    rw [← keyByte_keyAt hws d (show 7 < 8 by norm_num)]
    exact hb
  have hbt : byteAtS t (d + 7) ≠ 0 := by
    rw [← keyByte_keyAt hwt d (show 7 < 8 by norm_num), ← hk]
    exact hb
  have hls : d + 8 ≤ s.length := by
    have := (byteAtS_zero_iff hws (d + 7)).not.mp
    by_contra hc
    push_neg at hc
    exact hbs ((byteAtS_zero_iff hws (d + 7)).mpr (by omega))
  have hlt : d + 8 ≤ t.length := by
    by_contra hc
    push_neg at hc
    exact hbt ((byteAtS_zero_iff hwt (d + 7)).mpr (by omega))
  exact ⟨take_eq_of_agree (by omega) htake hagree hls hlt, hls, hlt⟩

/-- Equal keys containing a NUL byte force the strings to be equal:
the equal bucket of a NUL-terminated splitter is completely sorted. -/
theorem eq_of_keyAt_eq_zero {s t : List Nat} (hws : wfStr s = true)
    (hwt : wfStr t = true) {d : Nat} (htake : s.take d = t.take d)
    (hk : keyAt s d = keyAt t d) {j : Nat} (hj : j < 8)
    (hz : keyByte (keyAt s d) j = 0) : s = t := by
  have hchunk := chunk8_eq_of_keyAt_eq hws hwt hk
  have hagree := byte_agree_of_chunk8_eq hchunk
  rcases str_shape hws hwt htake hagree with heq | ⟨hl1, _⟩
  · exact heq
  · exfalso
    have hbs : byteAtS s (d + j) = 0 := by
      rw [← keyByte_keyAt hws d hj]
      exact hz
    have := (byteAtS_zero_iff hws (d + j)).mp hbs
    omega

/-! ### Key helpers from the source

`lcpKeyType`, `lcpKeyDepth` and `getCharAtDepth` are the three helpers of
`bingmann-parallel_sample_sort.cpp` lines 317-336.  They are stated here
on the byte decomposition: counting the leading zero bytes of `a ^ b`
is counting the leading bytes in which `a` and `b` agree, and counting
the trailing zero bytes of `a` is counting the trailing bytes equal to
zero. -/

def lcpKeyAux (a b : Nat) : Nat → Nat → Nat
  | 0, _ => 0
  | fuel + 1, j => if keyByte a j = keyByte b j then lcpKeyAux a b fuel (j + 1) + 1 else 0

/-- `lcpKeyType(a, b)` (source line 317): `count_high_zero_bits(a ^ b) / 8`,
the number of leading bytes shared by the two keys. -/
def lcpKeyType (a b : Nat) : Nat := lcpKeyAux a b 8 0

/-- `getCharAtDepth(a, d)` (source line 332): the `d`-th byte of the
big-endian key. -/
def getCharAtDepth (a d : Nat) : Nat := keyByte a d

def lowZeroAux (a : Nat) : Nat → Nat → Nat
  | 0, _ => 0
  | fuel + 1, j => if keyByte a (7 - j) = 0 then lowZeroAux a fuel (j + 1) + 1 else 0

/-- `lcpKeyDepth(a)` (source line 324): 8 minus the number of trailing
zero bytes, i.e. the number of bytes preceding the NUL terminator inside
the key. -/
def lcpKeyDepth (a : Nat) : Nat := 8 - lowZeroAux a 8 0

theorem lcpKeyAux_le (a b : Nat) : ∀ fuel j, lcpKeyAux a b fuel j ≤ fuel := by
  intro fuel
  induction fuel with
  | zero => intro j; simp [lcpKeyAux]
  | succ f ih =>
      intro j
      simp only [lcpKeyAux]
      split
      · have := ih (j + 1); omega
      · omega

theorem lcpKeyType_le (a b : Nat) : lcpKeyType a b ≤ 8 := lcpKeyAux_le a b 8 0

theorem lcpKeyAux_agree (a b : Nat) :
    ∀ fuel j i, i < lcpKeyAux a b fuel j → keyByte a (j + i) = keyByte b (j + i) := by
  intro fuel
  induction fuel with
  | zero => intro j i h; simp [lcpKeyAux] at h
  | succ f ih =>
      intro j i h
      simp only [lcpKeyAux] at h
      by_cases hb : keyByte a j = keyByte b j
      · rw [if_pos hb] at h
        cases i with
        | zero => simpa using hb
        | succ i' =>
            have := ih (j + 1) i' (by omega)
            have harr : j + 1 + i' = j + (i' + 1) := by omega
            rwa [harr] at this
      · rw [if_neg hb] at h; omega

theorem lcpKeyAux_ne (a b : Nat) :
    ∀ fuel j, lcpKeyAux a b fuel j < fuel →
      keyByte a (j + lcpKeyAux a b fuel j) ≠ keyByte b (j + lcpKeyAux a b fuel j) := by
  intro fuel
  induction fuel with
  | zero => intro j h; omega
  | succ f ih =>
      intro j h
      simp only [lcpKeyAux] at h ⊢
      by_cases hb : keyByte a j = keyByte b j
      · rw [if_pos hb] at h ⊢
        have := ih (j + 1) (by omega)
        have harr : j + 1 + lcpKeyAux a b f (j + 1) =
            j + (lcpKeyAux a b f (j + 1) + 1) := by omega
        rwa [harr] at this
      · rw [if_neg hb]
        simpa using hb

theorem lcpKeyType_agree {a b : Nat} {i : Nat} (h : i < lcpKeyType a b) :
    keyByte a i = keyByte b i := by
  have := lcpKeyAux_agree a b 8 0 i h
  simpa using this

theorem lcpKeyType_ne {a b : Nat} (h : lcpKeyType a b < 8) :
    keyByte a (lcpKeyType a b) ≠ keyByte b (lcpKeyType a b) := by
  have := lcpKeyAux_ne a b 8 0 h
  simpa using this

theorem lcpKeyAux_full (a b : Nat) :
    ∀ fuel j, (∀ i, i < fuel → keyByte a (j + i) = keyByte b (j + i)) →
      lcpKeyAux a b fuel j = fuel := by
  intro fuel
  induction fuel with
  | zero => intro j _; rfl
  | succ f ih =>
      intro j hag
      simp only [lcpKeyAux]
      rw [if_pos (by simpa using hag 0 (by omega))]
      rw [ih (j + 1) (fun i hi => by
        have := hag (i + 1) (by omega)
        have harr : j + (i + 1) = j + 1 + i := by omega
        rwa [harr] at this)]

/-- The big-endian digit expansion of a bounded number. -/
theorem ofBE_keyBytes : ∀ (n k : Nat), k < 256 ^ n →
    ofBE ((List.range n).map (fun j => k / 256 ^ (n - 1 - j) % 256)) = k := by
  intro n
  induction n with
  | zero =>
      intro k hk
      have hk0 : k = 0 := by
        have : (256 : Nat) ^ 0 = 1 := by norm_num
        omega
      subst hk0
      rfl
  | succ n ih =>
      intro k hk
      have hq : k / 256 ^ n < 256 := by
        rw [Nat.div_lt_iff_lt_mul (by positivity)]
        have he : (256 : Nat) ^ n * 256 = 256 ^ (n + 1) := by ring
        omega
      have hr : k % 256 ^ n < 256 ^ n := Nat.mod_lt _ (by positivity)
      have hk0 : k = k / 256 ^ n * 256 ^ n + k % 256 ^ n := by
        conv_lhs => rw [← Nat.div_add_mod k (256 ^ n)]
        ring
      rw [List.range_succ_eq_map, List.map_cons, List.map_map]
      have hhead : k / 256 ^ (n + 1 - 1 - 0) % 256 = k / 256 ^ n := by
        have he : n + 1 - 1 - 0 = n := by omega
        rw [he]
        exact Nat.mod_eq_of_lt hq
      have htail : (List.range n).map ((fun j => k / 256 ^ (n + 1 - 1 - j) % 256) ∘ Nat.succ)
          = (List.range n).map (fun j => (k % 256 ^ n) / 256 ^ (n - 1 - j) % 256) := by
        apply List.map_congr_left
        intro j hj
        simp only [List.mem_range] at hj
        simp only [Function.comp_apply]
        have he : n + 1 - 1 - (j + 1) = n - 1 - j := by omega
        rw [he]
        have he2 : (256 : Nat) ^ n = 256 ^ (j + 1) * 256 ^ (n - 1 - j) := by
          rw [← pow_add]
          congr 1
          omega
        have hsplit : k = k / 256 ^ n * 256 ^ (j + 1) * 256 ^ (n - 1 - j) + k % 256 ^ n := by
          conv_lhs => rw [hk0]
          rw [he2]
          ring
        have hd1 : k / 256 ^ (n - 1 - j)
            = k / 256 ^ n * 256 ^ (j + 1) + k % 256 ^ n / 256 ^ (n - 1 - j) := by
          conv_lhs => rw [hsplit]
          rw [Nat.add_comm, Nat.add_mul_div_right _ _ (pow_pos (by norm_num) _)]
          omega
        rw [hd1]
        have he3 : k / 256 ^ n * 256 ^ (j + 1) = 256 * (k / 256 ^ n * 256 ^ j) := by
          ring
        rw [he3, Nat.mul_add_mod]
      rw [hhead, htail]
      have hlen : ((List.range n).map
          (fun j => (k % 256 ^ n) / 256 ^ (n - 1 - j) % 256)).length = n := by
        simp
      show k / 256 ^ n * 256 ^ ((List.range n).map
      (fun j => (k % 256 ^ n) / 256 ^ (n - 1 - j) % 256)).length + ofBE _ = k
      rw [hlen, ih (k % 256 ^ n) hr]
      omega

/-- A key below `256^8` is determined by its eight bytes. -/
theorem keyBytes_inj {a b : Nat} (ha : a < 256 ^ 8) (hb : b < 256 ^ 8)
    (h : ∀ j, j < 8 → keyByte a j = keyByte b j) : a = b := by
  have h1 := ofBE_keyBytes 8 a ha
  have h2 := ofBE_keyBytes 8 b hb
  rw [← h1, ← h2]
  congr 1
  apply List.map_congr_left
  intro j hj
  simp only [List.mem_range] at hj
  have he : (8 : Nat) - 1 - j = 7 - j := by omega
  rw [he]
  exact h j hj

theorem lcpKeyType_lt_of_ne {a b : Nat} (ha : a < 256 ^ 8) (hb : b < 256 ^ 8)
    (h : a ≠ b) : lcpKeyType a b < 8 := by
  rcases Nat.lt_or_ge (lcpKeyType a b) 8 with hlt | hge
  · exact hlt
  · exfalso
    have h8 : lcpKeyType a b = 8 := le_antisymm (lcpKeyType_le a b) hge
    exact h (keyBytes_inj ha hb (fun j hj => lcpKeyType_agree (h8 ▸ hj)))

theorem lcpKeyType_full {a b : Nat}
    (h : ∀ j, j < 8 → keyByte a j = keyByte b j) : lcpKeyType a b = 8 :=
  lcpKeyAux_full a b 8 0 (fun i hi => by simpa using h i hi)

theorem lowZeroAux_spec (a : Nat) : ∀ fuel j c, c ≤ fuel →
    (∀ i, i < c → keyByte a (7 - (j + i)) = 0) →
    (c < fuel → keyByte a (7 - (j + c)) ≠ 0) →
    lowZeroAux a fuel j = c := by
  intro fuel
  induction fuel with
  | zero =>
      intro j c hc _ _
      interval_cases c
      rfl
  | succ f ih =>
      intro j c hc hzero hne
      simp only [lowZeroAux]
      cases c with
      | zero =>
          rw [if_neg]
          have := hne (by omega)
          simpa using this
      | succ c' =>
          rw [if_pos (by simpa using hzero 0 (by omega))]
          rw [ih (j + 1) c' (by omega)
            (fun i hi => by
              have := hzero (i + 1) (by omega)
              have he : j + (i + 1) = j + 1 + i := by omega
              rwa [he] at this)
            (fun hcf => by
              have := hne (by omega)
              have he : j + (c' + 1) = j + 1 + c' := by omega
              rwa [he] at this)]

/-- For a well-formed string reaching depth `d`, `lcpKeyDepth` of the key
is the number of content bytes inside the key window. -/
theorem lcpKeyDepth_keyAt {s : List Nat} (hws : wfStr s = true) {d : Nat}
    (hd : d ≤ s.length) : lcpKeyDepth (keyAt s d) = min (s.length - d) 8 := by
  have hL8 : min (s.length - d) 8 ≤ 8 := by omega
  have hzero : ∀ i, i < 8 - min (s.length - d) 8 →
      keyByte (keyAt s d) (7 - (0 + i)) = 0 := by
    intro i hi
    have h7 : 7 - (0 + i) < 8 := by omega
    rw [keyByte_keyAt hws d h7]
    apply byteAtS_eq_zero_of_le
    omega
  have hne : 8 - min (s.length - d) 8 < 8 →
      keyByte (keyAt s d) (7 - (0 + (8 - min (s.length - d) 8))) ≠ 0 := by
    intro hlt
    have hmin : 1 ≤ min (s.length - d) 8 := by omega
    have hidx : 7 - (0 + (8 - min (s.length - d) 8)) = min (s.length - d) 8 - 1 := by
      omega
    rw [hidx, keyByte_keyAt hws d (by omega)]
    have hin : d + (min (s.length - d) 8 - 1) < s.length := by omega
    have := byteAtS_pos_of_lt hws hin
    omega
  have hspec := lowZeroAux_spec (keyAt s d) 8 0 (8 - min (s.length - d) 8)
    (by omega) hzero hne
  unfold lcpKeyDepth
  rw [hspec]
  omega

theorem ofBE_div_take (L : List Nat) (hb : ∀ b ∈ L, b < 256) {j : Nat}
    (hj : j ≤ L.length) :
    ofBE L / 256 ^ (L.length - j) = ofBE (L.take j) := by
  have hsplit : L = L.take j ++ L.drop j := (List.take_append_drop _ _).symm
  have hlen2 : (L.drop j).length = L.length - j := by simp
  have hdlt : ofBE (L.drop j) < 256 ^ (L.length - j) := by
    have := ofBE_lt_pow (L := L.drop j) (fun b hb' => hb b (List.mem_of_mem_drop hb'))
    rwa [hlen2] at this
  have key : ofBE L = ofBE (L.take j) * 256 ^ (L.length - j) + ofBE (L.drop j) := by
    conv_lhs => rw [hsplit]
    rw [ofBE_append, hlen2]
  rw [key, Nat.add_comm, Nat.add_mul_div_right _ _
    (pow_pos (by norm_num) _), Nat.div_eq_of_lt hdlt, Nat.zero_add]

theorem keyHi_eq_of_agree {a b : Nat} (ha : a < 256 ^ 8) (hb : b < 256 ^ 8)
    {L : Nat} (hL : L ≤ 8) (hshare : ∀ j, j < L → keyByte a j = keyByte b j) :
    a / 256 ^ (8 - L) = b / 256 ^ (8 - L) := by
  have hbnd : ∀ (k : Nat), ∀ c ∈ (List.range 8).map (fun j => k / 256 ^ (8 - 1 - j) % 256),
      c < 256 := by
    intro k c hc
    simp only [List.mem_map] at hc
    obtain ⟨j, _, rfl⟩ := hc
    exact Nat.mod_lt _ (by norm_num)
  have hda := ofBE_keyBytes 8 a ha
  have hdb := ofBE_keyBytes 8 b hb
  have hlen : ∀ (k : Nat),
      ((List.range 8).map (fun j => k / 256 ^ (8 - 1 - j) % 256)).length = 8 := by
    intro k
    simp
  have hdiva := ofBE_div_take ((List.range 8).map (fun j => a / 256 ^ (8 - 1 - j) % 256))
    (hbnd a) (j := L) (by rw [hlen]; omega)
  have hdivb := ofBE_div_take ((List.range 8).map (fun j => b / 256 ^ (8 - 1 - j) % 256))
    (hbnd b) (j := L) (by rw [hlen]; omega)
  rw [hda, hlen] at hdiva
  rw [hdb, hlen] at hdivb
  rw [hdiva, hdivb]
  congr 1
  rw [← List.map_take, ← List.map_take, List.take_range]
  apply List.map_congr_left
  intro j hj
  simp only [List.mem_range] at hj
  have hjL : j < L := by omega
  have he : (8 : Nat) - 1 - j = 7 - j := by omega
  rw [he]
  exact hshare j hjL

/-- Keys between two keys sharing their top `L` bytes share them too. -/
theorem keyByte_eq_of_between {a b x : Nat} (ha : a < 256 ^ 8) (hb : b < 256 ^ 8)
    {L : Nat} (hL : L ≤ 8) (hshare : ∀ j, j < L → keyByte a j = keyByte b j)
    (h1 : a ≤ x) (h2 : x ≤ b) : ∀ j, j < L → keyByte x j = keyByte a j := by
  have hhi := keyHi_eq_of_agree ha hb hL hshare
  have hx1 : a / 256 ^ (8 - L) ≤ x / 256 ^ (8 - L) := Nat.div_le_div_right h1
  have hx2 : x / 256 ^ (8 - L) ≤ b / 256 ^ (8 - L) := Nat.div_le_div_right h2
  have hxa : x / 256 ^ (8 - L) = a / 256 ^ (8 - L) := by omega
  intro j hj
  have he : (7 : Nat) - j = (8 - L) + (L - 1 - j) := by omega
  unfold keyByte
  rw [he, pow_add, ← Nat.div_div_eq_div_mul, ← Nat.div_div_eq_div_mul, hxa]

/-! ### Partition count of a parallel sample sort step (source 1348-1360) -/

/-- `Context::sequential_threshold` (source lines 255-264; the
`PS5_ENABLE_RESTSIZE` branch is disabled, line 188):
`max(g_smallsort_threshold, totalsize / threadnum)` with
`g_smallsort_threshold = 1024 * 1024` (line 208). -/
def sequentialThreshold (totalsize threadnum : Nat) : Nat :=
  max 1048576 (totalsize / threadnum)

/-- Partition count computed by the `SampleSortStep` constructor
(source lines 1352-1354): `parts = n / threshold * 2`, then raised to 1
if zero and capped at `MAXPROCS = 2 * 64 + 1 = 129` (line 200). -/
def stepParts (n thresh : Nat) : Nat :=
  let p0 := n / thresh * 2
  let p1 := if p0 = 0 then 1 else p0
  if p1 > 129 then 129 else p1

/-- Part size `psize = (n + parts - 1) / parts` (source line 1356). -/
def stepPsize (n thresh : Nat) : Nat :=
  (n + stepParts n thresh - 1) / stepParts n thresh

/-- Number of strings assigned to part `p` by `count`/`distribute`
(source lines 1398-1400 and 1444-1446): the range
`[p * psize, min((p+1) * psize, n))`. -/
def partLen (n thresh p : Nat) : Nat :=
  min ((p + 1) * stepPsize n thresh) n - p * stepPsize n thresh

/-- The claim formula: `clamp(ceil(n / thresh) * 2, 1, 129)`. -/
def claimParts (n thresh : Nat) : Nat :=
  min (max ((n + thresh - 1) / thresh * 2) 1) 129

theorem stepParts_eq_ite (n thresh : Nat) :
    stepParts n thresh =
      if (if n / thresh * 2 = 0 then 1 else n / thresh * 2) > 129 then 129
      else (if n / thresh * 2 = 0 then 1 else n / thresh * 2) := rfl

theorem stepParts_pos (n thresh : Nat) : 1 ≤ stepParts n thresh := by
  rw [stepParts_eq_ite]
  split_ifs <;> omega

theorem stepParts_le (n thresh : Nat) : stepParts n thresh ≤ 129 := by
  rw [stepParts_eq_ite]
  split_ifs <;> omega

theorem stepParts_clamp_eq {n thresh : Nat} (hth : 1 ≤ thresh) (hn : thresh < n) :
    stepParts n thresh = min (max (n / thresh * 2) 1) 129 := by
  obtain ⟨q, hq⟩ : ∃ q, n / thresh = q := ⟨_, rfl⟩
  have h1 : 1 ≤ q := by
    rw [← hq]
    rw [Nat.le_div_iff_mul_le hth]
    omega
  rw [stepParts_eq_ite, hq]
  split_ifs <;> omega

theorem stepPsize_mul_le {n thresh : Nat} (hT : 1048576 ≤ thresh) (hn : thresh < n) :
    (stepParts n thresh - 1) * stepPsize n thresh ≤ n := by
  have hk1 := stepParts_pos n thresh
  have hk129 := stepParts_le n thresh
  obtain ⟨m, hm⟩ : ∃ m, stepParts n thresh = m + 1 := ⟨stepParts n thresh - 1, by omega⟩
  have hmle : m ≤ 128 := by omega
  have hnbig : 16512 ≤ n := by omega
  unfold stepPsize
  rw [hm]
  have he2 : m + 1 - 1 = m := by omega
  have he3 : n + (m + 1) - 1 = n + m := by omega
  rw [he2, he3]
  have hq : (n + m) / (m + 1) * (m + 1) ≤ n + m := Nat.div_mul_le_self _ _
  have hqm : m ≤ (n + m) / (m + 1) := by
    rw [Nat.le_div_iff_mul_le (by omega)]
    have h1 : m * (m + 1) ≤ 128 * 129 := Nat.mul_le_mul hmle (by omega)
    omega
  nlinarith [hq, hqm]

theorem partLen_eq_psize {n thresh : Nat} (hT : 1048576 ≤ thresh) (hn : thresh < n)
    {p : Nat} (hp : p + 1 < stepParts n thresh) :
    partLen n thresh p = stepPsize n thresh := by
  have hmul := stepPsize_mul_le hT hn
  have hle : (p + 1) * stepPsize n thresh ≤ n := by
    calc (p + 1) * stepPsize n thresh
        ≤ (stepParts n thresh - 1) * stepPsize n thresh :=
          Nat.mul_le_mul_right _ (by omega)
      _ ≤ n := hmul
  unfold partLen
  rw [min_eq_left hle]
  have he : (p + 1) * stepPsize n thresh
      = stepPsize n thresh + p * stepPsize n thresh := by ring
  rw [he, Nat.add_sub_cancel]

/-! ### Bucket dispatch of `distribute_finished` (source 1466-1542) -/

/-- Per-position LCP content produced for an equal-terminal bucket:
`fill_lcp(v)` of the `StringShadowPtr` bundle.  Modelled from the spec
(section 3, ShadowBundle): broadcast `v` to every LCP slot of the range
except index 0. -/
def fillLcpL (v n : Nat) : List (Option Nat) :=
  match n with
  | 0 => []
  | m + 1 => none :: List.replicate m (some v)

/-- What `distribute_finished` does with one bucket. -/
inductive BktAct where
  /-- Empty bucket: skipped. -/
  | skip : BktAct
  /-- Single string: copy it back to the caller-visible buffer. -/
  | copy1 : BktAct
  /-- Terminal equal bucket: copy back, `fill_lcp` with the given value,
  no child step. -/
  | finishEq : Nat → BktAct
  /-- Enqueue a child sort step at the given depth. -/
  | child : Nat → BktAct
deriving DecidableEq

/-- Action taken by `distribute_finished` on bucket `i` (source lines
1480-1535).  `bkt` is the prefix-summed boundary table with sentinel
(`bkt[bktnum] = n`), `lcpBits m` the splitter LCP byte `splitter_lcp[m]`
(low 7 bits the LCP, high bit the NUL-terminated marker, so `& 0x7F` is
`% 128` and `& 0x80` tests `128 ≤ _` for byte values), `spl m` the
splitter key `classifier.get_splitter(m)`, and `d` the step depth.  The
last bucket (`i = bktnum - 1`) is handled after the loop with unchanged
depth; even buckets recurse at `d + (lcpBits[i/2] & 0x7F)`; odd buckets
with the high bit recurse nowhere and fill their LCP range; other odd
buckets recurse at `d + 8`. -/
def distAct (lcpBits : Nat → Nat) (spl : Nat → Nat)
    (bktnum d : Nat) (sz : Nat) (i : Nat) : BktAct :=
  if sz = 0 then .skip
  else if i = bktnum - 1 then (if sz = 1 then .copy1 else .child d)
  else if sz = 1 then .copy1
  else if i % 2 = 0 then .child (d + lcpBits (i / 2) % 128)
  else if 128 ≤ lcpBits (i / 2) then .finishEq (d + lcpKeyDepth (spl (i / 2)))
  else .child (d + 8)

/-! ### MKQS pivot selection (source lines 788-804 and 915-925) -/

/-- `med3(A, i, j, k)` from `SmallsortJob` (source lines 788-804):
index of an element holding the median of the three values. -/
def med3 (A : Nat → Nat) (i j k : Nat) : Nat :=
  if A i = A j then i
  else if A k = A i ∨ A k = A j then k
  else if A i < A j then
    (if A j < A k then j else if A i < A k then k else i)
  else
    (if A j > A k then j else if A i < A k then i else k)

/-- The median of three values, expressed with `min`/`max`. -/
def median3 (a b c : Nat) : Nat := max (min a b) (min (max a b) c)

theorem med3_val (A : Nat → Nat) (i j k : Nat) :
    A (med3 A i j k) = median3 (A i) (A j) (A k) := by
  unfold med3 median3
  split_ifs <;> omega

/-- The pivot index selected by the `MKQSStep` constructor (source lines
915-920): a median of three medians of three over the cache. -/
def mkqsPivotIdx (A : Nat → Nat) (n : Nat) : Nat :=
  med3 A
    (med3 A 0 (n / 8) (n / 4))
    (med3 A (n / 2 - n / 8) (n / 2) (n / 2 + n / 8))
    (med3 A (n - 1 - n / 4) (n - 1 - n / 8) (n - 3))

theorem mkqsPivotIdx_val (A : Nat → Nat) (n : Nat) :
    A (mkqsPivotIdx A n) =
      median3 (median3 (A 0) (A (n / 8)) (A (n / 4)))
        (median3 (A (n / 2 - n / 8)) (A (n / 2)) (A (n / 2 + n / 8)))
        (median3 (A (n - 1 - n / 4)) (A (n - 1 - n / 8)) (A (n - 3))) := by
  unfold mkqsPivotIdx
  rw [med3_val A (med3 A 0 (n / 8) (n / 4))
    (med3 A (n / 2 - n / 8) (n / 2) (n / 2 + n / 8))
    (med3 A (n - 1 - n / 4) (n - 1 - n / 8) (n - 3))]
  rw [med3_val A 0 (n / 8) (n / 4)]
  rw [med3_val A (n / 2 - n / 8) (n / 2) (n / 2 + n / 8)]
  rw [med3_val A (n - 1 - n / 4) (n - 1 - n / 8) (n - 3)]

/-! ### The three-way Bentley-McIlroy partition of `MKQSStep`
(source lines 901-1031)

The string array and the cache array are swapped in lockstep by the
source, so the model partitions a single function-represented array of
pairs (string, cached key). -/

/-- `std::swap` of two positions of a function-represented array. -/
def swapF {α : Type} (f : Nat → α) (i j : Nat) : Nat → α :=
  fun x => if x = i then f j else if x = j then f i else f x

/-- Element-wise `std::swap_ranges(base+a, base+a+len, base+b)`. -/
def swapBlock {α : Type} (f : Nat → α) (a b : Nat) : Nat → (Nat → α)
  | 0 => f
  | len + 1 => swapF (swapBlock f a b len) (a + len) (b + len)

theorem countP_range_eq_sum (p : Nat → Bool) (n : Nat) :
    (List.range n).countP p = ∑ i ∈ Finset.range n, (if p i then 1 else 0) := by
  induction n with
  | zero => simp
  | succ n ih =>
      rw [List.range_succ, List.countP_append, Finset.sum_range_succ, ih]
      simp [List.countP_cons]

theorem swapF_eq_comp {α : Type} (f : Nat → α) (i j : Nat) :
    swapF f i j = fun x => f (Equiv.swap i j x) := by
  funext x
  simp only [swapF, Equiv.swap_apply_def]
  split_ifs <;> rfl

theorem swapF_perm {α : Type} [DecidableEq α] (f : Nat → α) {i j n : Nat}
    (hi : i < n) (hj : j < n) :
    ((List.range n).map (swapF f i j)).Perm ((List.range n).map f) := by
  rw [List.perm_iff_count]
  intro a
  rw [List.count_eq_countP, List.count_eq_countP, List.countP_map, List.countP_map]
  rw [countP_range_eq_sum, countP_range_eq_sum]
  refine Finset.sum_equiv (Equiv.swap i j) ?_ ?_
  · intro x
    simp only [Finset.mem_range, Equiv.swap_apply_def]
    split_ifs <;> omega
  · intro x _
    simp [swapF_eq_comp, Function.comp]

theorem swapBlock_perm {α : Type} [DecidableEq α] (f : Nat → α) (a b : Nat) :
    ∀ (len : Nat) {n : Nat}, a + len ≤ n → b + len ≤ n →
    ((List.range n).map (swapBlock f a b len)).Perm ((List.range n).map f) := by
  intro len
  induction len with
  | zero => intro n _ _; exact List.Perm.refl _
  | succ l ih =>
      intro n ha hb
      have h1 : ((List.range n).map (swapBlock f a b (l + 1))).Perm
          ((List.range n).map (swapBlock f a b l)) := by
        simp only [swapBlock]
        exact swapF_perm _ (by omega) (by omega)
      exact h1.trans (ih (by omega) (by omega))

theorem swapBlock_apply {α : Type} (f : Nat → α) (a b : Nat) :
    ∀ (len : Nat), a + len ≤ b → ∀ x,
    swapBlock f a b len x =
      if a ≤ x ∧ x < a + len then f (b + (x - a))
      else if b ≤ x ∧ x < b + len then f (a + (x - b))
      else f x := by
  intro len
  induction len with
  | zero =>
      intro _ x
      simp only [swapBlock]
      split_ifs with h1 h2 <;> first | omega | rfl
  | succ l ih =>
      intro hab x
      simp only [swapBlock, swapF]
      rw [ih (by omega)]
      by_cases hx1 : x = a + l
      · subst hx1
        rw [ih (by omega)]
        split_ifs <;> first | (exfalso; omega) | (congr 1; omega)
      · by_cases hx2 : x = b + l
        · subst hx2
          rw [if_neg hx1, ih (by omega)]
          split_ifs <;> first | (exfalso; omega) | (congr 1; omega) | rfl
        · rw [if_neg hx1, if_neg hx2, ih (by omega)]
          split_ifs <;> first | (exfalso; omega) | (congr 1; omega) | rfl

/-- First inner loop of the partition (source lines 936-956): advance
`llt`, migrating pivot-equal elements to the left end. -/
def innerL (pivot : Nat) : Nat → (Nat → List Nat × Nat) → Nat → Nat → Nat →
    ((Nat → List Nat × Nat) × Nat × Nat)
  | 0, f, leq, llt, _ => (f, leq, llt)
  | fuel + 1, f, leq, llt, rgt =>
      if llt ≤ rgt then
        if (f llt).2 > pivot then (f, leq, llt)
        else if (f llt).2 = pivot then
          innerL pivot fuel (swapF f leq llt) (leq + 1) (llt + 1) rgt
        else innerL pivot fuel f leq (llt + 1) rgt
      else (f, leq, llt)

/-- Second inner loop of the partition (source lines 957-977): retreat
`rgt`, migrating pivot-equal elements to the right end. -/
def innerR (pivot : Nat) : Nat → (Nat → List Nat × Nat) → Nat → Nat → Nat →
    ((Nat → List Nat × Nat) × Nat × Nat)
  | 0, f, _, rgt, req => (f, rgt, req)
  | fuel + 1, f, llt, rgt, req =>
      if llt ≤ rgt then
        if (f rgt).2 < pivot then (f, rgt, req)
        else if (f rgt).2 = pivot then
          innerR pivot fuel (swapF f req rgt) llt (rgt - 1) (req - 1)
        else innerR pivot fuel f llt (rgt - 1) req
      else (f, rgt, req)

/-- Outer partition loop (source lines 934-984). -/
def outerLoop (pivot : Nat) : Nat → (Nat → List Nat × Nat) → Nat → Nat → Nat → Nat →
    ((Nat → List Nat × Nat) × Nat × Nat × Nat × Nat)
  | 0, f, leq, llt, rgt, req => (f, leq, llt, rgt, req)
  | fuel + 1, f, leq, llt, rgt, req =>
      let a := innerL pivot (rgt + 1 - llt) f leq llt rgt
      let b := innerR pivot (rgt + 1 - a.2.2) a.1 a.2.2 rgt req
      if a.2.2 > b.2.1 then (b.1, a.2.1, a.2.2, b.2.1, b.2.2)
      else outerLoop pivot fuel (swapF b.1 a.2.2 b.2.1) a.2.1 (a.2.2 + 1)
        (b.2.1 - 1) b.2.2

theorem innerL_spec (pivot : Nat) :
    ∀ (fuel : Nat) (f : Nat → List Nat × Nat) (leq llt rgt : Nat),
    rgt + 1 ≤ llt + fuel → leq ≤ llt → llt ≤ rgt + 1 →
    (∀ x, x < leq → (f x).2 = pivot) →
    (∀ x, leq ≤ x → x < llt → (f x).2 < pivot) →
    (leq ≤ (innerL pivot fuel f leq llt rgt).2.1 ∧
     llt ≤ (innerL pivot fuel f leq llt rgt).2.2 ∧
     (innerL pivot fuel f leq llt rgt).2.1 ≤ (innerL pivot fuel f leq llt rgt).2.2 ∧
     (innerL pivot fuel f leq llt rgt).2.2 ≤ rgt + 1 ∧
     (∀ x, x < leq → (innerL pivot fuel f leq llt rgt).1 x = f x) ∧
     (∀ x, rgt < x → (innerL pivot fuel f leq llt rgt).1 x = f x) ∧
     (∀ x, x < (innerL pivot fuel f leq llt rgt).2.1 →
       ((innerL pivot fuel f leq llt rgt).1 x).2 = pivot) ∧
     (∀ x, (innerL pivot fuel f leq llt rgt).2.1 ≤ x →
       x < (innerL pivot fuel f leq llt rgt).2.2 →
       ((innerL pivot fuel f leq llt rgt).1 x).2 < pivot) ∧
     (∀ n, rgt < n →
       ((List.range n).map (innerL pivot fuel f leq llt rgt).1).Perm
         ((List.range n).map f)) ∧
     ((innerL pivot fuel f leq llt rgt).2.2 = rgt + 1 ∨
      ((innerL pivot fuel f leq llt rgt).2.2 ≤ rgt ∧
       ((innerL pivot fuel f leq llt rgt).1
         (innerL pivot fuel f leq llt rgt).2.2).2 > pivot))) := by
  intro fuel
  induction fuel with
  | zero =>
      intro f leq llt rgt hfuel hleq hllt he hl
      exact ⟨le_rfl, le_rfl, (by omega : leq ≤ llt), (by omega : llt ≤ rgt + 1),
        fun x _ => rfl, fun x _ => rfl, he, hl, fun n _ => List.Perm.refl _,
        Or.inl (by omega : llt = rgt + 1)⟩
  | succ fl ih =>
      intro f leq llt rgt hfuel hleq hllt he hl
      by_cases hcmp : llt ≤ rgt
      · by_cases hgt : (f llt).2 > pivot
        · have hret : innerL pivot (fl + 1) f leq llt rgt = (f, leq, llt) := by
            simp only [innerL, if_pos hcmp, if_pos hgt]
          rw [hret]
          exact ⟨le_rfl, le_rfl, hleq, (by omega : llt ≤ rgt + 1),
            fun x _ => rfl, fun x _ => rfl, he, hl, fun n _ => List.Perm.refl _,
            Or.inr ⟨hcmp, hgt⟩⟩
        · by_cases heq : (f llt).2 = pivot
          · have hrw : innerL pivot (fl + 1) f leq llt rgt
                = innerL pivot fl (swapF f leq llt) (leq + 1) (llt + 1) rgt := by
              simp only [innerL, if_pos hcmp, if_neg hgt, if_pos heq]
            rw [hrw]
            have hstep := ih (swapF f leq llt) (leq + 1) (llt + 1) rgt
              (by omega) (by omega) (by omega)
              (by
                intro x hx
                by_cases hxl : x = leq
                · subst hxl
                  simp only [swapF, if_pos rfl]
                  exact heq
                · have hx' : x < leq := by omega
                  simp only [swapF, if_neg hxl, if_neg (by omega : ¬ x = llt)]
                  exact he x hx')
              (by
                intro x hx1 hx2
                have hxne1 : ¬ x = leq := by omega
                by_cases hxl : x = llt
                · subst hxl
                  simp only [swapF, if_neg hxne1, if_pos rfl]
                  exact hl leq le_rfl (by omega)
                · simp only [swapF, if_neg hxne1, if_neg hxl]
                  exact hl x (by omega) (by omega))
            obtain ⟨s1, s2, s3, s4, s5, s6, s7, s8, s9, s10⟩ := hstep
            refine ⟨by omega, by omega, s3, s4, ?_, ?_, s7, s8, ?_, s10⟩
            · intro x hx
              rw [s5 x (by omega)]
              simp only [swapF, if_neg (by omega : ¬ x = leq),
                if_neg (by omega : ¬ x = llt)]
            · intro x hx
              rw [s6 x hx]
              simp only [swapF, if_neg (by omega : ¬ x = leq),
                if_neg (by omega : ¬ x = llt)]
            · intro n hn
              exact (s9 n hn).trans (swapF_perm f (by omega) (by omega))
          · have hlt : (f llt).2 < pivot := by omega
            have hrw : innerL pivot (fl + 1) f leq llt rgt
                = innerL pivot fl f leq (llt + 1) rgt := by
              simp only [innerL, if_pos hcmp, if_neg hgt, if_neg heq]
            rw [hrw]
            obtain ⟨s1, s2, s3, s4, s5, s6, s7, s8, s9, s10⟩ :=
              ih f leq (llt + 1) rgt (by omega) (by omega) (by omega) he
                (by
                  intro x hx1 hx2
                  by_cases hxl : x = llt
                  · subst hxl; exact hlt
                  · exact hl x hx1 (by omega))
            exact ⟨s1, by omega, s3, s4, s5, s6, s7, s8, s9, s10⟩
      · have hret : innerL pivot (fl + 1) f leq llt rgt = (f, leq, llt) := by
          simp only [innerL, if_neg hcmp]
        rw [hret]
        exact ⟨le_rfl, le_rfl, hleq, (by omega : llt ≤ rgt + 1),
          fun x _ => rfl, fun x _ => rfl, he, hl, fun n _ => List.Perm.refl _,
          Or.inl (by omega : llt = rgt + 1)⟩

theorem innerR_spec (pivot : Nat) (N : Nat) :
    ∀ (fuel : Nat) (f : Nat → List Nat × Nat) (llt rgt req : Nat),
    rgt + 1 ≤ llt + fuel → 1 ≤ llt → llt ≤ rgt + 1 → rgt ≤ req → req ≤ N →
    (∀ x, rgt < x → x ≤ req → (f x).2 > pivot) →
    (∀ x, req < x → x ≤ N → (f x).2 = pivot) →
    ((innerR pivot fuel f llt rgt req).2.1 ≤ rgt ∧
     (innerR pivot fuel f llt rgt req).2.2 ≤ req ∧
     llt - 1 ≤ (innerR pivot fuel f llt rgt req).2.1 ∧
     (innerR pivot fuel f llt rgt req).2.1 ≤ (innerR pivot fuel f llt rgt req).2.2 ∧
     (∀ x, x ≤ (innerR pivot fuel f llt rgt req).2.1 →
       (innerR pivot fuel f llt rgt req).1 x = f x) ∧
     (∀ x, req < x → (innerR pivot fuel f llt rgt req).1 x = f x) ∧
     (∀ x, (innerR pivot fuel f llt rgt req).2.1 < x →
       x ≤ (innerR pivot fuel f llt rgt req).2.2 →
       ((innerR pivot fuel f llt rgt req).1 x).2 > pivot) ∧
     (∀ x, (innerR pivot fuel f llt rgt req).2.2 < x → x ≤ N →
       ((innerR pivot fuel f llt rgt req).1 x).2 = pivot) ∧
     (∀ n, N < n →
       ((List.range n).map (innerR pivot fuel f llt rgt req).1).Perm
         ((List.range n).map f)) ∧
     ((innerR pivot fuel f llt rgt req).2.1 = llt - 1 ∨
      (llt ≤ (innerR pivot fuel f llt rgt req).2.1 ∧
       ((innerR pivot fuel f llt rgt req).1
         (innerR pivot fuel f llt rgt req).2.1).2 < pivot))) := by
  intro fuel
  induction fuel with
  | zero =>
      intro f llt rgt req hfuel hl1 hllt hrr hrN hg he
      exact ⟨le_rfl, le_rfl, (by omega : llt - 1 ≤ rgt), (by omega : rgt ≤ req),
        fun x _ => rfl, fun x _ => rfl, hg, he, fun n _ => List.Perm.refl _,
        Or.inl (by omega : rgt = llt - 1)⟩
  | succ fl ih =>
      intro f llt rgt req hfuel hl1 hllt hrr hrN hg he
      by_cases hcmp : llt ≤ rgt
      · by_cases hlt : (f rgt).2 < pivot
        · have hret : innerR pivot (fl + 1) f llt rgt req = (f, rgt, req) := by
            simp only [innerR, if_pos hcmp, if_pos hlt]
          rw [hret]
          exact ⟨le_rfl, le_rfl, (by omega : llt - 1 ≤ rgt), (by omega : rgt ≤ req),
            fun x _ => rfl, fun x _ => rfl, hg, he, fun n _ => List.Perm.refl _,
            Or.inr ⟨hcmp, hlt⟩⟩
        · by_cases heq : (f rgt).2 = pivot
          · have hrw : innerR pivot (fl + 1) f llt rgt req
                = innerR pivot fl (swapF f req rgt) llt (rgt - 1) (req - 1) := by
              simp only [innerR, if_pos hcmp, if_neg hlt, if_pos heq]
            rw [hrw]
            have hstep := ih (swapF f req rgt) llt (rgt - 1) (req - 1)
              (by omega) hl1 (by omega) (by omega) (by omega)
              (by
                intro x hx1 hx2
                have hxne1 : ¬ x = req := by omega
                by_cases hxr : x = rgt
                · subst hxr
                  simp only [swapF, if_neg hxne1, if_pos rfl]
                  exact hg req (by omega) le_rfl
                · simp only [swapF, if_neg hxne1, if_neg hxr]
                  exact hg x (by omega) (by omega))
              (by
                intro x hx1 hx2
                by_cases hxq : x = req
                · subst hxq
                  simp only [swapF, if_pos rfl]
                  exact heq
                · have hxne2 : ¬ x = rgt := by omega
                  simp only [swapF, if_neg hxq, if_neg hxne2]
                  exact he x (by omega) hx2)
            obtain ⟨s1, s2, s3, s4, s5, s6, s7, s8, s9, s10⟩ := hstep
            refine ⟨by omega, by omega, s3, s4, ?_, ?_, s7, s8, ?_, s10⟩
            · intro x hx
              rw [s5 x hx]
              simp only [swapF, if_neg (by omega : ¬ x = req),
                if_neg (by omega : ¬ x = rgt)]
            · intro x hx
              rw [s6 x (by omega)]
              simp only [swapF, if_neg (by omega : ¬ x = req),
                if_neg (by omega : ¬ x = rgt)]
            · intro n hn
              exact (s9 n hn).trans (swapF_perm f (by omega) (by omega))
          · have hgt : (f rgt).2 > pivot := by omega
            have hrw : innerR pivot (fl + 1) f llt rgt req
                = innerR pivot fl f llt (rgt - 1) req := by
              simp only [innerR, if_pos hcmp, if_neg hlt, if_neg heq]
            rw [hrw]
            obtain ⟨s1, s2, s3, s4, s5, s6, s7, s8, s9, s10⟩ :=
              ih f llt (rgt - 1) req (by omega) hl1 (by omega) (by omega) hrN
                (by
                  intro x hx1 hx2
                  by_cases hxr : x = rgt
                  · subst hxr; exact hgt
                  · exact hg x (by omega) hx2)
                he
            exact ⟨by omega, s2, s3, s4, s5, s6, s7, s8, s9, s10⟩
      · have hret : innerR pivot (fl + 1) f llt rgt req = (f, rgt, req) := by
          simp only [innerR, if_neg hcmp]
        rw [hret]
        exact ⟨le_rfl, le_rfl, (by omega : llt - 1 ≤ rgt), (by omega : rgt ≤ req),
          fun x _ => rfl, fun x _ => rfl, hg, he, fun n _ => List.Perm.refl _,
          Or.inl (by omega : rgt = llt - 1)⟩

theorem outerLoop_spec (pivot N : Nat) :
    ∀ (fuel : Nat) (f : Nat → List Nat × Nat) (leq llt rgt req : Nat),
    rgt + 1 ≤ llt + fuel → 1 ≤ leq → leq ≤ llt → llt ≤ rgt + 1 →
    rgt ≤ req → req ≤ N →
    (∀ x, x < leq → (f x).2 = pivot) →
    (∀ x, leq ≤ x → x < llt → (f x).2 < pivot) →
    (∀ x, rgt < x → x ≤ req → (f x).2 > pivot) →
    (∀ x, req < x → x ≤ N → (f x).2 = pivot) →
    ((outerLoop pivot fuel f leq llt rgt req).2.2.1
       = (outerLoop pivot fuel f leq llt rgt req).2.2.2.1 + 1 ∧
     1 ≤ (outerLoop pivot fuel f leq llt rgt req).2.1 ∧
     (outerLoop pivot fuel f leq llt rgt req).2.1
       ≤ (outerLoop pivot fuel f leq llt rgt req).2.2.1 ∧
     (outerLoop pivot fuel f leq llt rgt req).2.2.2.1
       ≤ (outerLoop pivot fuel f leq llt rgt req).2.2.2.2 ∧
     (outerLoop pivot fuel f leq llt rgt req).2.2.2.2 ≤ N ∧
     (∀ x, x < (outerLoop pivot fuel f leq llt rgt req).2.1 →
       ((outerLoop pivot fuel f leq llt rgt req).1 x).2 = pivot) ∧
     (∀ x, (outerLoop pivot fuel f leq llt rgt req).2.1 ≤ x →
       x < (outerLoop pivot fuel f leq llt rgt req).2.2.1 →
       ((outerLoop pivot fuel f leq llt rgt req).1 x).2 < pivot) ∧
     (∀ x, (outerLoop pivot fuel f leq llt rgt req).2.2.2.1 < x →
       x ≤ (outerLoop pivot fuel f leq llt rgt req).2.2.2.2 →
       ((outerLoop pivot fuel f leq llt rgt req).1 x).2 > pivot) ∧
     (∀ x, (outerLoop pivot fuel f leq llt rgt req).2.2.2.2 < x → x ≤ N →
       ((outerLoop pivot fuel f leq llt rgt req).1 x).2 = pivot) ∧
     (∀ n, N < n →
       ((List.range n).map (outerLoop pivot fuel f leq llt rgt req).1).Perm
         ((List.range n).map f))) := by
  intro fuel
  induction fuel with
  | zero =>
      intro f leq llt rgt req hfuel h1 h2 h3 h4 h5 he hl hg heR
      exact ⟨(by omega : llt = rgt + 1), h1, h2, h4, h5, he, hl, hg, heR,
        fun n _ => List.Perm.refl _⟩
  | succ fl ih =>
      intro f leq llt rgt req hfuel h1 h2 h3 h4 h5 he hl hg heR
      obtain ⟨a1, a2, a3, a4, a5, a6, a7, a8, a9, a10⟩ :=
        innerL_spec pivot (rgt + 1 - llt) f leq llt rgt (by omega) h2 h3 he hl
      set A := innerL pivot (rgt + 1 - llt) f leq llt rgt with hA
      obtain ⟨b1, b2, b3, b4, b5, b6, b7, b8, b9, b10⟩ :=
        innerR_spec pivot N (rgt + 1 - A.2.2) A.1 A.2.2 rgt req
          (by omega) (by omega) a4 h4 h5
          (by
            intro x hx1 hx2
            rw [a6 x (by omega)]
            exact hg x hx1 hx2)
          (by
            intro x hx1 hx2
            rw [a6 x (by omega)]
            exact heR x hx1 hx2)
      set B := innerR pivot (rgt + 1 - A.2.2) A.1 A.2.2 rgt req with hB
      have hunf : outerLoop pivot (fl + 1) f leq llt rgt req
          = if A.2.2 > B.2.1 then (B.1, A.2.1, A.2.2, B.2.1, B.2.2)
            else outerLoop pivot fl (swapF B.1 A.2.2 B.2.1) A.2.1 (A.2.2 + 1)
              (B.2.1 - 1) B.2.2 := by
        conv_lhs => rw [outerLoop]
      by_cases hguard : A.2.2 > B.2.1
      · have hret : outerLoop pivot (fl + 1) f leq llt rgt req
            = (B.1, A.2.1, A.2.2, B.2.1, B.2.2) := by
          rw [hunf, if_pos hguard]
        rw [hret]
        dsimp only
        have hexit : A.2.2 = B.2.1 + 1 := by
          rcases b10 with hb | hb
          · omega
          · omega
        refine ⟨hexit, (by omega : 1 ≤ A.2.1), a3, b4, (by omega : B.2.2 ≤ N),
          ?_, ?_, b7, b8, ?_⟩
        · intro x hx
          rw [b5 x (by omega)]
          exact a7 x hx
        · intro x hx1 hx2
          rw [b5 x (by omega)]
          exact a8 x hx1 hx2
        · intro n hn
          exact (b9 n hn).trans (a9 n (by omega))
      · have hbreakR : A.2.2 ≤ B.2.1 := by omega
        have hvr : (B.1 B.2.1).2 < pivot := by
          rcases b10 with hb | hb
          · omega
          · exact hb.2
        have hbreakL : (A.1 A.2.2).2 > pivot ∧ A.2.2 ≤ rgt := by
          rcases a10 with ha | ha
          · exfalso
            omega
          · exact ⟨ha.2, ha.1⟩
        have hvl : (B.1 A.2.2).2 > pivot := by
          rw [b5 _ (by omega)]
          exact hbreakL.1
        have hstrict : A.2.2 < B.2.1 := by
          rcases Nat.lt_or_ge A.2.2 B.2.1 with h | h
          · exact h
          · exfalso
            have heq2 : A.2.2 = B.2.1 := by omega
            rw [← heq2] at hvr
            omega
        have hrw : outerLoop pivot (fl + 1) f leq llt rgt req
            = outerLoop pivot fl (swapF B.1 A.2.2 B.2.1) A.2.1 (A.2.2 + 1)
              (B.2.1 - 1) B.2.2 := by
          rw [hunf, if_neg hguard]
        rw [hrw]
        obtain ⟨c1, c2, c3, c4, c5, c6, c7, c8, c9, c10⟩ :=
          ih (swapF B.1 A.2.2 B.2.1) A.2.1 (A.2.2 + 1) (B.2.1 - 1) B.2.2
            (by omega) (by omega) (by omega) (by omega) (by omega) (by omega)
            (by
              intro x hx
              simp only [swapF, if_neg (by omega : ¬ x = A.2.2),
                if_neg (by omega : ¬ x = B.2.1)]
              rw [b5 x (by omega)]
              exact a7 x hx)
            (by
              intro x hx1 hx2
              by_cases hxe : x = A.2.2
              · subst hxe
                simp only [swapF, if_pos rfl]
                exact hvr
              · simp only [swapF, if_neg hxe, if_neg (by omega : ¬ x = B.2.1)]
                rw [b5 x (by omega)]
                exact a8 x hx1 (by omega))
            (by
              intro x hx1 hx2
              by_cases hxe : x = B.2.1
              · subst hxe
                simp only [swapF, if_neg (by omega : ¬ B.2.1 = A.2.2), if_pos rfl]
                exact hvl
              · simp only [swapF, if_neg (by omega : ¬ x = A.2.2), if_neg hxe]
                exact b7 x (by omega) hx2)
            (by
              intro x hx1 hx2
              simp only [swapF, if_neg (by omega : ¬ x = A.2.2),
                if_neg (by omega : ¬ x = B.2.1)]
              exact b8 x hx1 hx2)
        refine ⟨c1, c2, c3, c4, c5, c6, c7, c8, c9, ?_⟩
        intro n hn
        refine (c10 n hn).trans ?_
        refine (swapF_perm _ (by omega) (by omega)).trans ?_
        exact (b9 n hn).trans (a9 n (by omega))

/-! ### The complete `MKQSStep` constructor (source lines 901-1031)

The constructor refills the cache when dirty (`cache[i] =
get_uint64(str_i, depth)`, lines 909-914); for clean caches the carried
values are the keys at the same depth, so the model always computes
them.  Then it selects the median-of-9 pivot, swaps it to the front,
runs the three-way partition, and swings the equal elements to the
middle with two `std::swap_ranges`. -/

def mkqsF0 (d : Nat) (ss : List (List Nat)) : Nat → List Nat × Nat :=
  fun i => (ss.getD i [], keyAt (ss.getD i []) d)

/-- Pivot position (source lines 915-920). -/
def mkqsP (d : Nat) (ss : List (List Nat)) : Nat :=
  mkqsPivotIdx (fun i => (mkqsF0 d ss i).2) ss.length

/-- Array after swapping the pivot to position 0 (source lines 921-923). -/
def mkqsF1 (d : Nat) (ss : List (List Nat)) : Nat → List Nat × Nat :=
  swapF (mkqsF0 d ss) 0 (mkqsP d ss)

/-- The pivot key (source line 925). -/
def mkqsPivot (d : Nat) (ss : List (List Nat)) : Nat := (mkqsF1 d ss 0).2

/-- The partition loop, started with
`leq = llt = 1, rgt = req = n - 1` (source line 933). -/
def mkqsLoop (d : Nat) (ss : List (List Nat)) :
    (Nat → List Nat × Nat) × Nat × Nat × Nat × Nat :=
  outerLoop (mkqsPivot d ss) ss.length (mkqsF1 d ss) 1 1
    (ss.length - 1) (ss.length - 1)

/-- `num_lt = llt - leq` (source line 988). -/
def mkqsNumLt (d : Nat) (ss : List (List Nat)) : Nat :=
  (mkqsLoop d ss).2.2.1 - (mkqsLoop d ss).2.1

/-- `num_gt = req - rgt` (source line 989). -/
def mkqsNumGt (d : Nat) (ss : List (List Nat)) : Nat :=
  (mkqsLoop d ss).2.2.2.2 - (mkqsLoop d ss).2.2.2.1

/-- `num_eq = num_leq + num_req = leq + (n - 1 - req)` (source 986-987). -/
def mkqsNumEq (d : Nat) (ss : List (List Nat)) : Nat :=
  (mkqsLoop d ss).2.1 + (ss.length - 1 - (mkqsLoop d ss).2.2.2.2)

/-- `size1 = min(num_leq, num_lt)` (source line 994). -/
def mkqsSize1 (d : Nat) (ss : List (List Nat)) : Nat :=
  min (mkqsLoop d ss).2.1 (mkqsNumLt d ss)

/-- Array after the first `swap_ranges` (source lines 995-997). -/
def mkqsF3 (d : Nat) (ss : List (List Nat)) : Nat → List Nat × Nat :=
  swapBlock (mkqsLoop d ss).1 0 ((mkqsLoop d ss).2.2.1 - mkqsSize1 d ss)
    (mkqsSize1 d ss)

/-- `size2 = min(num_req, num_gt)` (source line 1000). -/
def mkqsSize2 (d : Nat) (ss : List (List Nat)) : Nat :=
  min (ss.length - 1 - (mkqsLoop d ss).2.2.2.2) (mkqsNumGt d ss)

/-- Final pair array after the second `swap_ranges` (source 1001-1004). -/
def mkqsArr (d : Nat) (ss : List (List Nat)) : Nat → List Nat × Nat :=
  swapBlock (mkqsF3 d ss) (mkqsLoop d ss).2.2.1 (ss.length - mkqsSize2 d ss)
    (mkqsSize2 d ss)

/-- `eq_recurse = (pivot & 0xFF)` (source line 1007): the low byte of
the pivot key, as the boolean it is used as. -/
def mkqsEqRec (d : Nat) (ss : List (List Nat)) : Bool :=
  decide (mkqsPivot d ss % 256 ≠ 0)

theorem med3_mem (A : Nat → Nat) (i j k : Nat) :
    med3 A i j k = i ∨ med3 A i j k = j ∨ med3 A i j k = k := by
  unfold med3
  split_ifs <;> simp

theorem mkqsPivotIdx_lt (A : Nat → Nat) {n : Nat} (hn : 1 ≤ n) :
    mkqsPivotIdx A n < n := by
  unfold mkqsPivotIdx
  have hb : ∀ i j k, i < n → j < n → k < n → med3 A i j k < n := by
    intro i j k hi hj hk
    rcases med3_mem A i j k with h | h | h <;> omega
  apply hb
  · apply hb <;> omega
  · apply hb <;> omega
  · apply hb <;> omega

theorem mkqs_spec (d : Nat) (ss : List (List Nat)) (hn : 1 ≤ ss.length) :
    mkqsNumLt d ss + mkqsNumEq d ss + mkqsNumGt d ss = ss.length ∧
    1 ≤ mkqsNumEq d ss ∧
    (∀ x, x < mkqsNumLt d ss → (mkqsArr d ss x).2 < mkqsPivot d ss) ∧
    (∀ x, mkqsNumLt d ss ≤ x → x < mkqsNumLt d ss + mkqsNumEq d ss →
      (mkqsArr d ss x).2 = mkqsPivot d ss) ∧
    (∀ x, mkqsNumLt d ss + mkqsNumEq d ss ≤ x → x < ss.length →
      (mkqsArr d ss x).2 > mkqsPivot d ss) ∧
    ((List.range ss.length).map (mkqsArr d ss)).Perm
      ((List.range ss.length).map (mkqsF0 d ss)) ∧
    (∃ i, i < ss.length ∧ mkqsPivot d ss = keyAt (ss.getD i []) d) := by
  obtain ⟨c1, c2, c3, c4, c5, c6, c7, c8, c9, c10⟩ :=
    outerLoop_spec (mkqsPivot d ss) (ss.length - 1) ss.length (mkqsF1 d ss)
      1 1 (ss.length - 1) (ss.length - 1)
      (by omega) le_rfl le_rfl (by omega) le_rfl le_rfl
      (by
        intro x hx
        have hx0 : x = 0 := by omega
        subst hx0
        rfl)
      (by intro x hx1 hx2; omega)
      (by intro x hx1 hx2; omega)
      (by intro x hx1 hx2; omega)
  rw [show outerLoop (mkqsPivot d ss) ss.length (mkqsF1 d ss) 1 1
      (ss.length - 1) (ss.length - 1) = mkqsLoop d ss from rfl]
    at c1 c2 c3 c4 c5 c6 c7 c8 c9 c10
  set n := ss.length with hnd
  set L := mkqsLoop d ss with hL
  set leq := L.2.1 with hleq
  set llt := L.2.2.1 with hllt
  set rgt := L.2.2.2.1 with hrgt
  set req := L.2.2.2.2 with hreq
  have hsum : mkqsNumLt d ss + mkqsNumEq d ss + mkqsNumGt d ss = n := by
    rw [mkqsNumLt, mkqsNumEq, mkqsNumGt, ← hL, ← hleq, ← hllt, ← hrgt, ← hreq]
    omega
  have heq1 : 1 ≤ mkqsNumEq d ss := by
    rw [mkqsNumEq, ← hL, ← hleq, ← hreq]
    omega
  have hNL : mkqsNumLt d ss = llt - leq := by
    rw [mkqsNumLt, ← hL, ← hllt, ← hleq]
  have hNE : mkqsNumEq d ss = leq + (n - 1 - req) := by
    rw [mkqsNumEq, ← hL, ← hleq, ← hreq, ← hnd]
  have hNG : mkqsNumGt d ss = req - rgt := by
    rw [mkqsNumGt, ← hL, ← hrgt, ← hreq]
  have hS1 : mkqsSize1 d ss = min leq (llt - leq) := by
    rw [mkqsSize1, ← hL, ← hleq, hNL]
  have hS2 : mkqsSize2 d ss = min (n - 1 - req) (req - rgt) := by
    rw [mkqsSize2, ← hL, ← hreq, ← hnd, hNG]
  have hF3 : mkqsF3 d ss = swapBlock L.1 0 (llt - mkqsSize1 d ss) (mkqsSize1 d ss) := by
    rw [mkqsF3, ← hL, ← hllt]
  have hF4 : mkqsArr d ss
      = swapBlock (mkqsF3 d ss) llt (n - mkqsSize2 d ss) (mkqsSize2 d ss) := by
    rw [mkqsArr, ← hL, ← hllt, ← hnd]
  -- regions of the array after the first block swap
  have hlt3 : ∀ x, x < llt - leq → (mkqsF3 d ss x).2 < mkqsPivot d ss := by
    intro x hx
    rw [hF3, swapBlock_apply _ _ _ _ (by rw [hS1]; omega) x]
    split_ifs with h1 h2
    · exact c7 _ (by rw [hS1] at h1 ⊢; omega) (by rw [hS1] at h1 ⊢; omega)
    · rw [hS1] at h2
      omega
    · rw [hS1] at h1 h2
      exact c7 _ (by omega) (by omega)
  have heq3 : ∀ x, llt - leq ≤ x → x < llt → (mkqsF3 d ss x).2 = mkqsPivot d ss := by
    intro x hx1 hx2
    rw [hF3, swapBlock_apply _ _ _ _ (by rw [hS1]; omega) x]
    split_ifs with h1 h2
    · rw [hS1] at h1
      omega
    · exact c6 _ (by rw [hS1] at h2 ⊢; omega)
    · rw [hS1] at h1 h2
      exact c6 _ (by omega)
  have hhi3 : ∀ x, llt ≤ x → mkqsF3 d ss x = L.1 x := by
    intro x hx
    rw [hF3, swapBlock_apply _ _ _ _ (by rw [hS1]; omega) x]
    rw [if_neg (by rw [hS1]; omega), if_neg (by rw [hS1]; omega)]
  -- regions of the final array
  have hlt4 : ∀ x, x < llt - leq → (mkqsArr d ss x).2 < mkqsPivot d ss := by
    intro x hx
    rw [hF4, swapBlock_apply _ _ _ _ (by rw [hS2]; omega) x]
    rw [if_neg (by rw [hS2]; omega), if_neg (by rw [hS2]; omega)]
    exact hlt3 x hx
  have heq4 : ∀ x, llt - leq ≤ x → x < llt - leq + (leq + (n - 1 - req)) →
      (mkqsArr d ss x).2 = mkqsPivot d ss := by
    intro x hx1 hx2
    rw [hF4, swapBlock_apply _ _ _ _ (by rw [hS2]; omega) x]
    split_ifs with h1 h2
    · -- swapped in from the top equal run
      rw [hhi3 _ (by rw [hS2] at h1 ⊢; omega)]
      exact c9 _ (by rw [hS2] at h1 ⊢; omega) (by rw [hS2] at h1 ⊢; omega)
    · -- position inside the top block: cannot be in the equal range
      rw [hS2] at h2
      omega
    · rw [hS2] at h1 h2
      by_cases hxl : x < llt
      · exact heq3 x hx1 hxl
      · rw [hhi3 _ (by omega)]
        exact c9 _ (by omega) (by omega)
  have hgt4 : ∀ x, llt - leq + (leq + (n - 1 - req)) ≤ x → x < n →
      (mkqsArr d ss x).2 > mkqsPivot d ss := by
    intro x hx1 hx2
    rw [hF4, swapBlock_apply _ _ _ _ (by rw [hS2]; omega) x]
    split_ifs with h1 h2
    · rw [hS2] at h1
      omega
    · rw [hhi3 _ (by rw [hS2] at h2 ⊢; omega)]
      exact c8 _ (by rw [hS2] at h2 ⊢; omega) (by rw [hS2] at h2 ⊢; omega)
    · rw [hS2] at h1 h2
      rw [hhi3 _ (by omega)]
      exact c8 _ (by omega) (by omega)
  have hperm : ((List.range n).map (mkqsArr d ss)).Perm
      ((List.range n).map (mkqsF0 d ss)) := by
    have hp4 : ((List.range n).map (mkqsArr d ss)).Perm
        ((List.range n).map (mkqsF3 d ss)) := by
      rw [hF4]
      exact swapBlock_perm _ _ _ _ (by rw [hS2]; omega) (by rw [hS2]; omega)
    have hp3 : ((List.range n).map (mkqsF3 d ss)).Perm
        ((List.range n).map L.1) := by
      rw [hF3]
      exact swapBlock_perm _ _ _ _ (by rw [hS1]; omega) (by rw [hS1]; omega)
    have hp2 : ((List.range n).map L.1).Perm
        ((List.range n).map (mkqsF1 d ss)) := c10 n (by omega)
    have hp1 : ((List.range n).map (mkqsF1 d ss)).Perm
        ((List.range n).map (mkqsF0 d ss)) := by
      rw [mkqsF1]
      exact swapF_perm _ (by omega) (by
        rw [mkqsP, ← hnd]
        exact mkqsPivotIdx_lt _ (by omega))
    exact ((hp4.trans hp3).trans hp2).trans hp1
  refine ⟨hsum, heq1, ?_, ?_, ?_, hperm, ?_⟩
  · intro x hx
    rw [hNL] at hx
    exact hlt4 x hx
  · intro x hx1 hx2
    rw [hNL] at hx1
    rw [hNL, hNE] at hx2
    exact heq4 x hx1 hx2
  · intro x hx1 hx2
    rw [hNL, hNE] at hx1
    exact hgt4 x hx1 hx2
  · refine ⟨mkqsP d ss, ?_, ?_⟩
    · rw [mkqsP, ← hnd]
      exact mkqsPivotIdx_lt _ (by omega)
    · rw [mkqsPivot, mkqsF1]
      by_cases hp0 : mkqsP d ss = 0
      · rw [hp0]
        simp [swapF, mkqsF0]
      · simp only [swapF, if_pos rfl]
        rfl

/-! ### Classifier

Modelled from the spec (section 4.C): the equality-branching classifier
search.  The classifier headers (`bingmann-sample_sortBTC*.hpp`) are not
under `src/`; spec 4.C describes the contract: descend the balanced
splitter tree left on `<`, right on `>`, stop on `==` in the odd
(equal) bucket of that splitter; falling off the bottom yields the even
bucket of the reached in-order position.  Descent through the implicit
perfect tree over the sorted splitter array is midpoint descent on
in-order segments, exactly as in the in-`src/`
`SplitterTree::Builder::recurse` / `find_bkt_tree_equal` pair of the
RBTCE variant (source lines 2265-2343). -/

def classifySeg (sp : List Nat) (k : Nat) (lo hi : Nat) : Nat :=
  if h : lo < hi then
    let mid := lo + (hi - lo) / 2
    if k = sp.getD mid 0 then 2 * mid + 1
    else if k < sp.getD mid 0 then classifySeg sp k lo mid
    else classifySeg sp k (mid + 1) hi
  else 2 * lo
termination_by hi - lo
decreasing_by
  · omega
  · omega

/-- Bucket index of a key: `2 * numsplitters + 1` buckets. -/
def classifyK (sp : List Nat) (k : Nat) : Nat := classifySeg sp k 0 sp.length

theorem sorted_getD_mono {l : List Nat} (h : l.Sorted (· ≤ ·)) {i j : Nat}
    (hij : i ≤ j) (hj : j < l.length) : l.getD i 0 ≤ l.getD j 0 := by
  rcases Nat.eq_or_lt_of_le hij with heq | hlt
  · subst heq; exact le_rfl
  · rw [List.getD_eq_getElem _ _ (by omega), List.getD_eq_getElem _ _ hj]
    exact List.pairwise_iff_getElem.mp h i j (by omega) hj hlt

theorem classifySeg_spec (sp : List Nat) (k : Nat) :
    ∀ (fuel lo hi : Nat), hi - lo ≤ fuel → lo ≤ hi → hi ≤ sp.length →
    (2 * lo ≤ classifySeg sp k lo hi ∧ classifySeg sp k lo hi ≤ 2 * hi ∧
     (∀ m, classifySeg sp k lo hi = 2 * m + 1 →
       lo ≤ m ∧ m < hi ∧ sp.getD m 0 = k) ∧
     (∀ m, classifySeg sp k lo hi = 2 * m →
       lo ≤ m ∧ m ≤ hi ∧ (m = lo ∨ sp.getD (m - 1) 0 < k) ∧
       (m = hi ∨ k < sp.getD m 0))) := by
  intro fuel
  induction fuel with
  | zero =>
      intro lo hi hf h1 h2
      have hlh : ¬ lo < hi := by omega
      unfold classifySeg
      rw [dif_neg hlh]
      refine ⟨le_rfl, by omega, ?_, ?_⟩
      · intro m hm; omega
      · intro m hm
        exact ⟨by omega, by omega, Or.inl (by omega), Or.inl (by omega)⟩
  | succ fl ih =>
      intro lo hi hf h1 h2
      by_cases hlh : lo < hi
      · unfold classifySeg
        rw [dif_pos hlh]
        dsimp only
        by_cases he : k = sp.getD (lo + (hi - lo) / 2) 0
        · rw [if_pos he]
          refine ⟨by omega, by omega, ?_, ?_⟩
          · intro m hm
            have hmm : m = lo + (hi - lo) / 2 := by omega
            subst hmm
            exact ⟨by omega, by omega, he.symm⟩
          · intro m hm
            omega
        · rw [if_neg he]
          by_cases hlt : k < sp.getD (lo + (hi - lo) / 2) 0
          · rw [if_pos hlt]
            obtain ⟨d1, d2, d3, d4⟩ :=
              ih lo (lo + (hi - lo) / 2) (by omega) (by omega) (by omega)
            refine ⟨d1, by omega, ?_, ?_⟩
            · intro m hm
              obtain ⟨e1, e2, e3⟩ := d3 m hm
              exact ⟨e1, by omega, e3⟩
            · intro m hm
              obtain ⟨e1, e2, e3, e4⟩ := d4 m hm
              refine ⟨e1, by omega, e3, ?_⟩
              rcases e4 with e | e
              · right
                rw [e]
                exact hlt
              · right; exact e
          · have hgt : sp.getD (lo + (hi - lo) / 2) 0 < k := by omega
            rw [if_neg hlt]
            obtain ⟨d1, d2, d3, d4⟩ :=
              ih (lo + (hi - lo) / 2 + 1) hi (by omega) (by omega) h2
            refine ⟨by omega, d2, ?_, ?_⟩
            · intro m hm
              obtain ⟨e1, e2, e3⟩ := d3 m hm
              exact ⟨by omega, e2, e3⟩
            · intro m hm
              obtain ⟨e1, e2, e3, e4⟩ := d4 m hm
              refine ⟨by omega, e2, ?_, e4⟩
              rcases e3 with e | e
              · right
                have hm1 : m - 1 = lo + (hi - lo) / 2 := by omega
                rw [hm1]
                exact hgt
              · right; exact e
      · unfold classifySeg
        rw [dif_neg hlh]
        refine ⟨le_rfl, by omega, ?_, ?_⟩
        · intro m hm; omega
        · intro m hm
          exact ⟨by omega, by omega, Or.inl (by omega), Or.inl (by omega)⟩

theorem classifyK_le (sp : List Nat) (k : Nat) :
    classifyK sp k ≤ 2 * sp.length := by
  obtain ⟨c1, c2, c3, c4⟩ :=
    classifySeg_spec sp k sp.length 0 sp.length le_rfl (by omega) le_rfl
  exact c2

theorem classifyK_odd {sp : List Nat} {k m : Nat}
    (h : classifyK sp k = 2 * m + 1) : m < sp.length ∧ sp.getD m 0 = k := by
  obtain ⟨c1, c2, c3, c4⟩ :=
    classifySeg_spec sp k sp.length 0 sp.length le_rfl (by omega) le_rfl
  obtain ⟨e1, e2, e3⟩ := c3 m h
  exact ⟨e2, e3⟩

theorem classifyK_even {sp : List Nat} (hs : sp.Sorted (· ≤ ·)) {k m : Nat}
    (h : classifyK sp k = 2 * m) :
    m ≤ sp.length ∧ (∀ i, i < m → sp.getD i 0 < k) ∧
    (∀ i, m ≤ i → i < sp.length → k < sp.getD i 0) := by
  obtain ⟨c1, c2, c3, c4⟩ :=
    classifySeg_spec sp k sp.length 0 sp.length le_rfl (by omega) le_rfl
  obtain ⟨e1, e2, e3, e4⟩ := c4 m h
  refine ⟨e2, ?_, ?_⟩
  · intro i hi
    rcases e3 with e | e
    · omega
    · have := sorted_getD_mono hs (show i ≤ m - 1 by omega) (by omega)
      omega
  · intro i hi1 hi2
    rcases e4 with e | e
    · omega
    · have := sorted_getD_mono hs (show m ≤ i by omega) hi2
      omega

theorem classifyK_parity (sp : List Nat) (k : Nat) :
    classifyK sp k = 2 * (classifyK sp k / 2) + classifyK sp k % 2 := by
  omega

/-- Monotonicity of the classifier in the key. -/
theorem classifyK_mono {sp : List Nat} (hs : sp.Sorted (· ≤ ·)) {k k' : Nat}
    (hk : k ≤ k') : classifyK sp k ≤ classifyK sp k' := by
  by_contra hc
  push_neg at hc
  by_cases hpar : classifyK sp k % 2 = 0
  · have hb : classifyK sp k = 2 * (classifyK sp k / 2) := by omega
    obtain ⟨f1, f2, f3⟩ := classifyK_even hs hb
    by_cases hpar' : classifyK sp k' % 2 = 0
    · have hb' : classifyK sp k' = 2 * (classifyK sp k' / 2) := by omega
      obtain ⟨g1, g2, g3⟩ := classifyK_even hs hb'
      -- k' falls in a strictly earlier even bucket: splitter between them
      have hmm : classifyK sp k' / 2 < classifyK sp k / 2 := by omega
      have h1 := f2 (classifyK sp k' / 2) hmm
      have h2 := g3 (classifyK sp k' / 2) le_rfl (by omega)
      omega
    · have hb' : classifyK sp k' = 2 * (classifyK sp k' / 2) + 1 := by omega
      obtain ⟨g1, g2⟩ := classifyK_odd hb'
      have hmm : classifyK sp k' / 2 < classifyK sp k / 2 := by omega
      have h1 := f2 (classifyK sp k' / 2) hmm
      omega
  · have hb : classifyK sp k = 2 * (classifyK sp k / 2) + 1 := by omega
    obtain ⟨f1, f2⟩ := classifyK_odd hb
    by_cases hpar' : classifyK sp k' % 2 = 0
    · have hb' : classifyK sp k' = 2 * (classifyK sp k' / 2) := by omega
      obtain ⟨g1, g2, g3⟩ := classifyK_even hs hb'
      have hmm : classifyK sp k' / 2 ≤ classifyK sp k / 2 := by omega
      have h2 := g3 (classifyK sp k / 2) hmm f1
      omega
    · have hb' : classifyK sp k' = 2 * (classifyK sp k' / 2) + 1 := by omega
      obtain ⟨g1, g2⟩ := classifyK_odd hb'
      have hmm : classifyK sp k' / 2 < classifyK sp k / 2 := by omega
      have hmono := sorted_getD_mono hs (show classifyK sp k' / 2 ≤ classifyK sp k / 2 by omega) f1
      have hkk : k = k' := by omega
      rw [hkk] at hc
      omega

/-- A key equal to some splitter always lands in an odd (equal) bucket. -/
theorem classifySeg_odd_of_mem (sp : List Nat) (hs : sp.Sorted (· ≤ ·)) (k : Nat) :
    ∀ (fuel lo hi : Nat), hi - lo ≤ fuel → hi ≤ sp.length →
    (∃ i, lo ≤ i ∧ i < hi ∧ sp.getD i 0 = k) →
    classifySeg sp k lo hi % 2 = 1 := by
  intro fuel
  induction fuel with
  | zero =>
      intro lo hi hf h2 ⟨i, hi1, hi2, hi3⟩
      omega
  | succ fl ih =>
      intro lo hi hf h2 hex
      obtain ⟨i, hi1, hi2, hi3⟩ := hex
      have hlh : lo < hi := by omega
      unfold classifySeg
      rw [dif_pos hlh]
      dsimp only
      by_cases he : k = sp.getD (lo + (hi - lo) / 2) 0
      · rw [if_pos he]
        omega
      · rw [if_neg he]
        by_cases hlt : k < sp.getD (lo + (hi - lo) / 2) 0
        · rw [if_pos hlt]
          apply ih lo (lo + (hi - lo) / 2) (by omega) (by omega)
          refine ⟨i, hi1, ?_, hi3⟩
          by_contra hcon
          push_neg at hcon
          have := sorted_getD_mono hs (show lo + (hi - lo) / 2 ≤ i by omega) (by omega)
          omega
        · have hgt : sp.getD (lo + (hi - lo) / 2) 0 < k := by omega
          rw [if_neg hlt]
          apply ih (lo + (hi - lo) / 2 + 1) hi (by omega) h2
          refine ⟨i, ?_, hi2, hi3⟩
          by_contra hcon
          push_neg at hcon
          have := sorted_getD_mono hs (show i ≤ lo + (hi - lo) / 2 by omega) (by omega)
          omega

theorem classifyK_odd_of_mem {sp : List Nat} (hs : sp.Sorted (· ≤ ·)) {k : Nat}
    (hex : ∃ i, i < sp.length ∧ sp.getD i 0 = k) :
    classifyK sp k % 2 = 1 := by
  obtain ⟨i, h1, h2⟩ := hex
  exact classifySeg_odd_of_mem sp hs k sp.length 0 sp.length le_rfl le_rfl
    ⟨i, by omega, h1, h2⟩

/-! ### List plumbing for the pipeline model -/

/-- Concatenation of a list of lists (the segments written side by side
into one output array). -/
def catList {α : Type} : List (List α) → List α
  | [] => []
  | l :: ls => l ++ catList ls

theorem catList_append {α : Type} (xs ys : List (List α)) :
    catList (xs ++ ys) = catList xs ++ catList ys := by
  induction xs with
  | nil => simp [catList]
  | cons x xs ih => simp [catList, ih]

theorem mem_catList {α : Type} {x : α} {ls : List (List α)} :
    x ∈ catList ls ↔ ∃ l ∈ ls, x ∈ l := by
  induction ls with
  | nil => simp [catList]
  | cons l ls ih => simp [catList, ih]

theorem catList_length {α : Type} (ls : List (List α)) :
    (catList ls).length = (ls.map List.length).sum := by
  induction ls with
  | nil => simp [catList]
  | cons l ls ih => simp [catList, ih]

/-- The byte length of the longest common front of two strings. -/
def lcpLen : List Nat → List Nat → Nat
  | a :: s, b :: t => if a = b then lcpLen s t + 1 else 0
  | _, _ => 0

/-- Result of one sorting step of the model: the output segment, the LCP
writes `(position, value)` relative to the segment start, and the
distinguishing-character writes. -/
structure SortRes where
  out : List (List Nat)
  wl : List (Nat × Nat)
  wc : List (Nat × Nat)
deriving DecidableEq

/-- Shift the positions of a write list by the offset of its segment. -/
def shiftW (o : Nat) (w : List (Nat × Nat)) : List (Nat × Nat) :=
  w.map (fun pv => (o + pv.1, pv.2))

/-- Concatenate per-bucket results: outputs side by side, writes shifted
by the preceding output length. -/
def combineRes : List SortRes → SortRes
  | [] => ⟨[], [], []⟩
  | r :: rs =>
    let c := combineRes rs
    ⟨r.out ++ c.out, r.wl ++ shiftW r.out.length c.wl,
     r.wc ++ shiftW r.out.length c.wc⟩

/-! ### Insertion sort leaves

`insertion_sort` (source lines 341-398) dispatches to
`bingmann::lcp_insertion_sort` (SaveCache variant, since the pipeline
runs on `StringShadowLcpCacheOutPtr` bundles).  Its header
(`bingmann-lcp_inssort.hpp`) is not under `src/`. -/

/-- Comparison of the string suffixes from the common depth `d`, as done
by the insertion sort leaves. -/
def dLe (d : Nat) (a b : List Nat) : Prop := lexLe (a.drop d) (b.drop d) = true

instance (d : Nat) : DecidableRel (dLe d) := fun a b => decEq _ _

instance (d : Nat) : IsTotal (List Nat) (dLe d) :=
  ⟨fun a b => lexLe_total (a.drop d) (b.drop d)⟩

instance (d : Nat) : IsTrans (List Nat) (dLe d) :=
  ⟨fun _ _ _ h1 h2 => lexLe_trans h1 h2⟩

/-- Modelled from the spec (section 4.F): `lcp_insertion_sort(set, lcp,
cache, depth)` sorts the range by comparing string suffixes from `depth`
onward. -/
def insSortAt (d : Nat) (ss : List (List Nat)) : List (List Nat) :=
  List.insertionSort (dLe d) ss

/-- Modelled from the spec (sections 3 and 4.F): the LCP writes of
`lcp_insertion_sort`: every position of the range except the first
receives `depth` plus the matched suffix length of the adjacent pair. -/
def insWl (d : Nat) (o : List (List Nat)) : List (Nat × Nat) :=
  (List.range' 1 (o.length - 1)).map
    (fun i => (i, d + lcpLen ((o.getD (i - 1) []).drop d) ((o.getD i []).drop d)))

/-- Modelled from the spec (sections 3 and 4.F): the cache writes of
`lcp_insertion_sort` with `SaveCache`: the distinguishing character
`s[lcp]` of each written position. -/
def insWc (d : Nat) (o : List (List Nat)) : List (Nat × Nat) :=
  (List.range' 1 (o.length - 1)).map
    (fun i => (i, byteAtS (o.getD i [])
      (d + lcpLen ((o.getD (i - 1) []).drop d) ((o.getD i []).drop d))))

/-- A full insertion sort leaf. -/
def insRes (d : Nat) (ss : List (List Nat)) : SortRes :=
  ⟨insSortAt d ss, insWl d (insSortAt d ss), insWc d (insSortAt d ss)⟩

/-! ### `insertion_sort_cache` (source lines 806-884)

The clean-cache variant block-sorts by the cached keys
(`insertion_sort_cache_block`, lines 806-825), then walks the runs of
equal cache values (lines 839-883): each run start other than position 0
gets an LCP/cache write from the previous run's key; runs of size > 1
are sorted deeper at `depth + 8` when the key's low byte is nonzero, and
LCP-filled with `depth + lcpKeyDepth(key)` when the key is
NUL-terminated.  For a clean cache, `cache[i]` is the key of string `i`
at the step depth, so the model computes the keys directly. -/

/-- Comparison by the cached key alone (`insertion_sort_cache_block`). -/
def kLe (d : Nat) (a b : List Nat) : Prop := keyAt a d ≤ keyAt b d

instance (d : Nat) : DecidableRel (kLe d) := fun a b => Nat.decLe _ _

instance (d : Nat) : IsTotal (List Nat) (kLe d) :=
  ⟨fun a b => Nat.le_total _ _⟩

instance (d : Nat) : IsTrans (List Nat) (kLe d) :=
  ⟨fun _ _ _ h1 h2 => Nat.le_trans h1 h2⟩

/-- Maximal runs of equal `f`-value (the grouping loop of
`insertion_sort_cache`, lines 840-845). -/
def runsF (f : List Nat → Nat) : List (List Nat) → List (List (List Nat))
  | [] => []
  | [x] => [[x]]
  | x :: y :: xs =>
    match runsF f (y :: xs) with
    | [] => [[x]]
    | r :: rs => if f x = f y then (x :: r) :: rs else [x] :: r :: rs

/-- The interior LCP fill of a terminal range: `fill_lcp(v)` writes `v`
to every position of the range except the first (spec section 3,
ShadowBundle). -/
def fillWr (v sz : Nat) : List (Nat × Nat) :=
  (List.range' 1 (sz - 1)).map (fun t => (t, v))

/-- The run walk of `insertion_sort_cache` (source lines 839-883),
carrying the key of the previous run (`cache[start - 1]`).  Positions
are relative to the start of the current run. -/
def iscRec (d : Nat) : Option Nat → List (List (List Nat)) → SortRes
  | _, [] => ⟨[], [], []⟩
  | prev, r :: rs =>
    let k := keyAt (r.headD []) d
    let sub : SortRes :=
      if r.length ≤ 1 then ⟨r, [], []⟩
      else if k % 256 ≠ 0 then insRes (d + 8) r
      else ⟨r, fillWr (d + lcpKeyDepth k) r.length, []⟩
    let bnd : List (Nat × Nat) × List (Nat × Nat) :=
      match prev with
      | none => ([], [])
      | some pk =>
        ([(0, d + lcpKeyType pk k)], [(0, getCharAtDepth k (lcpKeyType pk k))])
    let rest := iscRec d (some k) rs
    ⟨sub.out ++ rest.out,
     bnd.1 ++ sub.wl ++ shiftW r.length rest.wl,
     bnd.2 ++ sub.wc ++ shiftW r.length rest.wc⟩

/-- `insertion_sort_cache<false>` on a clean cache (source lines
830-884): block sort by key, then the run walk. -/
def iscRes (d : Nat) (ss : List (List Nat)) : SortRes :=
  if ss.length ≤ 1 then ⟨ss, [], []⟩
  else iscRec d none (runsF (fun s => keyAt s d) (List.insertionSort (kLe d) ss))

/-! ### Oracle and splitters

The scheduler and the seeded `LCGRandom` stream (whose header is not
under `src/`) enter the model as an oracle: `samp` yields the raw random
numbers of the sampling loops (source lines 543-544 and 1379-1380, used
modulo `n`), `steal` the `use_work_sharing && jobqueue.has_idle()`
outcomes that divert pending stack levels through `Enqueue`
(`sample_sort_free_work` lines 721-778, `mkqs_free_work` lines
1187-1239), and `nsp` the classifier's `numsplitters` constant. -/

structure Oracle where
  nsp : Nat
  samp : List Nat → Nat → Nat
  steal : List Nat → Bool

/-- The sampled keys of one step (`samples[i] =
get_uint64(strset[rng() % n], depth)`, source lines 543-544/1379-1380,
with `samplesize = 2 * numsplitters`, oversampling factor 2). -/
def sampleKeys (ok : Oracle) (path : List Nat) (d : Nat)
    (ss : List (List Nat)) : List Nat :=
  (List.range (2 * ok.nsp)).map
    (fun i => keyAt (ss.getD (ok.samp path i % ss.length) []) d)

/-- Modelled from the spec (section 4.C): `classifier.build` sorts the
samples (`std::sort`, line 546/1382 is in `src/`) and selects every
second element of the sorted sample array as the splitters. -/
def splitOf (ok : Oracle) (path : List Nat) (d : Nat)
    (ss : List (List Nat)) : List Nat :=
  (List.range ok.nsp).map
    (fun m => (List.insertionSort (· ≤ ·) (sampleKeys ok path d ss)).getD
      (2 * m + 1) 0)

/-- Modelled from the spec (section 3): the low 7 bits of
`splitter_lcp[m]`: the LCP of the adjacent splitters, 0 for the leftmost
slot and for the sentinel slot `m = numsplitters`. -/
def splLow (sp : List Nat) (m : Nat) : Nat :=
  if m = 0 ∨ sp.length ≤ m then 0
  else lcpKeyType (sp.getD (m - 1) 0) (sp.getD m 0)

/-- Modelled from the spec (section 3): the high bit of
`splitter_lcp[m]`, set when the splitter key is NUL-terminated (its low
byte is zero). -/
def splHigh (sp : List Nat) (m : Nat) : Bool := decide (sp.getD m 0 % 256 = 0)

/-- The bucket a string is classified into. -/
def bucketOf (sp : List Nat) (d : Nat) (s : List Nat) : Nat :=
  classifyK sp (keyAt s d)

/-- Content of bucket `i` after the sequential out-of-place permute
(`SeqSampleSortStep` constructor, source lines 572-581): the strings of
the bucket in reverse scan order, because each string is placed at the
pre-decremented inclusive prefix sum `--bkt[*bktcache]`. -/
def bucketSeq (sp : List Nat) (d : Nat) (ss : List (List Nat)) (i : Nat) :
    List (List Nat) :=
  (ss.filter (fun s => bucketOf sp d s == i)).reverse

/-- The slice of part `p`: `[p * psize, min((p + 1) * psize, n))`
(source lines 1398-1400/1444-1446; an empty slice when the start is past
the end). -/
def partSeg (ps : Nat) (ss : List (List Nat)) (p : Nat) : List (List Nat) :=
  (ss.drop (p * ps)).take ps

/-- Content of bucket `i` after the parallel distribute (source lines
1440-1464 together with the per-part inclusive prefix sums of
`count_finished`, lines 1421-1429): parts in order, each part's bucket
members in reverse scan order (pre-decremented prefix sum, line 1455). -/
def bucketPar (sp : List Nat) (d : Nat) (parts ps : Nat)
    (ss : List (List Nat)) (i : Nat) : List (List Nat) :=
  catList ((List.range parts).map
    (fun p => ((partSeg ps ss p).filter (fun s => bucketOf sp d s == i)).reverse))

/-- Prefix sums of bucket sizes: the boundary table `bkt[0][·]` seen by
`distribute_finished` and `sample_sort_lcp`. -/
def boffF (szf : Nat → Nat) (b : Nat) : Nat := ((List.range b).map szf).sum

/-! ### `sample_sort_lcp` (source lines 403-478)

The goto-structured loop de-sugars to one pass over the buckets from
left to right with an optional previous key: the first non-empty bucket
only records its last key; every later non-empty bucket writes the LCP
and distinguishing character at its first position `bkt[b]` and then
records its last key.  Odd buckets use the splitter key (asserted equal
to the keys of the bucket's strings, lines 428/454/461), even buckets
read the keys of their first and last strings. -/

def ssLcpGo (sp : List Nat) (d : Nat) (out : List (List Nat))
    (boff : Nat → Nat) : List Nat → Option Nat →
    List (Nat × Nat) × List (Nat × Nat)
  | [], _ => ([], [])
  | b :: bs, prev =>
    if boff b = boff (b + 1) then ssLcpGo sp d out boff bs prev
    else
      let thiskey := if b % 2 = 1 then sp.getD (b / 2) 0
                     else keyAt (out.getD (boff b) []) d
      let lastkey := if b % 2 = 1 then sp.getD (b / 2) 0
                     else keyAt (out.getD (boff (b + 1) - 1) []) d
      match prev with
      | none => ssLcpGo sp d out boff bs (some lastkey)
      | some pk =>
        let r := lcpKeyType pk thiskey
        let rest := ssLcpGo sp d out boff bs (some lastkey)
        ((boff b, d + r) :: rest.1,
         (boff b, getCharAtDepth thiskey r) :: rest.2)

/-- All LCP/cache writes of `sample_sort_lcp` over `bktnum` buckets. -/
def ssLcpW (sp : List Nat) (d : Nat) (out : List (List Nat))
    (boff : Nat → Nat) (bktnum : Nat) :
    List (Nat × Nat) × List (Nat × Nat) :=
  ssLcpGo sp d out boff (List.range bktnum) none

/-! ### MKQS region lists and boundary LCPs -/

/-- The strings of the `<` area after the partition. -/
def mkqsLtL (d : Nat) (ss : List (List Nat)) : List (List Nat) :=
  (List.range (mkqsNumLt d ss)).map (fun i => (mkqsArr d ss i).1)

/-- The strings of the `=` area after the partition. -/
def mkqsEqL (d : Nat) (ss : List (List Nat)) : List (List Nat) :=
  (List.range (mkqsNumEq d ss)).map
    (fun i => (mkqsArr d ss (mkqsNumLt d ss + i)).1)

/-- The strings of the `>` area after the partition. -/
def mkqsGtL (d : Nat) (ss : List (List Nat)) : List (List Nat) :=
  (List.range (mkqsNumGt d ss)).map
    (fun i => (mkqsArr d ss (mkqsNumLt d ss + mkqsNumEq d ss + i)).1)

/-- `max_lt` (source lines 928/941/952, asserted at line 1013 to be the
maximum of the `<` area's cached keys, initial value 0). -/
def mkqsMaxLt (d : Nat) (ss : List (List Nat)) : Nat :=
  ((List.range (mkqsNumLt d ss)).map (fun i => (mkqsArr d ss i).2)).foldr max 0

/-- `min_gt` (source lines 928/941/973, asserted at line 1024 to be the
minimum of the `>` area's cached keys, initial value `2^64 - 1`). -/
def mkqsMinGt (d : Nat) (ss : List (List Nat)) : Nat :=
  ((List.range (mkqsNumGt d ss)).map
    (fun i => (mkqsArr d ss (mkqsNumLt d ss + mkqsNumEq d ss + i)).2)).foldr
    min (2 ^ 64 - 1)

/-! ### The sorting pipeline

One recursive function covers the mutually recursive sort steps of the
source; the mode selects which step runs:

* `enq`: the `Enqueue` router (source lines 1558-1579);
* `par`: a parallel `SampleSortStep` (sample, count, distribute,
  `distribute_finished`, final `sample_sort_lcp`; lines 1280-1555);
* `small`: `SmallsortJob::run` (lines 605-636);
* `seqss`: `sort_sample_sort` with its stack of `SeqSampleSortStep`s
  (lines 509-719);
* `mkqs`: `sort_mkqs_cache` with its stack of `MKQSStep`s (lines
  1075-1185).

Fuel replaces the job queue / explicit stacks; the master theorems show
that the fuel `3 * mps + slack` suffices. -/

inductive PMode where
  | enq : PMode
  | par : PMode
  | small : PMode
  | seqss : PMode
  | mkqs : PMode
deriving DecidableEq

/-- What a parallel step does with bucket `i` of size `sz`
(`distribute_finished`, source lines 1480-1535): empty and singleton
buckets are finished in place; the last bucket recurses at unchanged
depth; even buckets recurse at `depth + (splitter_lcp[i/2] & 0x7F)`;
odd buckets of a NUL-terminated splitter are copied back and LCP-filled;
other odd buckets recurse at `depth + 8`.  All recursion goes through
`Enqueue`. -/
inductive Route where
  | stay : Route
  | term : Nat → Route
  | go : PMode → Nat → Route

def parRoute (sp : List Nat) (bktnum d i sz : Nat) : Route :=
  if sz ≤ 1 then .stay
  else if i = bktnum - 1 then .go .enq d
  else if i % 2 = 0 then .go .enq (d + splLow sp (i / 2))
  else if splHigh sp (i / 2) then .term (d + lcpKeyDepth (sp.getD (i / 2) 0))
  else .go .enq (d + 8)

/-- What `sort_sample_sort` does with bucket `i` (source lines 650-718),
with `stl` the work-sharing outcome: a stolen pending bucket goes
through `Enqueue` instead (`sample_sort_free_work`, lines 734-774),
except that terminal equal buckets are always finished in place.  Even
buckets (the last bucket's sentinel LCP slot is 0) advance the depth by
the splitter LCP, equal buckets by 8; sizes below
`g_smallsort_threshold` drop to MKQS. -/
def seqRoute (sp : List Nat) (d i sz : Nat) (stl : Bool) : Route :=
  if sz = 0 then .stay
  else if i % 2 = 0 then
    (if stl then .go .enq (d + splLow sp (i / 2))
     else if sz < 1048576 then .go .mkqs (d + splLow sp (i / 2))
     else .go .seqss (d + splLow sp (i / 2)))
  else if splHigh sp (i / 2) then .term (d + lcpKeyDepth (sp.getD (i / 2) 0))
  else if stl then .go .enq (d + 8)
  else if sz < 1048576 then .go .mkqs (d + 8)
  else .go .seqss (d + 8)

/-- The three recursion bodies below receive the one-step-less instance
of the pipeline as `rec`. -/
def RecT : Type := PMode → List Nat → List (List Nat) → Nat → SortRes

/-- `Enqueue` (source lines 1558-1579): above the sequential threshold a
parallel step, otherwise a smallsort job (`use_only_first_sortstep` is
false, line 156; `enable_parallel_sample_sort` is true;  the
`BktSizeType` width choice does not affect the result). -/
def enqBody (st : Nat) (rec : RecT) (path : List Nat)
    (ss : List (List Nat)) (d : Nat) : SortRes :=
  if st < ss.length then rec .par path ss d else rec .small path ss d

/-- `SmallsortJob::run` (source lines 605-636). -/
def smallBody (rec : RecT) (path : List Nat) (ss : List (List Nat))
    (d : Nat) : SortRes :=
  if 1048576 ≤ ss.length then rec .seqss path ss d else rec .mkqs path ss d

/-- One bucket's result under a route. -/
def routeRes (rec : RecT) (path : List Nat) (i : Nat)
    (B : List (List Nat)) : Route → SortRes
  | .stay => ⟨B, [], []⟩
  | .term v => ⟨B, fillWr v B.length, []⟩
  | .go m d' => rec m (path ++ [i]) B d'

/-- A parallel `SampleSortStep`: splitters from the sampled keys, bucket
contents from the per-part distribute, `distribute_finished` routing,
and the final `sample_sort_lcp` pass over the finished output. -/
def parBody (ok : Oracle) (st : Nat) (rec : RecT) (path : List Nat)
    (ss : List (List Nat)) (d : Nat) : SortRes :=
  let sp := splitOf ok path d ss
  let bktnum := 2 * ok.nsp + 1
  let parts := stepParts ss.length st
  let ps := stepPsize ss.length st
  let B := fun i => bucketPar sp d parts ps ss i
  let c := combineRes ((List.range bktnum).map
    (fun i => routeRes rec path i (B i) (parRoute sp bktnum d i (B i).length)))
  let w := ssLcpW sp d c.out (boffF (fun j => (B j).length)) bktnum
  ⟨c.out, c.wl ++ w.1, c.wc ++ w.2⟩

/-- A sequential sample sort level: `SeqSampleSortStep` construction
(sample, classify, permute) and the `sort_sample_sort` bucket loop,
ending in `calculate_lcp` = `sample_sort_lcp`. -/
def seqBody (ok : Oracle) (rec : RecT) (path : List Nat)
    (ss : List (List Nat)) (d : Nat) : SortRes :=
  let sp := splitOf ok path d ss
  let bktnum := 2 * ok.nsp + 1
  let B := fun i => bucketSeq sp d ss i
  let c := combineRes ((List.range bktnum).map
    (fun i => routeRes rec path i (B i)
      (seqRoute sp d i (B i).length (ok.steal (path ++ [i])))))
  let w := ssLcpW sp d c.out (boffF (fun j => (B j).length)) bktnum
  ⟨c.out, c.wl ++ w.1, c.wc ++ w.2⟩

/-- Handling of the `<` area of one MKQS step (source lines 1106-1121,
work sharing lines 1199-1205). -/
def mkqsLtRes (ok : Oracle) (rec : RecT) (path : List Nat)
    (ss : List (List Nat)) (d : Nat) : SortRes :=
  if mkqsNumLt d ss = 0 then ⟨[], [], []⟩
  else if ok.steal (path ++ [0]) then rec .enq (path ++ [0]) (mkqsLtL d ss) d
  else if mkqsNumLt d ss < 32 then iscRes d (mkqsLtL d ss)
  else rec .mkqs (path ++ [0]) (mkqsLtL d ss) d

/-- Handling of the `=` area (source lines 1123-1148, work sharing lines
1206-1228): a NUL-terminated pivot finishes the area with an LCP fill,
otherwise it recurses at `depth + 8`. -/
def mkqsEqRes (ok : Oracle) (rec : RecT) (path : List Nat)
    (ss : List (List Nat)) (d : Nat) : SortRes :=
  if mkqsEqRec d ss = false then
    ⟨mkqsEqL d ss, fillWr (d + lcpKeyDepth (mkqsPivot d ss)) (mkqsNumEq d ss), []⟩
  else if ok.steal (path ++ [1]) then
    rec .enq (path ++ [1]) (mkqsEqL d ss) (d + 8)
  else if mkqsNumEq d ss < 32 then insRes (d + 8) (mkqsEqL d ss)
  else rec .mkqs (path ++ [1]) (mkqsEqL d ss) (d + 8)

/-- Handling of the `>` area (source lines 1150-1167, work sharing lines
1229-1234). -/
def mkqsGtRes (ok : Oracle) (rec : RecT) (path : List Nat)
    (ss : List (List Nat)) (d : Nat) : SortRes :=
  if mkqsNumGt d ss = 0 then ⟨[], [], []⟩
  else if ok.steal (path ++ [2]) then rec .enq (path ++ [2]) (mkqsGtL d ss) d
  else if mkqsNumGt d ss < 32 then iscRes d (mkqsGtL d ss)
  else rec .mkqs (path ++ [2]) (mkqsGtL d ss) d

/-- `sort_mkqs_cache` (source lines 1075-1185): below
`g_inssort_threshold = 32` a plain insertion sort leaf; otherwise one
`MKQSStep` partition, the three region recursions (with work sharing via
`mkqs_free_work`), the terminal equal-area fill when the pivot is
NUL-terminated, and the boundary writes of `MKQSStep::calculate_lcp`
(`PS5_CALC_LCP_MKQS == 1`, lines 1009-1046). -/
def mkqsBody (ok : Oracle) (rec : RecT) (path : List Nat)
    (ss : List (List Nat)) (d : Nat) : SortRes :=
  if ss.length < 32 then insRes d ss
  else
    let piv := mkqsPivot d ss
    let nlt := mkqsNumLt d ss
    let neq := mkqsNumEq d ss
    let ngt := mkqsNumGt d ss
    let c := combineRes [mkqsLtRes ok rec path ss d, mkqsEqRes ok rec path ss d,
      mkqsGtRes ok rec path ss d]
    let bw : List (Nat × Nat) :=
      (if nlt = 0 then [] else [(nlt, d + lcpKeyType (mkqsMaxLt d ss) piv)]) ++
      (if ngt = 0 then [] else [(nlt + neq, d + lcpKeyType piv (mkqsMinGt d ss))])
    let bc : List (Nat × Nat) :=
      (if nlt = 0 then []
       else [(nlt, getCharAtDepth piv (lcpKeyType (mkqsMaxLt d ss) piv))]) ++
      (if ngt = 0 then []
       else [(nlt + neq,
         getCharAtDepth (mkqsMinGt d ss) (lcpKeyType piv (mkqsMinGt d ss)))])
    ⟨c.out, c.wl ++ bw, c.wc ++ bc⟩

/-- The pipeline.  Out of fuel, a step returns its input unchanged; the
master theorems are stated for sufficient fuel. -/
def psSort (ok : Oracle) (st : Nat) :
    Nat → PMode → List Nat → List (List Nat) → Nat → SortRes
  | 0, _, _, ss, _ => ⟨ss, [], []⟩
  | fuel + 1, m, path, ss, d =>
    match m with
    | .enq => enqBody st (psSort ok st fuel) path ss d
    | .par => parBody ok st (psSort ok st fuel) path ss d
    | .small => smallBody (psSort ok st fuel) path ss d
    | .seqss => seqBody ok (psSort ok st fuel) path ss d
    | .mkqs => mkqsBody ok (psSort ok st fuel) path ss d

/-- Per-string weight of the termination measure: at most
`length + 1 - depth` further key bytes can be inspected. -/
def strWeight (d : Nat) (s : List Nat) : Nat := s.length + 1 - d

/-- Step measure: total remaining weight plus the segment length. -/
def mps (ss : List (List Nat)) (d : Nat) : Nat :=
  (ss.map (strWeight d)).sum + ss.length

/-- Mode slack of the measure. -/
def modeSlack : PMode → Nat
  | .enq => 2
  | .par => 1
  | .small => 1
  | .seqss => 0
  | .mkqs => 0

/-- Fuel sufficient for a whole run from the `Enqueue` entry. -/
def fuelFor (ss : List (List Nat)) (d : Nat) : Nat := 3 * mps ss d + 2

/-- `parallel_sample_sort` (source lines 1588-1604): fix the sequential
threshold from the total size and the thread count, then `Enqueue` the
whole range. -/
def psTop (ok : Oracle) (T : Nat) (ss : List (List Nat)) (d : Nat) : SortRes :=
  psSort ok (sequentialThreshold ss.length T) (fuelFor ss d) .enq [] ss d

/-! ### Plumbing lemmas for the pipeline -/

theorem combineRes_out (rs : List SortRes) :
    (combineRes rs).out = catList (rs.map SortRes.out) := by
  induction rs with
  | nil => rfl
  | cons r rs ih => simp [combineRes, catList, ih]

theorem catList_perm_of_forall₂ {α : Type} {xs ys : List (List α)}
    (h : List.Forall₂ (fun a b => a.Perm b) xs ys) :
    (catList xs).Perm (catList ys) := by
  induction h with
  | nil => exact List.Perm.refl _
  | cons h _ ih => exact List.Perm.append h ih

theorem map_getD_range_eq (l : List (List Nat)) :
    (List.range l.length).map (fun i => l.getD i []) = l := by
  apply List.ext_getElem (by simp)
  intro i hi1 hi2
  simp only [List.getElem_map, List.getElem_range]
  rw [List.getD_eq_getElem l [] hi2]

theorem getD_mem_of_lt {α : Type} (l : List α) (x : α) {n : Nat}
    (h : n < l.length) : l.getD n x ∈ l := by
  rw [List.getD_eq_getElem l x h]
  exact List.getElem_mem h

theorem range_one_eq : List.range 1 = [0] := by decide

theorem catList_partSeg (ps : Nat) (ss : List (List Nat)) :
    ∀ k, catList ((List.range k).map (partSeg ps ss)) = ss.take (k * ps) := by
  intro k
  induction k with
  | zero => simp [catList]
  | succ k ih =>
      rw [List.range_add, List.map_append, catList_append, ih]
      have h3 : List.map (partSeg ps ss) (List.map (fun x => k + x) (List.range 1))
          = [partSeg ps ss k] := by simp [range_one_eq]
      rw [h3]
      simp only [catList, List.append_nil]
      rw [partSeg, show (k + 1) * ps = k * ps + ps by ring, List.take_add]

theorem ceil_mul_ge {n p : Nat} (hp : 1 ≤ p) : n ≤ p * ((n + p - 1) / p) := by
  have h1 := Nat.div_add_mod (n + p - 1) p
  have h2 : (n + p - 1) % p < p := Nat.mod_lt _ (by omega)
  generalize hA : p * ((n + p - 1) / p) = A at h1 ⊢
  generalize hR : (n + p - 1) % p = R at h1 h2
  omega

/-- `parts * psize` covers the whole range. -/
theorem parts_psize_ge (n st : Nat) : n ≤ stepParts n st * stepPsize n st :=
  ceil_mul_ge (stepParts_pos n st)

theorem filter_catList {α : Type} (p : α → Bool) (ls : List (List α)) :
    (catList ls).filter p = catList (ls.map (List.filter p)) := by
  induction ls with
  | nil => rfl
  | cons l ls ih => simp [catList, List.filter_append, ih]

/-- The parallel bucket is a permutation of the straight filter. -/
theorem bucketPar_perm (sp : List Nat) (d parts ps : Nat) (ss : List (List Nat))
    (i : Nat) (hcov : ss.length ≤ parts * ps) :
    (bucketPar sp d parts ps ss i).Perm
      (ss.filter (fun s => bucketOf sp d s == i)) := by
  have hss : catList ((List.range parts).map (partSeg ps ss)) = ss := by
    rw [catList_partSeg, List.take_of_length_le hcov]
  have h1 : (bucketPar sp d parts ps ss i).Perm
      (catList ((List.range parts).map
        (fun p' => (partSeg ps ss p').filter (fun s => bucketOf sp d s == i)))) := by
    apply catList_perm_of_forall₂
    rw [List.forall₂_map_left_iff, List.forall₂_map_right_iff]
    apply List.forall₂_same.mpr
    intro x _
    exact List.reverse_perm _
  have h2 : catList ((List.range parts).map
      (fun p' => (partSeg ps ss p').filter (fun s => bucketOf sp d s == i)))
      = ss.filter (fun s => bucketOf sp d s == i) := by
    conv_rhs => rw [← hss]
    rw [filter_catList, List.map_map]
    rfl
  rw [← h2]
  exact h1

theorem catList_eq_nil {α : Type} {ls : List (List α)}
    (h : ∀ bl ∈ ls, bl = []) : catList ls = [] := by
  induction ls with
  | nil => rfl
  | cons l ls ih =>
      have h1 : l = [] := h l (by simp)
      simp [catList, h1, ih (fun bl hbl => h bl (by simp [hbl]))]

/-- Prepending one element to the `t`-th block permutes to prepending it
to the concatenation. -/
theorem catList_cons_block {α : Type} (x : α) :
    ∀ (k : Nat) (g g' : Nat → List α) (t : Nat), t < k →
    (∀ i, i ≠ t → g' i = g i) → g' t = x :: g t →
    (catList ((List.range k).map g')).Perm
      (x :: catList ((List.range k).map g)) := by
  intro k
  induction k with
  | zero => intro g g' t ht; omega
  | succ k ih =>
      intro g g' t ht hne hteq
      rw [List.range_add]
      simp only [List.map_append, catList_append]
      have h3 : ∀ h : Nat → List α,
          List.map h (List.map (fun y => k + y) (List.range 1)) = [h k] := by
        intro h
        simp [range_one_eq]
      rw [h3 g, h3 g']
      simp only [catList, List.append_nil]
      by_cases htk : t = k
      · subst htk
        have hall : List.map g' (List.range t) = List.map g (List.range t) := by
          apply List.map_congr_left
          intro i hi
          exact hne i (by simp at hi; omega)
        rw [hall, hteq]
        exact List.perm_middle
      · have ht' : t < k := by omega
        have hk : g' k = g k := hne k (by omega)
        rw [hk]
        have hstep := ih g g' t ht' hne hteq
        exact hstep.append_right (g k)

/-- Classified buckets partition the list. -/
theorem buckets_partition {B : Nat} {f : List Nat → Nat} :
    ∀ {l : List (List Nat)}, (∀ x ∈ l, f x < B) →
    (catList ((List.range B).map (fun i => l.filter (fun s => f s == i)))).Perm
      l := by
  intro l
  induction l with
  | nil =>
      intro h0
      have h1 : catList ((List.range B).map
          (fun i => List.filter (fun s => f s == i) ([] : List (List Nat)))) = [] :=
        catList_eq_nil (by
          intro bl hbl
          simp only [List.mem_map] at hbl
          obtain ⟨i, hmem, hbl⟩ := hbl
          rw [← hbl]
          rfl)
      rw [h1]
  | cons x l ih =>
      intro hf
      have hfx : f x < B := hf x (by simp)
      have hstep : (catList ((List.range B).map
          (fun i => List.filter (fun s => f s == i) (x :: l)))).Perm
          (x :: catList ((List.range B).map
            (fun i => List.filter (fun s => f s == i) l))) := by
        apply catList_cons_block x B _ _ (f x) hfx
        · intro i hi
          rw [List.filter_cons]
          rw [if_neg (by simp; omega)]
        · rw [List.filter_cons]
          rw [if_pos (by simp)]
      exact hstep.trans ((ih (fun y hy => hf y (by simp [hy]))).cons x)

/-- Sorted concatenation from sorted segments and pairwise segment
ordering. -/
theorem sorted_catList {ls : List (List (List Nat))}
    (hs : ∀ l ∈ ls, l.Sorted sLe)
    (hc : List.Pairwise (fun l l' => ∀ a ∈ l, ∀ b ∈ l', sLe a b) ls) :
    (catList ls).Sorted sLe := by
  induction ls with
  | nil => exact List.sorted_nil
  | cons l ls ih =>
      rw [List.pairwise_cons] at hc
      show List.Sorted sLe (l ++ catList ls)
      rw [List.Sorted, List.pairwise_append]
      refine ⟨hs l (by simp), ih (fun x hx => hs x (by simp [hx])) hc.2, ?_⟩
      intro a ha b hb
      obtain ⟨l', hl', hbl'⟩ := mem_catList.mp hb
      exact hc.1 l' hl' a ha b hbl'

theorem sorted_len_le_one {l : List (List Nat)} (h : l.length ≤ 1) :
    l.Sorted sLe := by
  match l, h with
  | [], _ => exact List.sorted_nil
  | [x], _ => exact List.sorted_singleton x

theorem sorted_of_all_eq {l : List (List Nat)}
    (h : ∀ a ∈ l, ∀ b ∈ l, a = b) : l.Sorted sLe := by
  rw [List.Sorted, List.pairwise_iff_getElem]
  intro i j hi hj hij
  have := h (l[i]) (List.getElem_mem hi) (l[j]) (List.getElem_mem hj)
  rw [this]
  exact lexLe_refl _

/-! ### Depth-relative comparison agrees with full comparison under a
shared front -/

theorem lexLt_append_same : ∀ (x u v : List Nat),
    lexLt (x ++ u) (x ++ v) = lexLt u v := by
  intro x
  induction x with
  | nil => intro u v; rfl
  | cons a x ih =>
      intro u v
      show lexLt (a :: (x ++ u)) (a :: (x ++ v)) = lexLt u v
      simp only [lexLt]
      rw [if_neg (by omega), if_neg (by omega)]
      exact ih u v

theorem lexLe_append_same (x u v : List Nat) :
    lexLe (x ++ u) (x ++ v) = lexLe u v := by
  rw [lexLe_eq_not_lexLt, lexLe_eq_not_lexLt, lexLt_append_same]

theorem sLe_iff_dLe {d : Nat} {a b : List Nat} (htake : a.take d = b.take d) :
    sLe a b ↔ dLe d a b := by
  unfold sLe dLe
  conv_lhs => rw [← List.take_append_drop d a, ← List.take_append_drop d b, htake]
  rw [lexLe_append_same]

/-- Insertion sort at a shared depth yields a fully sorted list. -/
theorem insSortAt_perm (d : Nat) (ss : List (List Nat)) :
    (insSortAt d ss).Perm ss := List.perm_insertionSort _ _

theorem insSortAt_sorted {d : Nat} {ss : List (List Nat)}
    (htake : ∀ a ∈ ss, ∀ b ∈ ss, a.take d = b.take d) :
    (insSortAt d ss).Sorted sLe := by
  have hs : (insSortAt d ss).Sorted (dLe d) :=
    List.sorted_insertionSort (dLe d) ss
  have hmem : ∀ x ∈ insSortAt d ss, x ∈ ss :=
    fun x hx => (insSortAt_perm d ss).mem_iff.mp hx
  exact List.Pairwise.imp_of_mem
    (fun ha hb hr => (sLe_iff_dLe (htake _ (hmem _ ha) _ (hmem _ hb))).mpr hr) hs

/-! ### Key padding and the even-bucket depth advance -/

theorem keyByte_seven (k : Nat) : keyByte k 7 = k % 256 := by
  simp [keyByte]

theorem keyAt_pad {s : List Nat} (hws : wfStr s = true) {d j j' : Nat}
    (hjj : j ≤ j') (hj' : j' < 8) (hz : keyByte (keyAt s d) j = 0) :
    keyByte (keyAt s d) j' = 0 := by
  rw [keyByte_keyAt hws d (by omega)] at hz
  rw [keyByte_keyAt hws d hj']
  have hlen := (byteAtS_zero_iff hws (d + j)).mp hz
  exact byteAtS_eq_zero_of_le (by omega)

/-- Two keys strictly between two splitter keys share the splitters'
common front, and the corresponding string bytes are present and equal:
the even bucket of the classifier may advance the depth by the adjacent
splitters' LCP. -/
theorem between_take {a b pa pb : List Nat} {d : Nat}
    (hwa : wfStr a = true) (hwb : wfStr b = true)
    (hwpa : wfStr pa = true) (hwpb : wfStr pb = true)
    (htake : a.take d = b.take d) (hda : d ≤ a.length) (hdb : d ≤ b.length)
    (h1a : keyAt pa d < keyAt a d) (h2a : keyAt a d < keyAt pb d)
    (h1b : keyAt pa d < keyAt b d) (h2b : keyAt b d < keyAt pb d) :
    a.take (d + lcpKeyType (keyAt pa d) (keyAt pb d))
      = b.take (d + lcpKeyType (keyAt pa d) (keyAt pb d)) ∧
    d + lcpKeyType (keyAt pa d) (keyAt pb d) ≤ a.length ∧
    d + lcpKeyType (keyAt pa d) (keyAt pb d) ≤ b.length := by
  set A := keyAt pa d with hA
  set B := keyAt pb d with hB
  set L := lcpKeyType A B with hLdef
  have hL : L ≤ 8 := lcpKeyType_le A B
  have hA8 : A < 256 ^ 8 := keyAt_lt pa hwpa d
  have hB8 : B < 256 ^ 8 := keyAt_lt pb hwpb d
  have ha8 : keyAt a d < 256 ^ 8 := keyAt_lt a hwa d
  have hb8 : keyAt b d < 256 ^ 8 := keyAt_lt b hwb d
  have hAB : ∀ j, j < L → keyByte A j = keyByte B j :=
    fun j hj => lcpKeyType_agree hj
  have hba : ∀ j, j < L → keyByte (keyAt a d) j = keyByte A j :=
    keyByte_eq_of_between hA8 hB8 hL hAB (Nat.le_of_lt h1a) (Nat.le_of_lt h2a)
  have hbb : ∀ j, j < L → keyByte (keyAt b d) j = keyByte A j :=
    keyByte_eq_of_between hA8 hB8 hL hAB (Nat.le_of_lt h1b) (Nat.le_of_lt h2b)
  have hnz : ∀ j, j < L → keyByte A j ≠ 0 := by
    intro j hj hz
    have heqk : keyAt a d = A := by
      apply keyBytes_inj ha8 hA8
      intro j' hj'
      by_cases hlt : j' < j
      · exact hba j' (by omega)
      · have hza : keyByte (keyAt a d) j' = 0 := by
          apply keyAt_pad hwa (show j ≤ j' by omega) hj'
          rw [hba j hj]
          exact hz
        have hzA : keyByte A j' = 0 :=
          keyAt_pad hwpa (show j ≤ j' by omega) hj' hz
        rw [hza, hzA]
    omega
  have hbytes : ∀ i, d ≤ i → i < d + L → byteAtS a i = byteAtS b i := by
    intro i h1 h2
    have hij : i - d < L := by omega
    have h3 : byteAtS a i = keyByte (keyAt a d) (i - d) := by
      rw [keyByte_keyAt hwa d (by omega)]
      have : d + (i - d) = i := by omega
      rw [this]
    have h4 : byteAtS b i = keyByte (keyAt b d) (i - d) := by
      rw [keyByte_keyAt hwb d (by omega)]
      have : d + (i - d) = i := by omega
      rw [this]
    rw [h3, h4, hba _ hij, hbb _ hij]
  have hlen : ∀ (c : List Nat), wfStr c = true →
      (∀ j, j < L → keyByte (keyAt c d) j = keyByte A j) → d ≤ c.length →
      d + L ≤ c.length := by
    intro c hwc hbc hdc
    rcases Nat.eq_zero_or_pos L with hL0 | hL1
    · omega
    · have hb7 : byteAtS c (d + (L - 1)) ≠ 0 := by
        rw [← keyByte_keyAt hwc d (show L - 1 < 8 by omega)]
        rw [hbc _ (by omega)]
        exact hnz _ (by omega)
      by_contra hc
      push_neg at hc
      exact hb7 ((byteAtS_zero_iff hwc _).mpr (by omega))
  have hla := hlen a hwa hba hda
  have hlb := hlen b hwb hbb hdb
  exact ⟨take_eq_of_agree (by omega) htake hbytes hla hlb, hla, hlb⟩

/-! ### Splitter facts -/

theorem splitOf_length (ok : Oracle) (path : List Nat) (d : Nat)
    (ss : List (List Nat)) : (splitOf ok path d ss).length = ok.nsp := by
  simp [splitOf]

theorem sampleKeys_sorted_length (ok : Oracle) (path : List Nat) (d : Nat)
    (ss : List (List Nat)) :
    (List.insertionSort (· ≤ ·) (sampleKeys ok path d ss)).length = 2 * ok.nsp := by
  rw [(List.perm_insertionSort (· ≤ ·) (sampleKeys ok path d ss)).length_eq]
  simp [sampleKeys]

theorem splitOf_sorted (ok : Oracle) (path : List Nat) (d : Nat)
    (ss : List (List Nat)) : (splitOf ok path d ss).Sorted (· ≤ ·) := by
  rw [List.Sorted, List.pairwise_iff_getElem]
  intro i j hi hj hij
  rw [splitOf_length] at hi hj
  unfold splitOf
  simp only [List.getElem_map, List.getElem_range]
  apply sorted_getD_mono (List.sorted_insertionSort (· ≤ ·) _)
  · omega
  · rw [sampleKeys_sorted_length]
    omega

theorem splitOf_mem_key (ok : Oracle) (path : List Nat) (d : Nat)
    (ss : List (List Nat)) {m : Nat} (hm : m < ok.nsp) (hn : 1 ≤ ss.length) :
    ∃ s, s ∈ ss ∧ (splitOf ok path d ss).getD m 0 = keyAt s d := by
  have hms : (splitOf ok path d ss).getD m 0
      = (List.insertionSort (· ≤ ·) (sampleKeys ok path d ss)).getD (2 * m + 1) 0 := by
    rw [List.getD_eq_getElem _ _ (by rw [splitOf_length]; omega)]
    unfold splitOf
    simp only [List.getElem_map, List.getElem_range]
  have hmem : (List.insertionSort (· ≤ ·) (sampleKeys ok path d ss)).getD
      (2 * m + 1) 0 ∈ List.insertionSort (· ≤ ·) (sampleKeys ok path d ss) :=
    getD_mem_of_lt _ _ (by rw [sampleKeys_sorted_length]; omega)
  have hmem2 := (List.perm_insertionSort (· ≤ ·)
    (sampleKeys ok path d ss)).mem_iff.mp hmem
  unfold sampleKeys at hmem2
  simp only [List.mem_map, List.mem_range] at hmem2
  obtain ⟨i, _, hkey⟩ := hmem2
  refine ⟨ss.getD (ok.samp path i % ss.length) [], ?_, ?_⟩
  · exact getD_mem_of_lt _ _ (Nat.mod_lt _ (by omega))
  · rw [hms]
    unfold sampleKeys
    exact hkey.symm

theorem bucketOf_lt (sp : List Nat) (d : Nat) (s : List Nat) :
    bucketOf sp d s < 2 * sp.length + 1 := by
  have := classifyK_le sp (keyAt s d)
  unfold bucketOf
  omega

/-- Odd-bucket members carry the splitter's key. -/
theorem bucket_odd_key {sp : List Nat} {d i : Nat} (hi : i % 2 = 1)
    {s : List Nat} (hb : bucketOf sp d s = i) :
    i / 2 < sp.length ∧ sp.getD (i / 2) 0 = keyAt s d := by
  have h2 : classifyK sp (keyAt s d) = 2 * (i / 2) + 1 := by
    unfold bucketOf at hb
    omega
  exact classifyK_odd h2

/-- Some string of a non-empty set lands in an odd bucket, so every even
bucket misses at least one string. -/
theorem even_bucket_strict {sp : List Nat} {d : Nat} {ss : List (List Nat)}
    (hsp : sp.Sorted (· ≤ ·)) (hex : ∃ s ∈ ss, ∃ idx, idx < sp.length ∧
      sp.getD idx 0 = keyAt s d) {i : Nat} (hi : i % 2 = 0) :
    (ss.filter (fun s => bucketOf sp d s == i)).length < ss.length := by
  obtain ⟨s, hs, idx, hidx, hkey⟩ := hex
  apply List.length_filter_lt_length_iff_exists.mpr
  refine ⟨s, hs, ?_⟩
  have hodd : classifyK sp (keyAt s d) % 2 = 1 :=
    classifyK_odd_of_mem hsp ⟨idx, hidx, hkey⟩
  simp only [beq_iff_eq]
  unfold bucketOf
  omega

/-! ### Measure lemmas -/

theorem sublist_sum_le {l m : List Nat} (h : l.Sublist m) : l.sum ≤ m.sum := by
  induction h with
  | slnil => simp
  | cons a h ih => simp only [List.sum_cons]; omega
  | cons₂ a h ih => simp only [List.sum_cons]; omega

/-- A depth-advanced permuted sublist does not increase the weight sum,
and not the length either. -/
theorem mps_le_of_parts {l ss : List (List Nat)} {d d' : Nat} (hd : d ≤ d')
    (hsub : l.Subperm ss) :
    (l.map (strWeight d')).sum ≤ (ss.map (strWeight d)).sum ∧
    l.length ≤ ss.length := by
  obtain ⟨l', hp, hs⟩ := hsub
  constructor
  · calc (l.map (strWeight d')).sum
        = (l'.map (strWeight d')).sum := (List.Perm.sum_eq (hp.map _)).symm
      _ ≤ (l'.map (strWeight d)).sum := by
          apply List.sum_le_sum
          intro s _
          unfold strWeight
          omega
      _ ≤ (ss.map (strWeight d)).sum := sublist_sum_le (hs.map _)
  · rw [← hp.length_eq]
    exact hs.length_le

theorem sumW_shift8 {l : List (List Nat)} {d : Nat}
    (h : ∀ s ∈ l, d + 8 ≤ s.length) :
    (l.map (strWeight d)).sum = (l.map (strWeight (d + 8))).sum + 8 * l.length := by
  induction l with
  | nil => simp
  | cons s l ih =>
      have hs := h s (by simp)
      have hrest := ih (fun t ht => h t (by simp [ht]))
      simp only [List.map_cons, List.sum_cons, List.length_cons]
      unfold strWeight
      unfold strWeight at hrest
      omega

/-! ### Facts about the run decomposition -/

theorem wfStr_of_mem {ss : List (List Nat)} (hwf : wfSet ss = true)
    {s : List Nat} (hs : s ∈ ss) : wfStr s = true := by
  unfold wfSet at hwf
  rw [List.all_eq_true] at hwf
  exact hwf s hs

theorem headD_mem {α : Type} {r : List α} (h : r ≠ []) (x : α) :
    r.headD x ∈ r := by
  cases r with
  | nil => exact absurd rfl h
  | cons a t => simp

theorem runsF_facts (f : List Nat → Nat) :
    ∀ l : List (List Nat),
    catList (runsF f l) = l ∧
    (∀ r ∈ runsF f l, r ≠ [] ∧ ∀ a ∈ r, f a = f (r.headD [])) ∧
    List.Chain' (fun r r' => f (r.headD []) ≠ f (r'.headD [])) (runsF f l) ∧
    (∀ r rs', runsF f l = r :: rs' → r.headD [] = l.headD []) := by
  intro l
  induction l with
  | nil =>
      refine ⟨rfl, ?_, ?_, ?_⟩
      · intro r hr; simp [runsF] at hr
      · simp [runsF]
      · intro r rs' h; simp [runsF] at h
  | cons x xs ih =>
      cases xs with
      | nil =>
          refine ⟨rfl, ?_, ?_, ?_⟩
          · intro r hr
            simp only [runsF, List.mem_singleton] at hr
            subst hr
            exact ⟨by simp, by intro a ha; simp at ha; simp [ha]⟩
          · simp [runsF]
          · intro r rs' h
            simp only [runsF] at h
            cases h
            rfl
      | cons y ys =>
          obtain ⟨ihcat, ihne, ihch, ihhd⟩ := ih
          have hne : runsF f (y :: ys) ≠ [] := by
            intro hnil
            rw [hnil] at ihcat
            exact List.noConfusion ihcat
          obtain ⟨r, rs, hrw⟩ := List.exists_cons_of_ne_nil hne
          have hreq : runsF f (x :: y :: ys) =
              if f x = f y then (x :: r) :: rs else [x] :: r :: rs := by
            show (match runsF f (y :: ys) with
              | [] => [[x]]
              | r :: rs => if f x = f y then (x :: r) :: rs
                else [x] :: r :: rs) = _
            rw [hrw]
          have hhead : r.headD [] = y := ihhd r rs hrw
          rw [hrw] at ihcat ihne ihch
          by_cases hxy : f x = f y
          · rw [hreq, if_pos hxy]
            refine ⟨?_, ?_, ?_, ?_⟩
            · show (x :: r) ++ catList rs = x :: y :: ys
              have : r ++ catList rs = y :: ys := ihcat
              simp [this]
            · intro r' hr'
              rcases List.mem_cons.mp hr' with h | h
              · subst h
                refine ⟨by simp, ?_⟩
                intro a ha
                rcases List.mem_cons.mp ha with h | h
                · subst h; rfl
                · have hfr := (ihne r (by simp)).2 a h
                  rw [hfr, hhead]
                  show f y = f ((x :: r).headD [])
                  simp [← hxy]
              · exact ihne r' (by simp [h])
            · cases rs with
              | nil => simp
              | cons r2 rs2 =>
                  rw [List.chain'_cons] at ihch ⊢
                  refine ⟨?_, ihch.2⟩
                  have := ihch.1
                  rw [hhead] at this
                  show f ((x :: r).headD []) ≠ f (r2.headD [])
                  simpa [hxy] using this
            · intro r' rs' h
              cases h
              rfl
          · rw [hreq, if_neg hxy]
            refine ⟨?_, ?_, ?_, ?_⟩
            · show [x] ++ (r ++ catList rs) = x :: y :: ys
              have : r ++ catList rs = y :: ys := ihcat
              simp [this]
            · intro r' hr'
              rcases List.mem_cons.mp hr' with h | h
              · subst h
                exact ⟨by simp, by intro a ha; simp at ha; simp [ha]⟩
              · exact ihne r' h
            · rw [List.chain'_cons]
              refine ⟨?_, ihch⟩
              rw [hhead]
              simpa using hxy
            · intro r' rs' h
              cases h
              rfl

/-- A sorted concatenation is pairwise ordered across its segments. -/
theorem sorted_catList_pairwise {rel : List Nat → List Nat → Prop} :
    ∀ {rs : List (List (List Nat))}, (catList rs).Pairwise rel →
    rs.Pairwise (fun r r' => ∀ a ∈ r, ∀ b ∈ r', rel a b) := by
  intro rs
  induction rs with
  | nil => intro _; exact List.Pairwise.nil
  | cons r rs ih =>
      intro h
      rw [show catList (r :: rs) = r ++ catList rs from rfl,
        List.pairwise_append] at h
      refine List.Pairwise.cons ?_ (ih h.2.1)
      intro r' hr' a ha b hb
      exact h.2.2 a ha b (mem_catList.mpr ⟨r', hr', hb⟩)

theorem iscRec_out (d : Nat) : ∀ (prev : Option Nat) (rs : List (List (List Nat))),
    (iscRec d prev rs).out = catList (rs.map (fun r =>
      if r.length ≤ 1 then r
      else if keyAt (r.headD []) d % 256 ≠ 0 then insSortAt (d + 8) r
      else r)) := by
  intro prev rs
  induction rs generalizing prev with
  | nil => rfl
  | cons r rs ih =>
      have hstep : (iscRec d prev (r :: rs)).out
          = (if r.length ≤ 1 then (⟨r, [], []⟩ : SortRes)
             else if keyAt (r.headD []) d % 256 ≠ 0 then insRes (d + 8) r
             else ⟨r, fillWr (d + lcpKeyDepth (keyAt (r.headD []) d)) r.length,
               []⟩).out
            ++ (iscRec d (some (keyAt (r.headD []) d)) rs).out := by
        show (iscRec d prev (r :: rs)).out = _
        cases prev <;> rfl
      rw [hstep, ih (some (keyAt (r.headD []) d))]
      show _ ++ _ = _ ++ _
      congr 1
      dsimp only
      split_ifs <;> rfl

theorem head_chain_strict {d : Nat} :
    ∀ {rs : List (List (List Nat))},
    rs.Pairwise (fun r r' => ∀ a ∈ r, ∀ b ∈ r', kLe d a b) →
    (∀ r ∈ rs, r ≠ []) →
    List.Chain' (fun r r' =>
      keyAt (r.headD []) d ≠ keyAt (r'.headD []) d) rs →
    List.Chain' (fun r r' =>
      keyAt (r.headD []) d < keyAt (r'.headD []) d) rs := by
  intro rs
  induction rs with
  | nil => intro _ _ _; exact List.chain'_nil
  | cons r1 rs ih =>
      intro hw hne hch
      cases rs with
      | nil => simp
      | cons r2 rs2 =>
          rw [List.chain'_cons] at hch ⊢
          rw [List.pairwise_cons] at hw
          refine ⟨?_, ih hw.2 (fun r hr => hne r (by simp [hr])) hch.2⟩
          have h1 : kLe d (r1.headD []) (r2.headD []) :=
            hw.1 r2 (by simp) _ (headD_mem (hne r1 (by simp)) [])
              _ (headD_mem (hne r2 (by simp)) [])
          have h2 := hch.1
          unfold kLe at h1
          omega

theorem runs_key_strict {d : Nat} {rs : List (List (List Nat))}
    (hsort : (catList rs).Sorted (kLe d))
    (hne : ∀ r ∈ rs, r ≠ [] ∧
      ∀ a ∈ r, keyAt a d = keyAt (r.headD []) d)
    (hch : List.Chain' (fun r r' =>
      keyAt (r.headD []) d ≠ keyAt (r'.headD []) d) rs) :
    rs.Pairwise (fun r r' => ∀ a ∈ r, ∀ b ∈ r',
      keyAt a d < keyAt b d) := by
  have hweak : rs.Pairwise (fun r r' => ∀ a ∈ r, ∀ b ∈ r', kLe d a b) :=
    sorted_catList_pairwise hsort
  have hchS := head_chain_strict hweak (fun r hr => (hne r hr).1) hch
  haveI : IsTrans (List (List Nat))
      (fun r r' => keyAt (r.headD []) d < keyAt (r'.headD []) d) :=
    ⟨fun _ _ _ h1 h2 => Nat.lt_trans h1 h2⟩
  have hP := List.chain'_iff_pairwise.mp hchS
  apply List.Pairwise.imp_of_mem ?_ hP
  intro r r' hr hr' hlt a ha b hb
  rw [(hne _ hr).2 a ha, (hne _ hr').2 b hb]
  exact hlt

/-- `insertion_sort_cache<false>` on a clean cache sorts its input. -/
theorem isc_main {d : Nat} {ss : List (List Nat)} (hwf : wfSet ss = true)
    (htake : ∀ a ∈ ss, ∀ b ∈ ss, a.take d = b.take d) :
    (iscRes d ss).out.Perm ss ∧ (iscRes d ss).out.Sorted sLe := by
  unfold iscRes
  split_ifs with h1
  · exact ⟨List.Perm.refl _, sorted_len_le_one h1⟩
  · obtain ⟨hcat, hne, hch, _⟩ :=
      runsF_facts (fun s => keyAt s d) (List.insertionSort (kLe d) ss)
    have harrp : (List.insertionSort (kLe d) ss).Perm ss :=
      List.perm_insertionSort _ _
    have harrs : (List.insertionSort (kLe d) ss).Sorted (kLe d) :=
      List.sorted_insertionSort _ _
    set rs := runsF (fun s => keyAt s d) (List.insertionSort (kLe d) ss)
      with hrs
    have hmem : ∀ r ∈ rs, ∀ a ∈ r, a ∈ ss := fun r hr a ha =>
      harrp.mem_iff.mp (by rw [← hcat]; exact mem_catList.mpr ⟨r, hr, ha⟩)
    rw [iscRec_out]
    have hgperm : ∀ r : List (List Nat),
        (if r.length ≤ 1 then r
         else if keyAt (r.headD []) d % 256 ≠ 0 then insSortAt (d + 8) r
         else r).Perm r := by
      intro r
      split_ifs
      · exact List.Perm.refl _
      · exact insSortAt_perm _ _
      · exact List.Perm.refl _
    constructor
    · have h2 : (catList (rs.map (fun r =>
          if r.length ≤ 1 then r
          else if keyAt (r.headD []) d % 256 ≠ 0 then insSortAt (d + 8) r
          else r))).Perm (catList rs) := by
        apply catList_perm_of_forall₂
        rw [List.forall₂_map_left_iff]
        apply List.forall₂_same.mpr
        intro r _
        exact hgperm r
      rw [hcat] at h2
      exact h2.trans harrp
    · apply sorted_catList
      · intro l hl
        rw [List.mem_map] at hl
        obtain ⟨r, hr, hlr⟩ := hl
        rw [← hlr]
        have hrne := (hne r hr).1
        have hrconst := (hne r hr).2
        split_ifs with hlen hbyte
        · exact sorted_len_le_one hlen
        · -- deeper insertion sort of a run with a live key
          apply insSortAt_sorted
          intro a ha b hb
          have hka : keyAt a d = keyAt (r.headD []) d := hrconst a ha
          have hkb : keyAt b d = keyAt (r.headD []) d := hrconst b hb
          have hwa := wfStr_of_mem hwf (hmem r hr a ha)
          have hwb := wfStr_of_mem hwf (hmem r hr b hb)
          have hbyte7 : keyByte (keyAt a d) 7 ≠ 0 := by
            rw [keyByte_seven, hka]
            exact hbyte
          exact (take_extend_of_keyAt_eq hwa hwb
            (htake a (hmem r hr a ha) b (hmem r hr b hb))
            (by rw [hka, hkb]) hbyte7).1
        · -- NUL-terminated key: all strings of the run are equal
          apply sorted_of_all_eq
          intro a ha b hb
          have hwa := wfStr_of_mem hwf (hmem r hr a ha)
          have hwb := wfStr_of_mem hwf (hmem r hr b hb)
          apply eq_of_keyAt_eq_zero hwa hwb
            (htake a (hmem r hr a ha) b (hmem r hr b hb))
            (by rw [hrconst a ha, hrconst b hb]) (show 7 < 8 by norm_num)
          rw [keyByte_seven, hrconst a ha]
          omega
      · rw [List.pairwise_map]
        have hstrict := runs_key_strict (by rw [hcat]; exact harrs) hne hch
        apply List.Pairwise.imp_of_mem ?_ hstrict
        intro r r' hr hr' hlt a ha b hb
        have ha' : a ∈ r := (hgperm r).mem_iff.mp ha
        have hb' : b ∈ r' := (hgperm r').mem_iff.mp hb
        have hwa := wfStr_of_mem hwf (hmem r hr a ha')
        have hwb := wfStr_of_mem hwf (hmem r' hr' b hb')
        exact lexLe_of_lexLt (lexLt_of_keyAt_lt hwa hwb
          (htake a (hmem r hr a ha') b (hmem r' hr' b hb'))
          (hlt a ha' b hb'))

/-! ### Per-step bucket analysis -/

theorem step_out_perm_sorted {bktnum : Nat} {sp : List Nat} {d : Nat}
    {ss : List (List Nat)} {R : Nat → SortRes}
    (hsps : sp.Sorted (· ≤ ·)) (hwf : wfSet ss = true)
    (htake : ∀ a ∈ ss, ∀ b ∈ ss, a.take d = b.take d)
    (hbn : ∀ s ∈ ss, bucketOf sp d s < bktnum)
    (hperm : ∀ i, i < bktnum →
      (R i).out.Perm (ss.filter (fun s => bucketOf sp d s == i)))
    (hsort : ∀ i, i < bktnum → (R i).out.Sorted sLe) :
    (combineRes ((List.range bktnum).map R)).out.Perm ss ∧
    (combineRes ((List.range bktnum).map R)).out.Sorted sLe := by
  rw [combineRes_out, List.map_map]
  constructor
  · have h1 : (catList ((List.range bktnum).map (SortRes.out ∘ R))).Perm
        (catList ((List.range bktnum).map
          (fun i => ss.filter (fun s => bucketOf sp d s == i)))) := by
      apply catList_perm_of_forall₂
      rw [List.forall₂_map_left_iff, List.forall₂_map_right_iff]
      apply List.forall₂_same.mpr
      intro i hi
      exact hperm i (List.mem_range.mp hi)
    exact h1.trans (buckets_partition hbn)
  · apply sorted_catList
    · intro l hl
      rw [List.mem_map] at hl
      obtain ⟨i, hi, hl⟩ := hl
      rw [← hl]
      exact hsort i (List.mem_range.mp hi)
    · rw [List.pairwise_map]
      apply List.Pairwise.imp_of_mem ?_ (List.pairwise_lt_range bktnum)
      intro i j hi hj hij a ha b hb
      have hia := (hperm i (List.mem_range.mp hi)).mem_iff.mp ha
      have hjb := (hperm j (List.mem_range.mp hj)).mem_iff.mp hb
      rw [List.mem_filter] at hia hjb
      have hba : bucketOf sp d a = i := by simpa using hia.2
      have hbb : bucketOf sp d b = j := by simpa using hjb.2
      have hk : keyAt a d < keyAt b d := by
        by_contra hc
        push_neg at hc
        have := classifyK_mono hsps hc
        unfold bucketOf at hba hbb
        omega
      exact lexLe_of_lexLt (lexLt_of_keyAt_lt (wfStr_of_mem hwf hia.1)
        (wfStr_of_mem hwf hjb.1) (htake a hia.1 b hjb.1) hk)

/-- Shape invariant of the routing decisions, shared by the parallel and
the sequential step: kept buckets are small or terminal equal buckets,
recursion is at the splitter-LCP depth on even buckets and at `d + 8` on
live equal buckets. -/
def routeOK (sp : List Nat) (d i sz : Nat) : Route → Prop
  | .stay => sz ≤ 1
  | .term _ => i % 2 = 1 ∧ splHigh sp (i / 2) = true
  | .go _ d' => 1 ≤ sz ∧
      ((i % 2 = 0 ∧ d' = d + splLow sp (i / 2)) ∨
       (i % 2 = 1 ∧ splHigh sp (i / 2) = false ∧ d' = d + 8))

theorem parRoute_ok {sp : List Nat} {nsp : Nat} (hspl : sp.length = nsp)
    (d i sz : Nat) (hi : i < 2 * nsp + 1) :
    routeOK sp d i sz (parRoute sp (2 * nsp + 1) d i sz) := by
  unfold parRoute
  split_ifs with h1 h2 h3 h4
  · exact h1
  · show 1 ≤ sz ∧ _
    refine ⟨by omega, Or.inl ⟨by omega, ?_⟩⟩
    have h0 : splLow sp (i / 2) = 0 := by
      rw [splLow, if_pos]
      right
      rw [hspl]
      omega
    omega
  · exact ⟨by omega, Or.inl ⟨h3, rfl⟩⟩
  · exact ⟨by omega, h4⟩
  · show 1 ≤ sz ∧ _
    exact ⟨by omega, Or.inr ⟨by omega, by simpa using h4, rfl⟩⟩

theorem seqRoute_ok (sp : List Nat) (d i sz : Nat) (stl : Bool) :
    routeOK sp d i sz (seqRoute sp d i sz stl) := by
  unfold seqRoute
  split_ifs with h1 h2 h3 h4 h5 h6 h7
  · show sz ≤ 1
    omega
  · exact ⟨by omega, Or.inl ⟨h2, rfl⟩⟩
  · exact ⟨by omega, Or.inl ⟨h2, rfl⟩⟩
  · exact ⟨by omega, Or.inl ⟨h2, rfl⟩⟩
  · exact ⟨by omega, h5⟩
  · exact ⟨by omega, Or.inr ⟨by omega, by simpa using h5, rfl⟩⟩
  · exact ⟨by omega, Or.inr ⟨by omega, by simpa using h5, rfl⟩⟩
  · exact ⟨by omega, Or.inr ⟨by omega, by simpa using h5, rfl⟩⟩

theorem modeSlack_le (m : PMode) : modeSlack m ≤ 2 := by
  cases m <;> simp [modeSlack]

/-- The heart of the per-level argument: under well-formed input with a
shared `d`-byte front, any routing that satisfies `routeOK` (both the
parallel and the sequential step do) yields a sorted permutation,
provided the one-step-smaller pipeline (`rec`) is correct on all
measure-decreased calls. -/
theorem step_buckets_main (rec : RecT) {sp : List Nat} {nsp : Nat}
    (hspl : sp.length = nsp) (hsps : sp.Sorted (· ≤ ·)) (hns : 1 ≤ nsp)
    {d : Nat} {ss : List (List Nat)} (path : List Nat)
    (hwf : wfSet ss = true)
    (htake : ∀ a ∈ ss, ∀ b ∈ ss, a.take d = b.take d)
    (hlen : ∀ s ∈ ss, d ≤ s.length)
    (hspmem : 1 ≤ ss.length → ∀ m, m < nsp →
      ∃ s, s ∈ ss ∧ sp.getD m 0 = keyAt s d)
    {B : Nat → List (List Nat)}
    (hB : ∀ i, (B i).Perm (ss.filter (fun s => bucketOf sp d s == i)))
    {routeF : Nat → Route}
    (hroute : ∀ i, i < 2 * nsp + 1 → routeOK sp d i (B i).length (routeF i))
    {S : Nat}
    (hrec : ∀ (m' : PMode) (p' : List Nat) (Bl : List (List Nat)) (d' : Nat),
      3 * mps Bl d' + modeSlack m' + 1 ≤ 3 * mps ss d + S →
      wfSet Bl = true → (∀ a ∈ Bl, ∀ b ∈ Bl, a.take d' = b.take d') →
      (∀ s ∈ Bl, d' ≤ s.length) →
      ((rec m' p' Bl d').out.Perm Bl ∧ (rec m' p' Bl d').out.Sorted sLe)) :
    (combineRes ((List.range (2 * nsp + 1)).map
      (fun i => routeRes rec path i (B i) (routeF i)))).out.Perm ss ∧
    (combineRes ((List.range (2 * nsp + 1)).map
      (fun i => routeRes rec path i (B i) (routeF i)))).out.Sorted sLe := by
  have hbmem : ∀ i, ∀ x ∈ B i, x ∈ ss ∧ bucketOf sp d x = i := by
    intro i x hx
    have h1 := (hB i).mem_iff.mp hx
    rw [List.mem_filter] at h1
    exact ⟨h1.1, by simpa using h1.2⟩
  have hwfB : ∀ i, wfSet (B i) = true := by
    intro i
    unfold wfSet
    rw [List.all_eq_true]
    exact fun x hx => wfStr_of_mem hwf (hbmem i x hx).1
  have hkey : ∀ i, i < 2 * nsp + 1 →
      (routeRes rec path i (B i) (routeF i)).out.Perm (B i) ∧
      (routeRes rec path i (B i) (routeF i)).out.Sorted sLe := by
    intro i hi
    have hro := hroute i hi
    cases hF : routeF i with
    | stay =>
        rw [hF] at hro
        exact ⟨List.Perm.refl _, sorted_len_le_one hro⟩
    | term v =>
        rw [hF] at hro
        obtain ⟨hodd, hhigh⟩ := hro
        refine ⟨List.Perm.refl _, ?_⟩
        apply sorted_of_all_eq
        intro a ha b hb
        obtain ⟨has, hab⟩ := hbmem i a ha
        obtain ⟨hbs, hbb⟩ := hbmem i b hb
        obtain ⟨hlt2, hkeya⟩ := bucket_odd_key hodd hab
        obtain ⟨-, hkeyb⟩ := bucket_odd_key hodd hbb
        apply eq_of_keyAt_eq_zero (wfStr_of_mem hwf has) (wfStr_of_mem hwf hbs)
          (htake a has b hbs) (by rw [← hkeya, ← hkeyb])
          (show 7 < 8 by norm_num)
        rw [keyByte_seven, ← hkeya]
        unfold splHigh at hhigh
        simpa using hhigh
    | go m' d' =>
        rw [hF] at hro
        obtain ⟨hsz, hcase⟩ := hro
        have hssne : 1 ≤ ss.length := by
          have h1 : B i ≠ [] := by
            intro h
            rw [h] at hsz
            simp at hsz
          obtain ⟨x, hx⟩ := List.exists_mem_of_ne_nil _ h1
          have := (hbmem i x hx).1
          cases ss with
          | nil => simp at this
          | cons a t => simp
        have hsub : (B i).Subperm ss :=
          (hB i).subperm.trans (List.filter_sublist ss).subperm
        have hslack := modeSlack_le m'
        rcases hcase with ⟨heven, hd'⟩ | ⟨hodd, hhigh, hd'⟩
        · -- even bucket: depth advances by the splitter LCP,
          -- bucket strictly smaller
          have hstrict : (B i).length < ss.length := by
            rw [(hB i).length_eq]
            apply even_bucket_strict hsps ?_ heven
            obtain ⟨s, hs, hkey0⟩ := hspmem hssne 0 (by omega)
            exact ⟨s, hs, 0, by rw [hspl]; omega, hkey0⟩
          have hdle : d ≤ d' := by omega
          have hmps := mps_le_of_parts hdle hsub
          have hmeas : 3 * mps (B i) d' + modeSlack m' + 1
              ≤ 3 * mps ss d + S := by
            unfold mps
            unfold mps at hmps
            omega
          -- take/length agreement at the advanced depth
          have htl : (∀ a ∈ B i, ∀ b ∈ B i, a.take d' = b.take d') ∧
              (∀ s ∈ B i, d' ≤ s.length) := by
            by_cases hm : i / 2 = 0 ∨ sp.length ≤ i / 2
            · have h0 : splLow sp (i / 2) = 0 := by rw [splLow, if_pos hm]
              rw [h0] at hd'
              subst hd'
              constructor
              · intro a ha b hb
                simpa using htake a (hbmem i a ha).1 b (hbmem i b hb).1
              · intro s hs
                have := hlen s (hbmem i s hs).1
                omega
            · push_neg at hm
              have hL : splLow sp (i / 2)
                  = lcpKeyType (sp.getD (i / 2 - 1) 0) (sp.getD (i / 2) 0) := by
                rw [splLow, if_neg (by push_neg; exact hm)]
              obtain ⟨pa, hpa, hpaeq⟩ :=
                hspmem hssne (i / 2 - 1) (by rw [hspl] at hm; omega)
              obtain ⟨pb, hpb, hpbeq⟩ :=
                hspmem hssne (i / 2) (by rw [hspl] at hm; omega)
              have hint : ∀ x ∈ B i,
                  keyAt pa d < keyAt x d ∧ keyAt x d < keyAt pb d := by
                intro x hx
                obtain ⟨hxs, hxb⟩ := hbmem i x hx
                have hcls : classifyK sp (keyAt x d) = 2 * (i / 2) := by
                  unfold bucketOf at hxb
                  omega
                obtain ⟨e1, e2, e3⟩ := classifyK_even hsps hcls
                constructor
                · rw [← hpaeq]
                  exact e2 (i / 2 - 1) (by omega)
                · rw [← hpbeq]
                  exact e3 (i / 2) le_rfl hm.2
              have hLd : d' = d +
                  lcpKeyType (keyAt pa d) (keyAt pb d) := by
                rw [hd', hL, hpaeq, hpbeq]
              have hbt : ∀ a ∈ B i, ∀ b ∈ B i,
                  a.take d' = b.take d' ∧ d' ≤ a.length ∧ d' ≤ b.length := by
                intro a ha b hb
                have h1 := hint a ha
                have h2 := hint b hb
                rw [hLd]
                exact between_take (wfStr_of_mem hwf (hbmem i a ha).1)
                  (wfStr_of_mem hwf (hbmem i b hb).1)
                  (wfStr_of_mem hwf hpa) (wfStr_of_mem hwf hpb)
                  (htake a (hbmem i a ha).1 b (hbmem i b hb).1)
                  (hlen a (hbmem i a ha).1) (hlen b (hbmem i b hb).1)
                  h1.1 h1.2 h2.1 h2.2
              constructor
              · intro a ha b hb
                exact (hbt a ha b hb).1
              · intro s hs
                exact (hbt s hs s hs).2.1
          have hres := hrec m' (path ++ [i]) (B i) d' hmeas (hwfB i) htl.1 htl.2
          exact hres
        · -- live equal bucket: depth advances by the full key length
          have hkeys : ∀ x ∈ B i, keyAt x d = sp.getD (i / 2) 0 := by
            intro x hx
            exact (bucket_odd_key hodd (hbmem i x hx).2).2.symm
          have hbyte : ∀ x ∈ B i, keyByte (keyAt x d) 7 ≠ 0 := by
            intro x hx
            rw [keyByte_seven, hkeys x hx]
            unfold splHigh at hhigh
            simpa using hhigh
          have hext : ∀ a ∈ B i, ∀ b ∈ B i,
              a.take (d + 8) = b.take (d + 8) ∧ d + 8 ≤ a.length ∧
              d + 8 ≤ b.length := by
            intro a ha b hb
            exact take_extend_of_keyAt_eq
              (wfStr_of_mem hwf (hbmem i a ha).1)
              (wfStr_of_mem hwf (hbmem i b hb).1)
              (htake a (hbmem i a ha).1 b (hbmem i b hb).1)
              (by rw [hkeys a ha, hkeys b hb]) (hbyte a ha)
          have hlen8 : ∀ s ∈ B i, d + 8 ≤ s.length := by
            intro s hs
            exact (hext s hs s hs).2.1
          have hshift := sumW_shift8 hlen8
          have hmps := mps_le_of_parts (le_refl d) hsub
          have hmeas : 3 * mps (B i) (d + 8) + modeSlack m' + 1
              ≤ 3 * mps ss d + S := by
            unfold mps
            unfold mps at hmps
            omega
          subst hd'
          exact hrec m' (path ++ [i]) (B i) (d + 8) hmeas (hwfB i)
            (fun a ha b hb => (hext a ha b hb).1) hlen8
  apply step_out_perm_sorted hsps hwf htake
  · intro s hs
    have := bucketOf_lt sp d s
    rw [hspl] at this
    exact this
  · exact fun i hi => ((hkey i hi).1).trans (hB i)
  · exact fun i hi => (hkey i hi).2

/-! ### MKQS region facts -/

theorem mkqs_pairs {d : Nat} {ss : List (List Nat)} (hn : 1 ≤ ss.length) :
    ∀ x, x < ss.length → (mkqsArr d ss x).1 ∈ ss ∧
    (mkqsArr d ss x).2 = keyAt ((mkqsArr d ss x).1) d := by
  have c6 := (mkqs_spec d ss hn).2.2.2.2.2.1
  intro x hx
  have hmem : mkqsArr d ss x ∈ (List.range ss.length).map (mkqsArr d ss) :=
    List.mem_map.mpr ⟨x, List.mem_range.mpr hx, rfl⟩
  have h2 := c6.mem_iff.mp hmem
  rw [List.mem_map] at h2
  obtain ⟨j, hj, heq⟩ := h2
  rw [List.mem_range] at hj
  rw [← heq]
  exact ⟨getD_mem_of_lt _ _ hj, rfl⟩

theorem mkqsLtL_facts {d : Nat} {ss : List (List Nat)} (hn : 1 ≤ ss.length) :
    ∀ x ∈ mkqsLtL d ss, x ∈ ss ∧ keyAt x d < mkqsPivot d ss := by
  obtain ⟨c1, c2, c3, c4, c5, c6, c7⟩ := mkqs_spec d ss hn
  intro x hx
  rw [mkqsLtL, List.mem_map] at hx
  obtain ⟨idx, hidx, heq⟩ := hx
  rw [List.mem_range] at hidx
  obtain ⟨hp1, hp2⟩ := mkqs_pairs hn idx (by omega)
  rw [← heq]
  refine ⟨hp1, ?_⟩
  rw [← hp2]
  exact c3 idx hidx

theorem mkqsEqL_facts {d : Nat} {ss : List (List Nat)} (hn : 1 ≤ ss.length) :
    ∀ x ∈ mkqsEqL d ss, x ∈ ss ∧ keyAt x d = mkqsPivot d ss := by
  obtain ⟨c1, c2, c3, c4, c5, c6, c7⟩ := mkqs_spec d ss hn
  intro x hx
  rw [mkqsEqL, List.mem_map] at hx
  obtain ⟨idx, hidx, heq⟩ := hx
  rw [List.mem_range] at hidx
  obtain ⟨hp1, hp2⟩ := mkqs_pairs hn (mkqsNumLt d ss + idx) (by omega)
  rw [← heq]
  refine ⟨hp1, ?_⟩
  rw [← hp2]
  exact c4 _ (by omega) (by omega)

theorem mkqsGtL_facts {d : Nat} {ss : List (List Nat)} (hn : 1 ≤ ss.length) :
    ∀ x ∈ mkqsGtL d ss, x ∈ ss ∧ mkqsPivot d ss < keyAt x d := by
  obtain ⟨c1, c2, c3, c4, c5, c6, c7⟩ := mkqs_spec d ss hn
  intro x hx
  rw [mkqsGtL, List.mem_map] at hx
  obtain ⟨idx, hidx, heq⟩ := hx
  rw [List.mem_range] at hidx
  obtain ⟨hp1, hp2⟩ := mkqs_pairs hn (mkqsNumLt d ss + mkqsNumEq d ss + idx)
    (by omega)
  rw [← heq]
  refine ⟨hp1, ?_⟩
  rw [← hp2]
  exact c5 _ (by omega) (by omega)

theorem mkqs_regions_concat {d : Nat} {ss : List (List Nat)}
    (hn : 1 ≤ ss.length) :
    mkqsLtL d ss ++ mkqsEqL d ss ++ mkqsGtL d ss
      = (List.range ss.length).map (fun i => (mkqsArr d ss i).1) := by
  have c1 := (mkqs_spec d ss hn).1
  conv_rhs => rw [← c1]
  rw [List.range_add, List.range_add]
  simp only [List.map_append, List.map_map]
  rfl

theorem mkqs_map_perm {d : Nat} {ss : List (List Nat)} (hn : 1 ≤ ss.length) :
    ((List.range ss.length).map (fun i => (mkqsArr d ss i).1)).Perm ss := by
  have c6 := (mkqs_spec d ss hn).2.2.2.2.2.1
  have h1 := c6.map Prod.fst
  rw [List.map_map, List.map_map] at h1
  have h2 : (List.range ss.length).map (Prod.fst ∘ mkqsF0 d ss) = ss := by
    rw [show Prod.fst ∘ mkqsF0 d ss = fun i => ss.getD i [] from rfl]
    exact map_getD_range_eq ss
  rw [h2] at h1
  exact h1

theorem mkqs_regions_perm {d : Nat} {ss : List (List Nat)}
    (hn : 1 ≤ ss.length) :
    (mkqsLtL d ss ++ mkqsEqL d ss ++ mkqsGtL d ss).Perm ss := by
  rw [mkqs_regions_concat hn]
  exact mkqs_map_perm hn

theorem mkqsLtL_length (d : Nat) (ss : List (List Nat)) :
    (mkqsLtL d ss).length = mkqsNumLt d ss := by simp [mkqsLtL]

theorem mkqsEqL_length (d : Nat) (ss : List (List Nat)) :
    (mkqsEqL d ss).length = mkqsNumEq d ss := by simp [mkqsEqL]

theorem mkqsGtL_length (d : Nat) (ss : List (List Nat)) :
    (mkqsGtL d ss).length = mkqsNumGt d ss := by simp [mkqsGtL]

theorem mkqsLtL_subperm {d : Nat} {ss : List (List Nat)} (hn : 1 ≤ ss.length) :
    (mkqsLtL d ss).Subperm ss := by
  have h1 : (mkqsLtL d ss).Sublist
      (mkqsLtL d ss ++ mkqsEqL d ss ++ mkqsGtL d ss) := by
    rw [List.append_assoc]
    exact List.sublist_append_left _ _
  exact h1.subperm.trans (mkqs_regions_perm hn).subperm

theorem mkqsEqL_subperm {d : Nat} {ss : List (List Nat)} (hn : 1 ≤ ss.length) :
    (mkqsEqL d ss).Subperm ss := by
  have h1 : (mkqsEqL d ss).Sublist
      (mkqsLtL d ss ++ mkqsEqL d ss ++ mkqsGtL d ss) := by
    rw [List.append_assoc]
    exact ((List.sublist_append_left _ _).trans
      (List.sublist_append_right _ _))
  exact h1.subperm.trans (mkqs_regions_perm hn).subperm

theorem mkqsGtL_subperm {d : Nat} {ss : List (List Nat)} (hn : 1 ≤ ss.length) :
    (mkqsGtL d ss).Subperm ss := by
  have h1 : (mkqsGtL d ss).Sublist
      (mkqsLtL d ss ++ mkqsEqL d ss ++ mkqsGtL d ss) := by
    rw [List.append_assoc]
    exact ((List.sublist_append_right _ _).trans
      (List.sublist_append_right _ _))
  exact h1.subperm.trans (mkqs_regions_perm hn).subperm

/-- `sort_mkqs_cache` produces a sorted permutation, given correctness
of the one-step-smaller pipeline on measure-decreased calls. -/
theorem mkqsBody_main (ok : Oracle) (rec : RecT) (path : List Nat)
    {ss : List (List Nat)} {d : Nat}
    (hwf : wfSet ss = true)
    (htake : ∀ a ∈ ss, ∀ b ∈ ss, a.take d = b.take d)
    (hlen : ∀ s ∈ ss, d ≤ s.length)
    (hrec : ∀ (m' : PMode) (p' : List Nat) (Bl : List (List Nat)) (d' : Nat),
      3 * mps Bl d' + modeSlack m' + 1 ≤ 3 * mps ss d →
      wfSet Bl = true → (∀ a ∈ Bl, ∀ b ∈ Bl, a.take d' = b.take d') →
      (∀ s ∈ Bl, d' ≤ s.length) →
      ((rec m' p' Bl d').out.Perm Bl ∧ (rec m' p' Bl d').out.Sorted sLe)) :
    (mkqsBody ok rec path ss d).out.Perm ss ∧
    (mkqsBody ok rec path ss d).out.Sorted sLe := by
  unfold mkqsBody
  split_ifs with hsmall
  · exact ⟨insSortAt_perm d ss, insSortAt_sorted htake⟩
  · push_neg at hsmall
    have hn : 1 ≤ ss.length := by omega
    have hwfR : ∀ l : List (List Nat), (∀ x ∈ l, x ∈ ss) → wfSet l = true := by
      intro l hl
      unfold wfSet
      rw [List.all_eq_true]
      exact fun x hx => wfStr_of_mem hwf (hl x hx)
    have c1 := (mkqs_spec d ss hn).1
    have c2 := (mkqs_spec d ss hn).2.1
    -- the `<` area
    have hLt : (mkqsLtRes ok rec path ss d).out.Perm (mkqsLtL d ss) ∧
        (mkqsLtRes ok rec path ss d).out.Sorted sLe := by
      have hmemss : ∀ x ∈ mkqsLtL d ss, x ∈ ss :=
        fun x hx => (mkqsLtL_facts hn x hx).1
      have htakeL : ∀ a ∈ mkqsLtL d ss, ∀ b ∈ mkqsLtL d ss,
          a.take d = b.take d :=
        fun a ha b hb => htake a (hmemss a ha) b (hmemss b hb)
      have hlenL : ∀ s ∈ mkqsLtL d ss, d ≤ s.length :=
        fun s hs => hlen s (hmemss s hs)
      have hmeasL : ∀ m' : PMode,
          3 * mps (mkqsLtL d ss) d + modeSlack m' + 1 ≤ 3 * mps ss d := by
        intro m'
        have hmp := mps_le_of_parts (le_refl d) (@mkqsLtL_subperm d ss hn)
        have hlt : (mkqsLtL d ss).length < ss.length := by
          rw [mkqsLtL_length]
          omega
        have hm2 := modeSlack_le m'
        unfold mps at hmp ⊢
        omega
      unfold mkqsLtRes
      split_ifs with h0 hstl h32
      · have he : mkqsLtL d ss = [] := by simp [mkqsLtL, h0]
        rw [he]
        exact ⟨List.Perm.nil, List.sorted_nil⟩
      · exact hrec .enq _ _ d (hmeasL .enq) (hwfR _ hmemss) htakeL hlenL
      · exact isc_main (hwfR _ hmemss) htakeL
      · exact hrec .mkqs _ _ d (hmeasL .mkqs) (hwfR _ hmemss) htakeL hlenL
    -- the `>` area
    have hGt : (mkqsGtRes ok rec path ss d).out.Perm (mkqsGtL d ss) ∧
        (mkqsGtRes ok rec path ss d).out.Sorted sLe := by
      have hmemss : ∀ x ∈ mkqsGtL d ss, x ∈ ss :=
        fun x hx => (mkqsGtL_facts hn x hx).1
      have htakeL : ∀ a ∈ mkqsGtL d ss, ∀ b ∈ mkqsGtL d ss,
          a.take d = b.take d :=
        fun a ha b hb => htake a (hmemss a ha) b (hmemss b hb)
      have hlenL : ∀ s ∈ mkqsGtL d ss, d ≤ s.length :=
        fun s hs => hlen s (hmemss s hs)
      have hmeasL : ∀ m' : PMode,
          3 * mps (mkqsGtL d ss) d + modeSlack m' + 1 ≤ 3 * mps ss d := by
        intro m'
        have hmp := mps_le_of_parts (le_refl d) (@mkqsGtL_subperm d ss hn)
        have hlt : (mkqsGtL d ss).length < ss.length := by
          rw [mkqsGtL_length]
          omega
        have hm2 := modeSlack_le m'
        unfold mps at hmp ⊢
        omega
      unfold mkqsGtRes
      split_ifs with h0 hstl h32
      · have he : mkqsGtL d ss = [] := by simp [mkqsGtL, h0]
        rw [he]
        exact ⟨List.Perm.nil, List.sorted_nil⟩
      · exact hrec .enq _ _ d (hmeasL .enq) (hwfR _ hmemss) htakeL hlenL
      · exact isc_main (hwfR _ hmemss) htakeL
      · exact hrec .mkqs _ _ d (hmeasL .mkqs) (hwfR _ hmemss) htakeL hlenL
    -- the `=` area
    have hEq : (mkqsEqRes ok rec path ss d).out.Perm (mkqsEqL d ss) ∧
        (mkqsEqRes ok rec path ss d).out.Sorted sLe := by
      have hmemss : ∀ x ∈ mkqsEqL d ss, x ∈ ss :=
        fun x hx => (mkqsEqL_facts hn x hx).1
      have hkeysE : ∀ x ∈ mkqsEqL d ss, keyAt x d = mkqsPivot d ss :=
        fun x hx => (mkqsEqL_facts hn x hx).2
      unfold mkqsEqRes
      split_ifs with hterm hstl h32
      · -- NUL-terminated pivot: all strings of the area coincide
        have hz : mkqsPivot d ss % 256 = 0 := by
          unfold mkqsEqRec at hterm
          simpa using hterm
        refine ⟨List.Perm.refl _, sorted_of_all_eq ?_⟩
        intro a ha b hb
        apply eq_of_keyAt_eq_zero (wfStr_of_mem hwf (hmemss a ha))
          (wfStr_of_mem hwf (hmemss b hb))
          (htake a (hmemss a ha) b (hmemss b hb))
          (by rw [hkeysE a ha, hkeysE b hb]) (show 7 < 8 by norm_num)
        rw [keyByte_seven, hkeysE a ha]
        exact hz
      all_goals {
        have hlive : mkqsPivot d ss % 256 ≠ 0 := by
          have h : mkqsEqRec d ss = true := by
            cases hb : mkqsEqRec d ss
            · exact absurd hb hterm
            · rfl
          unfold mkqsEqRec at h
          simpa using h
        have hext : ∀ a ∈ mkqsEqL d ss, ∀ b ∈ mkqsEqL d ss,
            a.take (d + 8) = b.take (d + 8) ∧ d + 8 ≤ a.length ∧
            d + 8 ≤ b.length := by
          intro a ha b hb
          apply take_extend_of_keyAt_eq (wfStr_of_mem hwf (hmemss a ha))
            (wfStr_of_mem hwf (hmemss b hb))
            (htake a (hmemss a ha) b (hmemss b hb))
            (by rw [hkeysE a ha, hkeysE b hb])
          rw [keyByte_seven, hkeysE a ha]
          exact hlive
        have htake8 : ∀ a ∈ mkqsEqL d ss, ∀ b ∈ mkqsEqL d ss,
            a.take (d + 8) = b.take (d + 8) :=
          fun a ha b hb => (hext a ha b hb).1
        have hlen8 : ∀ s ∈ mkqsEqL d ss, d + 8 ≤ s.length :=
          fun s hs => (hext s hs s hs).2.1
        have hmeasE : ∀ m' : PMode,
            3 * mps (mkqsEqL d ss) (d + 8) + modeSlack m' + 1
              ≤ 3 * mps ss d := by
          intro m'
          have hmp := mps_le_of_parts (le_refl d) (@mkqsEqL_subperm d ss hn)
          have hshift := sumW_shift8 hlen8
          have hlenE : 1 ≤ (mkqsEqL d ss).length := by
            rw [mkqsEqL_length]
            omega
          have hm2 := modeSlack_le m'
          unfold mps at hmp ⊢
          omega
        first
        | exact hrec .enq _ _ (d + 8) (hmeasE .enq) (hwfR _ hmemss)
            htake8 hlen8
        | exact ⟨insSortAt_perm _ _, insSortAt_sorted htake8⟩
        | exact hrec .mkqs _ _ (d + 8) (hmeasE .mkqs) (hwfR _ hmemss)
            htake8 hlen8 }
    -- assembly
    have hmemLt : ∀ x ∈ (mkqsLtRes ok rec path ss d).out,
        x ∈ ss ∧ keyAt x d < mkqsPivot d ss :=
      fun x hx => mkqsLtL_facts hn x (hLt.1.mem_iff.mp hx)
    have hmemEq : ∀ x ∈ (mkqsEqRes ok rec path ss d).out,
        x ∈ ss ∧ keyAt x d = mkqsPivot d ss :=
      fun x hx => mkqsEqL_facts hn x (hEq.1.mem_iff.mp hx)
    have hmemGt : ∀ x ∈ (mkqsGtRes ok rec path ss d).out,
        x ∈ ss ∧ mkqsPivot d ss < keyAt x d :=
      fun x hx => mkqsGtL_facts hn x (hGt.1.mem_iff.mp hx)
    have hcross : ∀ a b : List Nat, a ∈ ss → b ∈ ss →
        keyAt a d < keyAt b d → sLe a b := by
      intro a b ha hb hk
      exact lexLe_of_lexLt (lexLt_of_keyAt_lt (wfStr_of_mem hwf ha)
        (wfStr_of_mem hwf hb) (htake a ha b hb) hk)
    constructor
    · show ((mkqsLtRes ok rec path ss d).out ++
          ((mkqsEqRes ok rec path ss d).out ++
            ((mkqsGtRes ok rec path ss d).out ++ []))).Perm ss
      rw [List.append_nil]
      have hp := hLt.1.append (hEq.1.append hGt.1)
      apply hp.trans
      rw [← List.append_assoc]
      exact mkqs_regions_perm hn
    · show List.Sorted sLe ((mkqsLtRes ok rec path ss d).out ++
          ((mkqsEqRes ok rec path ss d).out ++
            ((mkqsGtRes ok rec path ss d).out ++ [])))
      rw [List.append_nil]
      rw [List.Sorted, List.pairwise_append]
      refine ⟨hLt.2, ?_, ?_⟩
      · rw [List.pairwise_append]
        refine ⟨hEq.2, hGt.2, ?_⟩
        intro a ha b hb
        exact hcross a b (hmemEq a ha).1 (hmemGt b hb).1
          (by rw [(hmemEq a ha).2]; exact (hmemGt b hb).2)
      · intro a ha b hb
        rcases List.mem_append.mp hb with h | h
        · exact hcross a b (hmemLt a ha).1 (hmemEq b h).1
            (by rw [(hmemEq b h).2]; exact (hmemLt a ha).2)
        · exact hcross a b (hmemLt a ha).1 (hmemGt b h).1
            (Nat.lt_trans (hmemLt a ha).2 (hmemGt b h).2)

/-- A parallel `SampleSortStep` produces a sorted permutation. -/
theorem parBody_main (ok : Oracle) (st : Nat) (rec : RecT) (path : List Nat)
    {ss : List (List Nat)} {d : Nat} (hns : 1 ≤ ok.nsp)
    (hwf : wfSet ss = true)
    (htake : ∀ a ∈ ss, ∀ b ∈ ss, a.take d = b.take d)
    (hlen : ∀ s ∈ ss, d ≤ s.length)
    (hrec : ∀ (m' : PMode) (p' : List Nat) (Bl : List (List Nat)) (d' : Nat),
      3 * mps Bl d' + modeSlack m' + 1 ≤ 3 * mps ss d + 1 →
      wfSet Bl = true → (∀ a ∈ Bl, ∀ b ∈ Bl, a.take d' = b.take d') →
      (∀ s ∈ Bl, d' ≤ s.length) →
      ((rec m' p' Bl d').out.Perm Bl ∧ (rec m' p' Bl d').out.Sorted sLe)) :
    (parBody ok st rec path ss d).out.Perm ss ∧
    (parBody ok st rec path ss d).out.Sorted sLe := by
  have hcl := step_buckets_main rec (splitOf_length ok path d ss)
    (splitOf_sorted ok path d ss) hns path hwf htake hlen
    (fun hne m hm => splitOf_mem_key ok path d ss hm hne)
    (fun i => bucketPar_perm (splitOf ok path d ss) d
      (stepParts ss.length st) (stepPsize ss.length st) ss i
      (parts_psize_ge ss.length st))
    (fun i hi => parRoute_ok (splitOf_length ok path d ss) d i _ hi)
    hrec
  exact hcl

/-- A sequential sample sort level produces a sorted permutation. -/
theorem seqBody_main (ok : Oracle) (rec : RecT) (path : List Nat)
    {ss : List (List Nat)} {d : Nat} (hns : 1 ≤ ok.nsp)
    (hwf : wfSet ss = true)
    (htake : ∀ a ∈ ss, ∀ b ∈ ss, a.take d = b.take d)
    (hlen : ∀ s ∈ ss, d ≤ s.length)
    (hrec : ∀ (m' : PMode) (p' : List Nat) (Bl : List (List Nat)) (d' : Nat),
      3 * mps Bl d' + modeSlack m' + 1 ≤ 3 * mps ss d + 0 →
      wfSet Bl = true → (∀ a ∈ Bl, ∀ b ∈ Bl, a.take d' = b.take d') →
      (∀ s ∈ Bl, d' ≤ s.length) →
      ((rec m' p' Bl d').out.Perm Bl ∧ (rec m' p' Bl d').out.Sorted sLe)) :
    (seqBody ok rec path ss d).out.Perm ss ∧
    (seqBody ok rec path ss d).out.Sorted sLe := by
  have hcl := step_buckets_main rec (splitOf_length ok path d ss)
    (splitOf_sorted ok path d ss) hns path hwf htake hlen
    (fun hne m hm => splitOf_mem_key ok path d ss hm hne)
    (fun i => (List.reverse_perm _))
    (fun i hi => seqRoute_ok (splitOf ok path d ss) d i _
      (ok.steal (path ++ [i])))
    hrec
  exact hcl

/-- Master theorem 1: with sufficient fuel the pipeline emits a sorted
permutation of its input, for every oracle, threshold and mode. -/
theorem psSort_main (ok : Oracle) (st : Nat) (hns : 1 ≤ ok.nsp) :
    ∀ (fuel : Nat) (m : PMode) (path : List Nat) (ss : List (List Nat))
    (d : Nat), 3 * mps ss d + modeSlack m ≤ fuel →
    wfSet ss = true → (∀ a ∈ ss, ∀ b ∈ ss, a.take d = b.take d) →
    (∀ s ∈ ss, d ≤ s.length) →
    (psSort ok st fuel m path ss d).out.Perm ss ∧
    (psSort ok st fuel m path ss d).out.Sorted sLe := by
  intro fuel
  induction fuel with
  | zero =>
      intro m path ss d hf hwf htake hlen
      have hss : ss = [] := by
        unfold mps at hf
        have h0 : ss.length = 0 := by omega
        exact List.length_eq_zero.mp h0
      subst hss
      exact ⟨List.Perm.nil, List.sorted_nil⟩
  | succ fuel ih =>
      intro m path ss d hf hwf htake hlen
      cases m with
      | enq =>
          show (enqBody st (psSort ok st fuel) path ss d).out.Perm ss ∧
            (enqBody st (psSort ok st fuel) path ss d).out.Sorted sLe
          unfold enqBody
          have h2 : modeSlack PMode.enq = 2 := rfl
          rw [h2] at hf
          split_ifs with h1
          · exact ih .par path ss d (by show _ + 1 ≤ _; omega) hwf htake hlen
          · exact ih .small path ss d (by show _ + 1 ≤ _; omega) hwf htake hlen
      | small =>
          show (smallBody (psSort ok st fuel) path ss d).out.Perm ss ∧
            (smallBody (psSort ok st fuel) path ss d).out.Sorted sLe
          unfold smallBody
          have h2 : modeSlack PMode.small = 1 := rfl
          rw [h2] at hf
          split_ifs with h1
          · exact ih .seqss path ss d (by show _ + 0 ≤ _; omega) hwf htake hlen
          · exact ih .mkqs path ss d (by show _ + 0 ≤ _; omega) hwf htake hlen
      | par =>
          have h2 : modeSlack PMode.par = 1 := rfl
          rw [h2] at hf
          exact parBody_main ok st (psSort ok st fuel) path hns hwf htake hlen
            (fun m' p' Bl d' hm hwf' htake' hlen' =>
              ih m' p' Bl d' (by omega) hwf' htake' hlen')
      | seqss =>
          have h2 : modeSlack PMode.seqss = 0 := rfl
          rw [h2] at hf
          exact seqBody_main ok (psSort ok st fuel) path hns hwf htake hlen
            (fun m' p' Bl d' hm hwf' htake' hlen' =>
              ih m' p' Bl d' (by omega) hwf' htake' hlen')
      | mkqs =>
          have h2 : modeSlack PMode.mkqs = 0 := rfl
          rw [h2] at hf
          exact mkqsBody_main ok (psSort ok st fuel) path hwf htake hlen
            (fun m' p' Bl d' hm hwf' htake' hlen' =>
              ih m' p' Bl d' (by omega) hwf' htake' hlen')

/-- The full entry point sorts: `parallel_sample_sort` returns a sorted
permutation of its input for every oracle and thread count. -/
theorem psTop_main (ok : Oracle) (T : Nat) (ss : List (List Nat)) (d : Nat)
    (hns : 1 ≤ ok.nsp) (hwf : wfSet ss = true)
    (htake : ∀ a ∈ ss, ∀ b ∈ ss, a.take d = b.take d)
    (hlen : ∀ s ∈ ss, d ≤ s.length) :
    (psTop ok T ss d).out.Perm ss ∧ (psTop ok T ss d).out.Sorted sLe := by
  unfold psTop fuelFor
  exact psSort_main ok (sequentialThreshold ss.length T) hns _ .enq [] ss d
    (by show 3 * mps ss d + 2 ≤ 3 * mps ss d + 2; omega) hwf htake hlen

/-! ### Longest-common-front facts, towards LCP-write correctness -/

theorem lcpLen_append (x u v : List Nat) :
    lcpLen (x ++ u) (x ++ v) = x.length + lcpLen u v := by
  induction x with
  | nil => simp
  | cons a x ih =>
      have hstep : lcpLen (a :: (x ++ u)) (a :: (x ++ v))
          = lcpLen (x ++ u) (x ++ v) + 1 := by
        show (if a = a then lcpLen (x ++ u) (x ++ v) + 1 else 0) = _
        rw [if_pos rfl]
      show lcpLen (a :: (x ++ u)) (a :: (x ++ v)) = _
      rw [hstep, ih]
      simp only [List.length_cons]
      omega

theorem lcpLen_self (a : List Nat) : lcpLen a a = a.length := by
  induction a with
  | nil => rfl
  | cons x a ih =>
      have hstep : lcpLen (x :: a) (x :: a) = lcpLen a a + 1 := by
        show (if x = x then lcpLen a a + 1 else 0) = _
        rw [if_pos rfl]
      rw [hstep, ih]
      rfl

theorem lcpLen_decomp {a b : List Nat} {d : Nat} (htake : a.take d = b.take d)
    (hda : d ≤ a.length) :
    lcpLen a b = d + lcpLen (a.drop d) (b.drop d) := by
  conv_lhs => rw [← List.take_append_drop d a, ← List.take_append_drop d b,
    ← htake]
  rw [lcpLen_append, List.length_take]
  omega

theorem lcpLen_eq_of_agree_ne :
    ∀ (m : Nat) (a b : List Nat),
    (∀ j, j < m → byteAtS a j = byteAtS b j) → m ≤ a.length → m ≤ b.length →
    byteAtS a m ≠ byteAtS b m → lcpLen a b = m := by
  intro m
  induction m with
  | zero =>
      intro a b _ _ _ hne
      match a, b with
      | [], [] => exact absurd rfl hne
      | [], y :: t => rfl
      | x :: s, [] => rfl
      | x :: s, y :: t =>
          show (if x = y then lcpLen s t + 1 else 0) = 0
          rw [if_neg]
          intro hxy
          exact hne (by simpa [byteAtS] using hxy)
  | succ m ih =>
      intro a b hagree hla hlb hne
      match a, b with
      | x :: s, y :: t =>
          have hx : x = y := by
            have := hagree 0 (by omega)
            simpa [byteAtS] using this
          show (if x = y then lcpLen s t + 1 else 0) = m + 1
          rw [if_pos hx]
          have hrec : lcpLen s t = m := by
            apply ih s t
            · intro j hj
              have := hagree (j + 1) (by omega)
              simpa [byteAtS] using this
            · simp at hla; omega
            · simp at hlb; omega
            · intro hc
              apply hne
              simpa [byteAtS] using hc
          omega

/-- Two strings with a shared `d`-byte front, both reaching `d`, whose
keys at `d` differ, have LCP exactly `d` plus the shared key bytes. -/
theorem lcpLen_eq_of_keyAt_ne {a b : List Nat} (hwa : wfStr a = true)
    (hwb : wfStr b = true) {d : Nat} (htake : a.take d = b.take d)
    (hda : d ≤ a.length) (hdb : d ≤ b.length)
    (hne : keyAt a d ≠ keyAt b d) :
    lcpLen a b = d + lcpKeyType (keyAt a d) (keyAt b d) := by
  set L := lcpKeyType (keyAt a d) (keyAt b d) with hL
  have hL8 : L < 8 :=
    lcpKeyType_lt_of_ne (keyAt_lt a hwa d) (keyAt_lt b hwb d) hne
  have hagreeK : ∀ j, j < L → keyByte (keyAt a d) j = keyByte (keyAt b d) j :=
    fun j hj => lcpKeyType_agree hj
  have hneK : keyByte (keyAt a d) L ≠ keyByte (keyAt b d) L :=
    lcpKeyType_ne hL8
  -- no shared zero byte below L: the keys would coincide
  have hnz : ∀ j, j < L → keyByte (keyAt a d) j ≠ 0 := by
    intro j hj hz
    apply hne
    apply keyBytes_inj (keyAt_lt a hwa d) (keyAt_lt b hwb d)
    intro j' hj'
    by_cases hlt : j' < j
    · exact hagreeK j' (by omega)
    · have hza : keyByte (keyAt a d) j' = 0 :=
        keyAt_pad hwa (show j ≤ j' by omega) hj' hz
      have hzb : keyByte (keyAt b d) j' = 0 :=
        keyAt_pad hwb (show j ≤ j' by omega) hj' (by rw [← hagreeK j hj]; exact hz)
      rw [hza, hzb]
  have hlenge : ∀ (c : List Nat), wfStr c = true → d ≤ c.length →
      (∀ j, j < L → keyByte (keyAt c d) j ≠ 0) → d + L ≤ c.length := by
    intro c hwc hdc hcz
    rcases Nat.eq_zero_or_pos L with h0 | h1
    · omega
    · have := hcz (L - 1) (by omega)
      rw [keyByte_keyAt hwc d (by omega)] at this
      by_contra hcon
      push_neg at hcon
      exact this (byteAtS_eq_zero_of_le (by omega))
  have hla : d + L ≤ a.length := hlenge a hwa hda hnz
  have hlb : d + L ≤ b.length := hlenge b hwb hdb
    (fun j hj => by rw [← hagreeK j hj]; exact hnz j hj)
  apply lcpLen_eq_of_agree_ne (d + L) a b
  · intro j hj
    by_cases hjd : j < d
    · exact take_getElem_eq htake hjd (by omega) (by omega)
    · have h1 : byteAtS a j = keyByte (keyAt a d) (j - d) := by
        rw [keyByte_keyAt hwa d (by omega)]
        have : d + (j - d) = j := by omega
        rw [this]
      have h2 : byteAtS b j = keyByte (keyAt b d) (j - d) := by
        rw [keyByte_keyAt hwb d (by omega)]
        have : d + (j - d) = j := by omega
        rw [this]
      rw [h1, h2, hagreeK (j - d) (by omega)]
  · exact hla
  · exact hlb
  · have h1 : byteAtS a (d + L) = keyByte (keyAt a d) L :=
      (keyByte_keyAt hwa d hL8).symm
    have h2 : byteAtS b (d + L) = keyByte (keyAt b d) L :=
      (keyByte_keyAt hwb d hL8).symm
    rw [h1, h2]
    exact hneK

/-! ### Canonical write lists -/

/-- The correct LCP content for an output segment: position `i` of the
range, for every `1 ≤ i < n`, holds the LCP of the adjacent pair. -/
def canonW (out : List (List Nat)) : List (Nat × Nat) :=
  (List.range' 1 (out.length - 1)).map
    (fun i => (i, lcpLen (out.getD (i - 1) []) (out.getD i [])))

/-- Soundness of a cache write list for an output segment: every written
position carries the distinguishing character `out[i][lcp]` (0 when the
LCP is the whole string). -/
def wcOK (out : List (List Nat)) (w : List (Nat × Nat)) : Prop :=
  ∀ pv ∈ w, 1 ≤ pv.1 ∧ pv.1 < out.length ∧
    pv.2 = byteAtS (out.getD pv.1 [])
      (lcpLen (out.getD (pv.1 - 1) []) (out.getD pv.1 []))

theorem canonW_len_le_one {out : List (List Nat)} (h : out.length ≤ 1) :
    canonW out = [] := by
  unfold canonW
  have h0 : out.length - 1 = 0 := by omega
  rw [h0]
  rfl

theorem shiftW_zero (w : List (Nat × Nat)) : shiftW 0 w = w := by
  unfold shiftW
  rw [List.map_congr_left (fun pv _ => by simp : ∀ pv ∈ w, (0 + pv.1, pv.2) = pv)]
  exact List.map_id w

theorem shiftW_shiftW (a b : Nat) (w : List (Nat × Nat)) :
    shiftW a (shiftW b w) = shiftW (a + b) w := by
  unfold shiftW
  rw [List.map_map]
  apply List.map_congr_left
  intro pv _
  show (a + (b + pv.1), pv.2) = (a + b + pv.1, pv.2)
  rw [Nat.add_assoc]

theorem shiftW_append (o : Nat) (w w' : List (Nat × Nat)) :
    shiftW o (w ++ w') = shiftW o w ++ shiftW o w' := List.map_append _ _ _

theorem shiftW_perm (o : Nat) {w w' : List (Nat × Nat)} (h : w.Perm w') :
    (shiftW o w).Perm (shiftW o w') := h.map _

theorem range'_split (s a b : Nat) :
    List.range' s (a + b) = List.range' s a ++ List.range' (s + a) b := by
  have h := List.range'_append s a b 1
  rw [show s + 1 * a = s + a by ring] at h
  rw [Nat.add_comm a b, ← h]

theorem map_add_range'_eq (a s n : Nat) :
    List.range' (a + s) n = (List.range' s n).map (fun x => a + x) := by
  induction n generalizing s with
  | zero => rfl
  | succ n ih =>
      rw [List.range'_succ, List.range'_succ, List.map_cons]
      rw [show a + s + 1 = a + (s + 1) by omega, ih (s + 1)]

/-- Splitting the canonical write list of a concatenation of two
non-empty segments: the left segment's writes, the boundary write, and
the right segment's writes shifted. -/
theorem canonW_append {A B : List (List Nat)} (hA : A ≠ []) (hB : B ≠ []) :
    canonW (A ++ B) = canonW A
      ++ (A.length, lcpLen (A.getD (A.length - 1) []) (B.getD 0 [])) ::
        shiftW A.length (canonW B) := by
  have ha : 1 ≤ A.length := by
    cases A with
    | nil => exact absurd rfl hA
    | cons x t => simp
  have hb : 1 ≤ B.length := by
    cases B with
    | nil => exact absurd rfl hB
    | cons x t => simp
  unfold canonW
  rw [List.length_append]
  have hsplit : A.length + B.length - 1
      = (A.length - 1) + (1 + (B.length - 1)) := by omega
  rw [hsplit, range'_split, List.map_append]
  congr 1
  · -- the left segment's writes
    apply List.map_congr_left
    intro i hi
    rw [List.mem_range'] at hi
    obtain ⟨t, ht, hit⟩ := hi
    have hi1 : 1 ≤ i := by omega
    have hi2 : i < A.length := by omega
    rw [List.getD_append _ _ _ _ (by omega), List.getD_append _ _ _ _ (by omega)]
  · -- boundary and right segment
    rw [show 1 + (A.length - 1) = A.length by omega,
      show 1 + (B.length - 1) = (B.length - 1) + 1 by omega, List.range'_succ,
      List.map_cons]
    congr 1
    · -- the boundary write
      rw [List.getD_append _ _ _ _ (by omega),
        List.getD_append_right _ _ _ _ (by omega)]
      rw [show A.length - A.length = 0 from by omega]
    · -- the right segment's writes, shifted
      rw [show A.length + 1 = A.length + 1 from rfl]
      have hr : List.range' (A.length + 1) (B.length - 1)
          = (List.range' 1 (B.length - 1)).map (fun x => A.length + x) := by
        exact map_add_range'_eq A.length 1 (B.length - 1)
      rw [hr, List.map_map]
      unfold shiftW
      rw [List.map_map]
      apply List.map_congr_left
      intro t ht
      rw [List.mem_range'] at ht
      obtain ⟨u, hu, htu⟩ := ht
      have ht1 : 1 ≤ t := by omega
      have ht2 : t < B.length := by omega
      show (A.length + t,
        lcpLen ((A ++ B).getD (A.length + t - 1) []) ((A ++ B).getD (A.length + t) []))
        = (A.length + t, lcpLen (B.getD (t - 1) []) (B.getD t []))
      rw [List.getD_append_right _ _ _ _ (by omega),
        List.getD_append_right _ _ _ _ (by omega)]
      rw [show A.length + t - A.length = t from by omega,
        show A.length + t - 1 - A.length = t - 1 from by omega]

/-- The canonical writes of an all-equal segment are an LCP fill with
the common length. -/
theorem fill_canon {l : List (List Nat)} {v : Nat}
    (hall : ∀ a ∈ l, ∀ b ∈ l, a = b) (hv : ∀ a ∈ l, a.length = v) :
    fillWr v l.length = canonW l := by
  unfold fillWr canonW
  apply List.map_congr_left
  intro i hi
  rw [List.mem_range'] at hi
  obtain ⟨t, ht, hit⟩ := hi
  have hi1 : 1 ≤ i := by omega
  have hi2 : i < l.length := by omega
  have h1 : l.getD (i - 1) [] ∈ l := getD_mem_of_lt _ _ (by omega)
  have h2 : l.getD i [] ∈ l := getD_mem_of_lt _ _ (by omega)
  rw [hall _ h1 _ h2, lcpLen_self, hv _ h2]

/-- Canonical decomposition of writes over a list of output segments:
per non-empty segment, the boundary write against the previous non-empty
segment's last string, then the segment's interior writes. -/
def canonSegs (prev : Option (List Nat)) (o : Nat) :
    List (List (List Nat)) → List (Nat × Nat)
  | [] => []
  | A :: rest =>
    (if A.length = 0 then [] else
      (match prev with
       | none => []
       | some last => [(o, lcpLen last (A.getD 0 []))]) ++ shiftW o (canonW A))
    ++ canonSegs (if A.length = 0 then prev else some (A.getD (A.length - 1) []))
      (o + A.length) rest

/-- The last string of an output prefix, if any. -/
def prevOf (l : List (List Nat)) : Option (List Nat) :=
  if l.length = 0 then none else some (l.getD (l.length - 1) [])

theorem canon_eq_canonSegs :
    ∀ (segs : List (List (List Nat))) (P : List (List Nat)),
    canonW (P ++ catList segs)
      = canonW P ++ canonSegs (prevOf P) P.length segs := by
  intro segs
  induction segs with
  | nil =>
      intro P
      show canonW (P ++ []) = canonW P ++ []
      rw [List.append_nil, List.append_nil]
  | cons A rest ih =>
      intro P
      have hPA : P ++ catList (A :: rest) = (P ++ A) ++ catList rest := by
        show P ++ (A ++ catList rest) = _
        rw [List.append_assoc]
      rw [hPA, ih (P ++ A)]
      have hstep : canonSegs (prevOf P) P.length (A :: rest)
          = (if A.length = 0 then [] else
              (match prevOf P with
               | none => []
               | some last => [(P.length, lcpLen last (A.getD 0 []))])
              ++ shiftW P.length (canonW A))
            ++ canonSegs (if A.length = 0 then prevOf P
                else some (A.getD (A.length - 1) []))
              (P.length + A.length) rest := rfl
      rw [hstep]
      by_cases hA0 : A.length = 0
      · have hAnil : A = [] := List.length_eq_zero.mp hA0
        subst hAnil
        rw [List.append_nil, List.length_nil, if_pos rfl, if_pos rfl,
          Nat.add_zero, List.nil_append]
      · rw [if_neg hA0, if_neg hA0]
        have hAne : A ≠ [] := by
          intro h
          rw [h] at hA0
          exact hA0 rfl
        have hlen1 : (P ++ A).length = P.length + A.length :=
          List.length_append P A
        have hprev : prevOf (P ++ A) = some (A.getD (A.length - 1) []) := by
          unfold prevOf
          rw [if_neg (by rw [hlen1]; omega)]
          rw [hlen1]
          rw [List.getD_append_right _ _ _ _ (by omega)]
          rw [show P.length + A.length - 1 - P.length = A.length - 1 from by
            omega]
        rw [hprev, hlen1, ← List.append_assoc]
        congr 1
        by_cases hP0 : P.length = 0
        · have hPnil : P = [] := List.length_eq_zero.mp hP0
          subst hPnil
          rw [List.nil_append]
          rw [show prevOf ([] : List (List Nat)) = none from rfl]
          show canonW A = canonW [] ++ ([] ++ shiftW ([] : List (List Nat)).length (canonW A))
          rw [show canonW ([] : List (List Nat)) = [] from rfl,
            List.length_nil, shiftW_zero, List.nil_append, List.nil_append]
        · have hPne : P ≠ [] := by
            intro h
            rw [h] at hP0
            exact hP0 rfl
          rw [canonW_append hPne hAne]
          rw [show prevOf P = some (P.getD (P.length - 1) []) from by
            unfold prevOf; rw [if_neg hP0]]
          rfl

/-- Writes of a combined result, as one flat list with per-segment
offsets. -/
def shCat (fld : SortRes → List (Nat × Nat)) (o : Nat) :
    List SortRes → List (Nat × Nat)
  | [] => []
  | r :: rs => shiftW o (fld r) ++ shCat fld (o + r.out.length) rs

theorem shCat_eq_shift (fld : SortRes → List (Nat × Nat))
    (hfld : ∀ r rs, fld (combineRes (r :: rs))
      = fld r ++ shiftW r.out.length (fld (combineRes rs)))
    (hnil : fld (combineRes []) = []) :
    ∀ (rs : List SortRes) (o : Nat),
    shCat fld o rs = shiftW o (fld (combineRes rs)) := by
  intro rs
  induction rs with
  | nil =>
      intro o
      rw [hnil]
      rfl
  | cons r rs ih =>
      intro o
      show shiftW o (fld r) ++ shCat fld (o + r.out.length) rs = _
      rw [ih (o + r.out.length), hfld r rs, shiftW_append, ← shiftW_shiftW]

theorem combineRes_wl_eq (rs : List SortRes) :
    (combineRes rs).wl = shCat SortRes.wl 0 rs := by
  rw [shCat_eq_shift SortRes.wl (fun r rs => rfl) rfl rs 0, shiftW_zero]

theorem combineRes_wc_eq (rs : List SortRes) :
    (combineRes rs).wc = shCat SortRes.wc 0 rs := by
  rw [shCat_eq_shift SortRes.wc (fun r rs => rfl) rfl rs 0, shiftW_zero]

/-! ### Cache-write soundness plumbing -/

theorem wcOK_nil (out : List (List Nat)) : wcOK out [] := by
  intro pv hpv
  simp at hpv

theorem wcOK_append {out : List (List Nat)} {w w' : List (Nat × Nat)}
    (h : wcOK out w) (h' : wcOK out w') : wcOK out (w ++ w') := by
  intro pv hpv
  rcases List.mem_append.mp hpv with hm | hm
  · exact h pv hm
  · exact h' pv hm

theorem getD_mid (P A C : List (List Nat)) {t : Nat} (ht : t < A.length) :
    (P ++ (A ++ C)).getD (P.length + t) [] = A.getD t [] := by
  rw [List.getD_append_right _ _ _ _ (by omega),
    show P.length + t - P.length = t from by omega,
    List.getD_append _ _ _ _ ht]

theorem wcOK_shift {P A C : List (List Nat)} {w : List (Nat × Nat)}
    (h : wcOK A w) : wcOK (P ++ (A ++ C)) (shiftW P.length w) := by
  intro pv hpv
  unfold shiftW at hpv
  rw [List.mem_map] at hpv
  obtain ⟨qv, hq, hpq⟩ := hpv
  obtain ⟨h1, h2, h3⟩ := h qv hq
  rw [← hpq]
  refine ⟨by omega, ?_, ?_⟩
  · simp only [List.length_append]
    omega
  · show qv.2 = byteAtS ((P ++ (A ++ C)).getD (P.length + qv.1) []) _
    rw [getD_mid P A C h2,
      show P.length + qv.1 - 1 = P.length + (qv.1 - 1) from by omega,
      getD_mid P A C (by omega)]
    exact h3

/-! ### Leaf write correctness -/

theorem insRes_wl_canon {d : Nat} {ss : List (List Nat)}
    (htake : ∀ a ∈ ss, ∀ b ∈ ss, a.take d = b.take d)
    (hlen : ∀ s ∈ ss, d ≤ s.length) :
    (insRes d ss).wl = canonW (insRes d ss).out := by
  show insWl d (insSortAt d ss) = canonW (insSortAt d ss)
  have hmem : ∀ x ∈ insSortAt d ss, x ∈ ss :=
    fun x hx => (insSortAt_perm d ss).mem_iff.mp hx
  have hn : (insSortAt d ss).length = ss.length :=
    (insSortAt_perm d ss).length_eq
  unfold insWl canonW
  apply List.map_congr_left
  intro i hi
  rw [List.mem_range'] at hi
  obtain ⟨t, ht, hit⟩ := hi
  have hi1 : 1 ≤ i := by omega
  have hi2 : i < (insSortAt d ss).length := by omega
  have hm1 : (insSortAt d ss).getD (i - 1) [] ∈ ss :=
    hmem _ (getD_mem_of_lt _ _ (by omega))
  have hm2 : (insSortAt d ss).getD i [] ∈ ss :=
    hmem _ (getD_mem_of_lt _ _ hi2)
  rw [← lcpLen_decomp (htake _ hm1 _ hm2) (hlen _ hm1)]

theorem insRes_wc_ok {d : Nat} {ss : List (List Nat)}
    (htake : ∀ a ∈ ss, ∀ b ∈ ss, a.take d = b.take d)
    (hlen : ∀ s ∈ ss, d ≤ s.length) :
    wcOK (insRes d ss).out (insRes d ss).wc := by
  show wcOK (insSortAt d ss) (insWc d (insSortAt d ss))
  have hmem : ∀ x ∈ insSortAt d ss, x ∈ ss :=
    fun x hx => (insSortAt_perm d ss).mem_iff.mp hx
  intro pv hpv
  unfold insWc at hpv
  rw [List.mem_map] at hpv
  obtain ⟨i, hi, hpi⟩ := hpv
  rw [List.mem_range'] at hi
  obtain ⟨t, ht, hit⟩ := hi
  have hi1 : 1 ≤ i := by omega
  have hi2 : i < (insSortAt d ss).length := by omega
  have hm1 : (insSortAt d ss).getD (i - 1) [] ∈ ss :=
    hmem _ (getD_mem_of_lt _ _ (by omega))
  have hm2 : (insSortAt d ss).getD i [] ∈ ss :=
    hmem _ (getD_mem_of_lt _ _ hi2)
  rw [← hpi]
  refine ⟨hi1, hi2, ?_⟩
  show _ = byteAtS ((insSortAt d ss).getD i []) _
  rw [← lcpLen_decomp (htake _ hm1 _ hm2) (hlen _ hm1)]

theorem canonSegs_shift (o : Nat) :
    ∀ (segs : List (List (List Nat))) (prev : Option (List Nat)) (o' : Nat),
    canonSegs prev (o + o') segs = shiftW o (canonSegs prev o' segs) := by
  intro segs
  induction segs with
  | nil => intro prev o'; rfl
  | cons A rest ih =>
      intro prev o'
      show (if A.length = 0 then [] else
          (match prev with
           | none => []
           | some last => [(o + o', lcpLen last (A.getD 0 []))])
          ++ shiftW (o + o') (canonW A))
        ++ canonSegs (if A.length = 0 then prev
            else some (A.getD (A.length - 1) [])) (o + o' + A.length) rest
        = shiftW o ((if A.length = 0 then [] else
            (match prev with
             | none => []
             | some last => [(o', lcpLen last (A.getD 0 []))])
            ++ shiftW o' (canonW A))
          ++ canonSegs (if A.length = 0 then prev
              else some (A.getD (A.length - 1) [])) (o' + A.length) rest)
      rw [shiftW_append, show o + o' + A.length = o + (o' + A.length) from by
        omega, ih _ (o' + A.length)]
      congr 1
      by_cases hA0 : A.length = 0
      · rw [if_pos hA0, if_pos hA0]
        rfl
      · rw [if_neg hA0, if_neg hA0, shiftW_append, shiftW_shiftW]
        congr 1
        cases prev with
        | none => rfl
        | some last => rfl

/-- A string whose key at `d` is NUL-terminated ends exactly at
`d + lcpKeyDepth(key)`. -/
theorem len_eq_fill_value {x : List Nat} {d : Nat} (hw : wfStr x = true)
    (hd : d ≤ x.length) (hz : keyAt x d % 256 = 0) :
    x.length = d + lcpKeyDepth (keyAt x d) := by
  have h7 : byteAtS x (d + 7) = 0 := by
    rw [← keyByte_keyAt hw d (show 7 < 8 by norm_num), keyByte_seven]
    exact hz
  have hle : x.length ≤ d + 7 := (byteAtS_zero_iff hw (d + 7)).mp h7
  rw [lcpKeyDepth_keyAt hw hd]
  omega

theorem wcOK_left {A C : List (List Nat)} {w : List (Nat × Nat)}
    (h : wcOK A w) : wcOK (A ++ C) w := by
  intro pv hpv
  obtain ⟨h1, h2, h3⟩ := h pv hpv
  refine ⟨h1, by rw [List.length_append]; omega, ?_⟩
  rw [List.getD_append _ _ _ _ h2, List.getD_append _ _ _ _ (by omega)]
  exact h3

theorem canonSegs_shift0 (o : Nat) (segs : List (List (List Nat)))
    (prev : Option (List Nat)) :
    canonSegs prev o segs = shiftW o (canonSegs prev 0 segs) := by
  have h := canonSegs_shift o segs prev 0
  rw [Nat.add_zero] at h
  exact h

/-- The per-run sub-sort of the run walk of `insertion_sort_cache`
(source lines 850-877): singleton runs stand, runs with a live key
descend at `depth + 8`, NUL-terminated runs are LCP-filled. -/
def iscSub (d : Nat) (r : List (List Nat)) : SortRes :=
  if r.length ≤ 1 then ⟨r, [], []⟩
  else if keyAt (r.headD []) d % 256 ≠ 0 then insRes (d + 8) r
  else ⟨r, fillWr (d + lcpKeyDepth (keyAt (r.headD []) d)) r.length, []⟩

theorem iscRec_cons_out (d : Nat) (prev : Option Nat) (r : List (List Nat))
    (rs : List (List (List Nat))) :
    (iscRec d prev (r :: rs)).out
      = (iscSub d r).out ++ (iscRec d (some (keyAt (r.headD []) d)) rs).out :=
  by cases prev with
  | none => rfl
  | some pk => rfl

theorem iscRec_cons_none_wl (d : Nat) (r : List (List Nat))
    (rs : List (List (List Nat))) :
    (iscRec d none (r :: rs)).wl
      = (iscSub d r).wl
        ++ shiftW r.length (iscRec d (some (keyAt (r.headD []) d)) rs).wl := rfl

theorem iscRec_cons_none_wc (d : Nat) (r : List (List Nat))
    (rs : List (List (List Nat))) :
    (iscRec d none (r :: rs)).wc
      = (iscSub d r).wc
        ++ shiftW r.length (iscRec d (some (keyAt (r.headD []) d)) rs).wc := rfl

theorem iscRec_cons_some_wl (d pk : Nat) (r : List (List Nat))
    (rs : List (List (List Nat))) :
    (iscRec d (some pk) (r :: rs)).wl
      = [(0, d + lcpKeyType pk (keyAt (r.headD []) d))]
        ++ ((iscSub d r).wl
          ++ shiftW r.length (iscRec d (some (keyAt (r.headD []) d)) rs).wl) :=
  rfl

theorem iscRec_cons_some_wc (d pk : Nat) (r : List (List Nat))
    (rs : List (List (List Nat))) :
    (iscRec d (some pk) (r :: rs)).wc
      = [(0, getCharAtDepth (keyAt (r.headD []) d)
            (lcpKeyType pk (keyAt (r.headD []) d)))]
        ++ ((iscSub d r).wc
          ++ shiftW r.length (iscRec d (some (keyAt (r.headD []) d)) rs).wc) :=
  rfl

/-- The run walk of `insertion_sort_cache` writes exactly the canonical
LCPs of its output, and sound distinguishing characters. -/
theorem iscRec_writes {d : Nat} {SS : List (List Nat)}
    (hwf : wfSet SS = true)
    (htake : ∀ a ∈ SS, ∀ b ∈ SS, a.take d = b.take d)
    (hlen : ∀ s ∈ SS, d ≤ s.length) :
    ∀ (rs : List (List (List Nat))) (prev : Option Nat) (P : List (List Nat)),
    (∀ r ∈ rs, r ≠ [] ∧ (∀ a ∈ r, a ∈ SS) ∧
      (∀ a ∈ r, keyAt a d = keyAt (r.headD []) d)) →
    rs.Pairwise (fun r r' => ∀ a ∈ r, ∀ b ∈ r', keyAt a d < keyAt b d) →
    (match prev with
     | none => P = []
     | some pk => P ≠ [] ∧ (P.getD (P.length - 1) []) ∈ SS ∧
        pk = keyAt (P.getD (P.length - 1) []) d ∧
        (∀ r ∈ rs, ∀ a ∈ r, pk < keyAt a d)) →
    ((iscRec d prev rs).wl.Perm
      (canonSegs (prevOf P) 0 (rs.map (fun r =>
        if r.length ≤ 1 then r
        else if keyAt (r.headD []) d % 256 ≠ 0 then insSortAt (d + 8) r
        else r))) ∧
     wcOK (P ++ (iscRec d prev rs).out)
       (shiftW P.length (iscRec d prev rs).wc)) := by
  intro rs
  induction rs with
  | nil =>
      intro prev P hruns hpw hprev
      exact ⟨List.Perm.nil, wcOK_nil _⟩
  | cons r rs ih =>
      intro prev P hruns hpw hprev
      obtain ⟨hrne, hrSS, hrconst⟩ := hruns r (by simp)
      have hd8 : keyAt (r.headD []) d % 256 ≠ 0 →
          (∀ a ∈ r, ∀ b ∈ r, a.take (d + 8) = b.take (d + 8)) ∧
          (∀ a ∈ r, d + 8 ≤ a.length) := by
        intro hlive
        have hext : ∀ a ∈ r, ∀ b ∈ r,
            a.take (d + 8) = b.take (d + 8) ∧ d + 8 ≤ a.length ∧
            d + 8 ≤ b.length := by
          intro a ha b hb
          apply take_extend_of_keyAt_eq (wfStr_of_mem hwf (hrSS a ha))
            (wfStr_of_mem hwf (hrSS b hb))
            (htake a (hrSS a ha) b (hrSS b hb))
            (by rw [hrconst a ha, hrconst b hb])
          rw [keyByte_seven, hrconst a ha]
          exact hlive
        exact ⟨fun a ha b hb => (hext a ha b hb).1,
          fun a ha => (hext a ha a ha).2.1⟩
      set g := fun r : List (List Nat) =>
        if r.length ≤ 1 then r
        else if keyAt (r.headD []) d % 256 ≠ 0 then insSortAt (d + 8) r
        else r with hg
      set G := if r.length ≤ 1 then r
        else if keyAt (r.headD []) d % 256 ≠ 0 then insSortAt (d + 8) r
        else r with hG
      have hGperm : G.Perm r := by
        rw [hG]
        split_ifs
        · exact List.Perm.refl _
        · exact insSortAt_perm _ _
        · exact List.Perm.refl _
      have hGlen : G.length = r.length := hGperm.length_eq
      have hr1 : 1 ≤ r.length := List.length_pos.mpr hrne
      have hG1 : 1 ≤ G.length := by omega
      have hGne0 : ¬(G.length = 0) := by omega
      have hGmem : ∀ a ∈ G, a ∈ r := fun a ha => hGperm.mem_iff.mp ha
      have hfirst : G.getD 0 [] ∈ r :=
        hGmem _ (getD_mem_of_lt _ _ (by omega))
      have hkfirst : keyAt (G.getD 0 []) d = keyAt (r.headD []) d :=
        hrconst _ hfirst
      have hlast : G.getD (G.length - 1) [] ∈ r :=
        hGmem _ (getD_mem_of_lt _ _ (by omega))
      have hkey_last : keyAt (G.getD (G.length - 1) []) d
          = keyAt (r.headD []) d := hrconst _ hlast
      -- the sub-sort of the head run
      have hsubout : (iscSub d r).out = G := by
        rw [hG]
        unfold iscSub
        split_ifs <;> rfl
      have hsubwl : (iscSub d r).wl = canonW G := by
        rw [hG]
        unfold iscSub
        split_ifs with h1 h2
        · rw [canonW_len_le_one h1]
        · rw [insRes_wl_canon (hd8 h2).1 (hd8 h2).2]
          rfl
        · show fillWr (d + lcpKeyDepth (keyAt (r.headD []) d)) r.length
            = canonW r
          have hz0 : keyAt (r.headD []) d % 256 = 0 := not_not.mp h2
          have hall : ∀ a ∈ r, ∀ b ∈ r, a = b := by
            intro a ha b hb
            apply eq_of_keyAt_eq_zero (wfStr_of_mem hwf (hrSS a ha))
              (wfStr_of_mem hwf (hrSS b hb))
              (htake a (hrSS a ha) b (hrSS b hb))
              (by rw [hrconst a ha, hrconst b hb])
              (show 7 < 8 by norm_num)
            rw [keyByte_seven, hrconst a ha]
            exact hz0
          have hv : ∀ a ∈ r,
              a.length = d + lcpKeyDepth (keyAt (r.headD []) d) := by
            intro a ha
            rw [← hrconst a ha]
            exact len_eq_fill_value (wfStr_of_mem hwf (hrSS a ha))
              (hlen a (hrSS a ha)) (by rw [hrconst a ha]; exact hz0)
          exact fill_canon hall hv
      have hsubwc : wcOK G (iscSub d r).wc := by
        rw [hG]
        unfold iscSub
        split_ifs with h1 h2
        · exact wcOK_nil _
        · exact insRes_wc_ok (hd8 h2).1 (hd8 h2).2
        · exact wcOK_nil _
      -- the previous string seen by the tail
      have hlastPG : (P ++ G).getD ((P ++ G).length - 1) []
          = G.getD (G.length - 1) [] := by
        rw [List.length_append,
          List.getD_append_right _ _ _ _
            (show P.length ≤ P.length + G.length - 1 by omega),
          show P.length + G.length - 1 - P.length = G.length - 1 from by omega]
      have hprevPG : prevOf (P ++ G) = some (G.getD (G.length - 1) []) := by
        unfold prevOf
        rw [if_neg (by rw [List.length_append]; omega), hlastPG]
      have hrest := ih (some (keyAt (r.headD []) d)) (P ++ G)
        (fun r' hr' => hruns r' (List.mem_cons_of_mem r hr'))
        ((List.pairwise_cons.mp hpw).2)
        (by
          refine ⟨?_, ?_, ?_, ?_⟩
          · intro hh
            have h9 := congrArg List.length hh
            rw [List.length_append, List.length_nil] at h9
            omega
          · rw [hlastPG]
            exact hrSS _ hlast
          · rw [hlastPG]
            exact hkey_last.symm
          · intro r' hr' a ha
            exact (List.pairwise_cons.mp hpw).1 r' hr'
              (r.headD []) (headD_mem hrne []) a ha)
      rw [hprevPG] at hrest
      have hmap : List.map g (r :: rs) = G :: List.map g rs := by
        rw [List.map_cons]
      cases prev with
      | none =>
          have hP0 : P = [] := hprev
          subst hP0
          have hrhs : canonSegs (prevOf []) 0 (List.map g (r :: rs))
              = canonW G
                ++ shiftW G.length
                  (canonSegs (some (G.getD (G.length - 1) [])) 0
                    (List.map g rs)) := by
            rw [hmap]
            show (if G.length = 0 then [] else [] ++ shiftW 0 (canonW G))
              ++ canonSegs (if G.length = 0 then none
                  else some (G.getD (G.length - 1) []))
                (0 + G.length) (List.map g rs) = _
            rw [if_neg hGne0, if_neg hGne0, shiftW_zero, List.nil_append,
              Nat.zero_add,
              canonSegs_shift0 G.length (List.map g rs)
                (some (G.getD (G.length - 1) []))]
          simp only [List.nil_append] at hrest
          constructor
          · rw [iscRec_cons_none_wl, hrhs, hsubwl, ← hGlen]
            exact (List.Perm.refl _).append (shiftW_perm _ hrest.1)
          · show wcOK ([] ++ (iscRec d none (r :: rs)).out)
              (shiftW (List.length []) (iscRec d none (r :: rs)).wc)
            rw [iscRec_cons_out, iscRec_cons_none_wc, List.nil_append,
              List.length_nil, shiftW_zero, hsubout]
            apply wcOK_append
            · exact wcOK_left hsubwc
            · rw [← hGlen]
              exact hrest.2
      | some pk =>
          obtain ⟨hPne, hPmem, hpk, hplt⟩ := hprev
          have hPlen : ¬(P.length = 0) :=
            fun h => hPne (List.length_eq_zero.mp h)
          have hprevP : prevOf P = some (P.getD (P.length - 1) []) := by
            unfold prevOf
            rw [if_neg hPlen]
          have hlt : pk < keyAt (G.getD 0 []) d := by
            rw [hkfirst]
            exact hplt r (by simp) _ (headD_mem hrne [])
          have hbval : lcpLen (P.getD (P.length - 1) []) (G.getD 0 [])
              = d + lcpKeyType pk (keyAt (r.headD []) d) := by
            have h1 := lcpLen_eq_of_keyAt_ne
              (wfStr_of_mem hwf hPmem)
              (wfStr_of_mem hwf (hrSS _ hfirst))
              (htake _ hPmem _ (hrSS _ hfirst))
              (hlen _ hPmem) (hlen _ (hrSS _ hfirst))
              (by rw [← hpk]; exact Nat.ne_of_lt hlt)
            rw [h1, ← hpk, hkfirst]
          have hrhs2 : canonSegs (prevOf P) 0 (List.map g (r :: rs))
              = (0, lcpLen (P.getD (P.length - 1) []) (G.getD 0 []))
                :: (canonW G
                  ++ shiftW G.length
                    (canonSegs (some (G.getD (G.length - 1) [])) 0
                      (List.map g rs))) := by
            rw [hmap, hprevP]
            show (if G.length = 0 then []
                else [((0 : Nat),
                    lcpLen (P.getD (P.length - 1) []) (G.getD 0 []))]
                  ++ shiftW 0 (canonW G))
              ++ canonSegs (if G.length = 0
                  then some (P.getD (P.length - 1) [])
                  else some (G.getD (G.length - 1) []))
                (0 + G.length) (List.map g rs) = _
            rw [if_neg hGne0, if_neg hGne0, shiftW_zero, Nat.zero_add,
              canonSegs_shift0 G.length (List.map g rs)
                (some (G.getD (G.length - 1) []))]
            rfl
          constructor
          · rw [iscRec_cons_some_wl, hrhs2, hbval, hsubwl,
              List.singleton_append, ← hGlen]
            exact List.Perm.cons _
              ((List.Perm.refl _).append (shiftW_perm _ hrest.1))
          · rw [iscRec_cons_out, iscRec_cons_some_wc, shiftW_append,
              shiftW_append, shiftW_shiftW, hsubout]
            apply wcOK_append
            · have hone : shiftW P.length
                  [((0 : Nat), getCharAtDepth (keyAt (r.headD []) d)
                    (lcpKeyType pk (keyAt (r.headD []) d)))]
                = [(P.length, getCharAtDepth (keyAt (r.headD []) d)
                    (lcpKeyType pk (keyAt (r.headD []) d)))] := by
                show [(P.length + 0, getCharAtDepth (keyAt (r.headD []) d)
                    (lcpKeyType pk (keyAt (r.headD []) d)))] = _
                rw [Nat.add_zero]
              rw [hone]
              intro pv hpv
              rw [List.mem_singleton] at hpv
              subst hpv
              have hL8 : lcpKeyType pk (keyAt (r.headD []) d) < 8 := by
                apply lcpKeyType_lt_of_ne
                · rw [hpk]
                  exact keyAt_lt _ (wfStr_of_mem hwf hPmem) d
                · exact keyAt_lt _
                    (wfStr_of_mem hwf (hrSS _ (headD_mem hrne []))) d
                · rw [← hkfirst]
                  exact Nat.ne_of_lt hlt
              have hg0 : (P ++ (G ++ (iscRec d
                  (some (keyAt (r.headD []) d)) rs).out)).getD P.length []
                  = G.getD 0 [] := by
                have h := getD_mid P G
                  (iscRec d (some (keyAt (r.headD []) d)) rs).out
                  (show 0 < G.length by omega)
                rw [Nat.add_zero] at h
                exact h
              have hgp : (P ++ (G ++ (iscRec d
                  (some (keyAt (r.headD []) d)) rs).out)).getD
                    (P.length - 1) []
                  = P.getD (P.length - 1) [] :=
                List.getD_append _ _ _ _ (by omega)
              refine ⟨by show 1 ≤ P.length; omega, ?_, ?_⟩
              · show P.length < (P ++ (G ++ _)).length
                rw [List.length_append, List.length_append]
                omega
              · show getCharAtDepth (keyAt (r.headD []) d)
                  (lcpKeyType pk (keyAt (r.headD []) d)) = _
                rw [show (P.length : Nat) - 1 = P.length - 1 from rfl,
                  hg0, hgp, hbval]
                unfold getCharAtDepth
                rw [← hkfirst] at hL8 ⊢
                exact keyByte_keyAt (wfStr_of_mem hwf (hrSS _ hfirst)) d hL8
            · apply wcOK_append
              · exact wcOK_shift hsubwc
              · have h2 := hrest.2
                rw [List.append_assoc P G _, List.length_append, hGlen] at h2
                exact h2

/-! ### Claim theorems -/

/-- **C1**: for every well-formed input string set, after the sorting
entry point (`parallel_sample_sort` and its wrappers) completes, the
output is sorted: every adjacent pair `(a, b)` satisfies `a ≤ b` in
lexicographic byte order, in which end-of-string sorts before any
continuation (the model's strings are the NUL-free byte contents, so
the NUL terminator is exactly end-of-string). -/
theorem claim_C1 (ok : Oracle) (T : Nat) (ss : List (List Nat))
    (hns : 1 ≤ ok.nsp) (hwf : wfSet ss = true) :
    (psTop ok T ss 0).out.Sorted sLe ∧
    ∀ i, i + 1 < (psTop ok T ss 0).out.length →
      sLe ((psTop ok T ss 0).out.getD i [])
        ((psTop ok T ss 0).out.getD (i + 1) []) := by
  have hm := psTop_main ok T ss 0 hns hwf (by intro a _ b _; simp)
    (by intro s _; omega)
  refine ⟨hm.2, ?_⟩
  intro i hi
  have hp := List.pairwise_iff_getElem.mp hm.2 i (i + 1) (by omega) hi
    (by omega)
  rw [List.getD_eq_getElem _ _ (by omega), List.getD_eq_getElem _ _ hi]
  exact hp

theorem claim_C1_witness :
    (1 ≤ (Oracle.mk 1 (fun _ _ => 0) (fun _ => false)).nsp) ∧
    wfSet [[2, 1], [1]] = true ∧
    ((psTop (Oracle.mk 1 (fun _ _ => 0) (fun _ => false)) 4
        [[2, 1], [1]] 0).out.Sorted sLe ∧
     ∀ i, i + 1 < (psTop (Oracle.mk 1 (fun _ _ => 0) (fun _ => false)) 4
        [[2, 1], [1]] 0).out.length →
      sLe ((psTop (Oracle.mk 1 (fun _ _ => 0) (fun _ => false)) 4
          [[2, 1], [1]] 0).out.getD i [])
        ((psTop (Oracle.mk 1 (fun _ _ => 0) (fun _ => false)) 4
          [[2, 1], [1]] 0).out.getD (i + 1) [])) :=
  ⟨by decide, by decide,
   claim_C1 (Oracle.mk 1 (fun _ _ => 0) (fun _ => false)) 4 [[2, 1], [1]]
     (by decide) (by decide)⟩

/-- **C2**: for every well-formed input string set, the output sequence
of the sorter is a permutation of the input (multiset equality). -/
theorem claim_C2 (ok : Oracle) (T : Nat) (ss : List (List Nat))
    (hns : 1 ≤ ok.nsp) (hwf : wfSet ss = true) :
    (psTop ok T ss 0).out.Perm ss :=
  (psTop_main ok T ss 0 hns hwf (by intro a _ b _; simp)
    (by intro s _; omega)).1

theorem claim_C2_witness :
    (1 ≤ (Oracle.mk 1 (fun _ _ => 1) (fun _ => true)).nsp) ∧
    wfSet [[3], [2], [2, 5]] = true ∧
    (psTop (Oracle.mk 1 (fun _ _ => 1) (fun _ => true)) 2
      [[3], [2], [2, 5]] 0).out.Perm [[3], [2], [2, 5]] :=
  ⟨by decide, by decide,
   claim_C2 (Oracle.mk 1 (fun _ _ => 1) (fun _ => true)) 2 [[3], [2], [2, 5]]
     (by decide) (by decide)⟩

/-- **C5**: for a fixed input of pairwise distinct well-formed strings,
a run with 1 thread and a run with `T` threads produce identical output
orderings — indeed any two runs do, for arbitrary oracles (sampling
randomness and work-stealing schedules included): the output is the
unique sorted permutation of the input. -/
theorem claim_C5 (ok ok' : Oracle) (T : Nat) (ss : List (List Nat))
    (hns : 1 ≤ ok.nsp) (hns' : 1 ≤ ok'.nsp) (hwf : wfSet ss = true)
    (hdist : ss.Pairwise (· ≠ ·)) :
    (psTop ok 1 ss 0).out = (psTop ok' T ss 0).out := by
  have h1 := psTop_main ok 1 ss 0 hns hwf (by intro a _ b _; simp)
    (by intro s _; omega)
  have h2 := psTop_main ok' T ss 0 hns' hwf (by intro a _ b _; simp)
    (by intro s _; omega)
  exact List.eq_of_perm_of_sorted (h1.1.trans h2.1.symm) h1.2 h2.2

theorem claim_C5_witness :
    (1 ≤ (Oracle.mk 1 (fun _ i => i) (fun _ => false)).nsp) ∧
    (1 ≤ (Oracle.mk 2 (fun _ i => i + 3) (fun _ => true)).nsp) ∧
    wfSet [[7], [1, 2], [1]] = true ∧
    List.Pairwise (· ≠ ·) [[7], [1, 2], [1]] ∧
    (psTop (Oracle.mk 1 (fun _ i => i) (fun _ => false)) 1
        [[7], [1, 2], [1]] 0).out
      = (psTop (Oracle.mk 2 (fun _ i => i + 3) (fun _ => true)) 16
        [[7], [1, 2], [1]] 0).out :=
  ⟨by decide, by decide, by decide, by decide,
   claim_C5 (Oracle.mk 1 (fun _ i => i) (fun _ => false))
     (Oracle.mk 2 (fun _ i => i + 3) (fun _ => true)) 16 [[7], [1, 2], [1]]
     (by decide) (by decide) (by decide) (by decide)⟩

/-- **C6, counterexample**: the partition count uses the *floor* of
`n / seqThresh`, not the ceiling claimed by the spec: at
`n = 2^20 + 1` strings and threshold `2^20` the code creates 2 parts,
the claimed formula 4. -/
theorem claim_C6_counterexample :
    stepParts 1048577 1048576 = 2 ∧ claimParts 1048577 1048576 = 4 ∧
    stepParts 1048577 1048576 ≠ claimParts 1048577 1048576 := by
  refine ⟨?_, ?_, ?_⟩ <;> norm_num [stepParts, claimParts]

/-- **C6, amended**: for every parallel `SampleSortStep` over `n`
strings with `n` above the threshold, the partition count is
`clamp(floor(n / seqThresh) · 2, 1, MAXPROCS = 129)`, the part size is
`ceil(n / parts)`, and every part except the last has exactly that
size. -/
theorem claim_C6_amended {n st : Nat} (hst : 1048576 ≤ st) (hn : st < n) :
    stepParts n st = min (max (n / st * 2) 1) 129 ∧
    stepPsize n st = (n + stepParts n st - 1) / stepParts n st ∧
    (∀ p, p + 1 < stepParts n st → partLen n st p = stepPsize n st) :=
  ⟨stepParts_clamp_eq (by omega) hn, rfl,
   fun _ hp => partLen_eq_psize hst hn hp⟩

theorem claim_C6_amended_witness :
    1048576 ≤ 1048576 ∧ 1048576 < 2097153 ∧
    (stepParts 2097153 1048576 = min (max (2097153 / 1048576 * 2) 1) 129 ∧
     stepPsize 2097153 1048576
       = (2097153 + stepParts 2097153 1048576 - 1) / stepParts 2097153 1048576 ∧
     (∀ p, p + 1 < stepParts 2097153 1048576 →
       partLen 2097153 1048576 p = stepPsize 2097153 1048576)) :=
  ⟨by norm_num, by norm_num, claim_C6_amended (by norm_num) (by norm_num)⟩

/-- **C7**: in `distribute_finished`, every odd bucket of size > 1 whose
splitter LCP byte has the high bit set is finished in place: the bucket
is copied back with no child step, and `fill_lcp` writes
`d + lcpKeyDepth(splitter[i/2])` to every LCP position of the bucket's
range except the first. -/
theorem claim_C7 (lcpBits spl : Nat → Nat) (bktnum d sz i : Nat)
    (hodd : i % 2 = 1) (hlast : i ≠ bktnum - 1) (hsz : 2 ≤ sz)
    (hhigh : 128 ≤ lcpBits (i / 2)) :
    distAct lcpBits spl bktnum d sz i
      = .finishEq (d + lcpKeyDepth (spl (i / 2))) ∧
    (fillLcpL (d + lcpKeyDepth (spl (i / 2))) sz).length = sz ∧
    (fillLcpL (d + lcpKeyDepth (spl (i / 2))) sz).getD 0 none = none ∧
    (∀ t, 1 ≤ t → t < sz →
      (fillLcpL (d + lcpKeyDepth (spl (i / 2))) sz).getD t none
        = some (d + lcpKeyDepth (spl (i / 2)))) := by
  obtain ⟨m, hm⟩ : ∃ m, sz = m + 1 := ⟨sz - 1, by omega⟩
  refine ⟨?_, ?_, ?_, ?_⟩
  · unfold distAct
    rw [if_neg (by omega), if_neg hlast, if_neg (by omega),
      if_neg (by omega), if_pos hhigh]
  · subst hm
    simp [fillLcpL]
  · subst hm
    rfl
  · intro t h1 h2
    subst hm
    show (none :: List.replicate m (some (d + lcpKeyDepth (spl (i / 2))))).getD
      t none = _
    obtain ⟨u, hu⟩ : ∃ u, t = u + 1 := ⟨t - 1, by omega⟩
    subst hu
    show (List.replicate m (some (d + lcpKeyDepth (spl (i / 2))))).getD u none
      = _
    rw [List.getD_eq_getElem _ _ (by simp; omega)]
    simp

theorem claim_C7_witness :
    (1 : Nat) % 2 = 1 ∧ (1 : Nat) ≠ 3 - 1 ∧ (2 : Nat) ≤ 2 ∧
    (128 : Nat) ≤ (fun _ : Nat => (128 : Nat)) (1 / 2) ∧
    (distAct (fun _ => 128) (fun _ => 513) 3 0 2 1
        = .finishEq (0 + lcpKeyDepth ((fun _ : Nat => (513 : Nat)) (1 / 2))) ∧
     (fillLcpL (0 + lcpKeyDepth ((fun _ : Nat => (513 : Nat)) (1 / 2))) 2).length
        = 2 ∧
     (fillLcpL (0 + lcpKeyDepth ((fun _ : Nat => (513 : Nat)) (1 / 2))) 2).getD
        0 none = none ∧
     (∀ t, 1 ≤ t → t < 2 →
       (fillLcpL (0 + lcpKeyDepth ((fun _ : Nat => (513 : Nat)) (1 / 2))) 2).getD
          t none
         = some (0 + lcpKeyDepth ((fun _ : Nat => (513 : Nat)) (1 / 2))))) :=
  ⟨by decide, by decide, by decide, by decide,
   claim_C7 (fun _ => 128) (fun _ => 513) 3 0 2 1 (by decide) (by decide)
     (by decide) (by decide)⟩

/-- **C8**: in every MKQS step over at least `g_inssort_threshold = 32`
strings, the pivot is the median-of-3 of three median-of-3 values of the
cached 64-bit keys at positions `{0, n/8, n/4}`,
`{n/2 - n/8, n/2, n/2 + n/8}` and `{n-1-n/4, n-1-n/8, n-3}`. -/
theorem claim_C8 (d : Nat) (ss : List (List Nat)) (hn : 32 ≤ ss.length) :
    mkqsPivot d ss =
      median3
        (median3 (keyAt (ss.getD 0 []) d)
          (keyAt (ss.getD (ss.length / 8) []) d)
          (keyAt (ss.getD (ss.length / 4) []) d))
        (median3 (keyAt (ss.getD (ss.length / 2 - ss.length / 8) []) d)
          (keyAt (ss.getD (ss.length / 2) []) d)
          (keyAt (ss.getD (ss.length / 2 + ss.length / 8) []) d))
        (median3 (keyAt (ss.getD (ss.length - 1 - ss.length / 4) []) d)
          (keyAt (ss.getD (ss.length - 1 - ss.length / 8) []) d)
          (keyAt (ss.getD (ss.length - 3) []) d)) := by
  have h1 : mkqsPivot d ss = (fun i => (mkqsF0 d ss i).2) (mkqsP d ss) := by
    rw [mkqsPivot, mkqsF1]
    by_cases hp0 : mkqsP d ss = 0
    · rw [hp0]
      simp [swapF]
    · simp only [swapF, if_pos rfl]
      rfl
  rw [h1, mkqsP]
  dsimp only
  rw [mkqsPivotIdx_val (fun i => (mkqsF0 d ss i).2) ss.length]
  rfl

theorem claim_C8_witness :
    32 ≤ ((List.range 32).map (fun i => [i + 1])).length ∧
    mkqsPivot 0 ((List.range 32).map (fun i => [i + 1])) =
      median3
        (median3
          (keyAt (((List.range 32).map (fun i => [i + 1])).getD 0 []) 0)
          (keyAt (((List.range 32).map (fun i => [i + 1])).getD
            (((List.range 32).map (fun i => [i + 1])).length / 8) []) 0)
          (keyAt (((List.range 32).map (fun i => [i + 1])).getD
            (((List.range 32).map (fun i => [i + 1])).length / 4) []) 0))
        (median3
          (keyAt (((List.range 32).map (fun i => [i + 1])).getD
            (((List.range 32).map (fun i => [i + 1])).length / 2 -
             ((List.range 32).map (fun i => [i + 1])).length / 8) []) 0)
          (keyAt (((List.range 32).map (fun i => [i + 1])).getD
            (((List.range 32).map (fun i => [i + 1])).length / 2) []) 0)
          (keyAt (((List.range 32).map (fun i => [i + 1])).getD
            (((List.range 32).map (fun i => [i + 1])).length / 2 +
             ((List.range 32).map (fun i => [i + 1])).length / 8) []) 0))
        (median3
          (keyAt (((List.range 32).map (fun i => [i + 1])).getD
            (((List.range 32).map (fun i => [i + 1])).length - 1 -
             ((List.range 32).map (fun i => [i + 1])).length / 4) []) 0)
          (keyAt (((List.range 32).map (fun i => [i + 1])).getD
            (((List.range 32).map (fun i => [i + 1])).length - 1 -
             ((List.range 32).map (fun i => [i + 1])).length / 8) []) 0)
          (keyAt (((List.range 32).map (fun i => [i + 1])).getD
            (((List.range 32).map (fun i => [i + 1])).length - 3) []) 0)) :=
  ⟨by decide, claim_C8 0 ((List.range 32).map (fun i => [i + 1])) (by decide)⟩

/-- **C9, counterexample**: on an empty input the sorter completes
silently with empty output — the `Enqueue` router sends length 0 to the
smallsort path, `sort_mkqs_cache` takes the `< g_inssort_threshold`
branch, and the insertion sort of an empty range returns; no assertion
on the empty length is reached. -/
theorem claim_C9_counterexample :
    psTop (Oracle.mk 1 (fun _ _ => 0) (fun _ => false)) 4 [] 0
      = ⟨[], [], []⟩ := rfl

/-- **C9, amended**: for an empty input the sorter silently completes
with empty output (and writes no LCP or cache entry), for every oracle,
thread count and depth; no fatal assertion aborts the run. -/
theorem claim_C9_amended (ok : Oracle) (T d : Nat) :
    psTop ok T [] d = ⟨[], [], []⟩ := rfl

/-- **C10**: after the three-way partition of every `MKQSStep`
constructor, the three areas exactly partition the range
(`num_lt + num_eq + num_gt = n`), the equal area is non-empty
(`num_eq ≥ 1`), and `eq_recurse` is set iff the pivot key's low byte is
nonzero. -/
theorem claim_C10 (d : Nat) (ss : List (List Nat)) (hn : 1 ≤ ss.length) :
    mkqsNumLt d ss + mkqsNumEq d ss + mkqsNumGt d ss = ss.length ∧
    1 ≤ mkqsNumEq d ss ∧
    (mkqsEqRec d ss = true ↔ mkqsPivot d ss % 256 ≠ 0) :=
  ⟨(mkqs_spec d ss hn).1, (mkqs_spec d ss hn).2.1, by simp [mkqsEqRec]⟩

theorem claim_C10_witness :
    1 ≤ ([[2], [1], [3]] : List (List Nat)).length ∧
    (mkqsNumLt 0 [[2], [1], [3]] + mkqsNumEq 0 [[2], [1], [3]]
        + mkqsNumGt 0 [[2], [1], [3]] = ([[2], [1], [3]] : List (List Nat)).length ∧
     1 ≤ mkqsNumEq 0 [[2], [1], [3]] ∧
     (mkqsEqRec 0 [[2], [1], [3]] = true ↔
       mkqsPivot 0 [[2], [1], [3]] % 256 ≠ 0)) :=
  ⟨by decide, claim_C10 0 [[2], [1], [3]] (by decide)⟩

end PSS
